import Mathlib

/-!
Calcium: field merging and symbolic exponential

A shallow embedding of `ca/merge_fields.c`, `ca/exp.c` and `ca_qqbar/sin_pi.c`.

* `CaMerge` embeds `ca_merge_fields` over the index-based field table that
  `merge_fields.c` works on: the field table is a list of records, a value holds the
  index of its field, and a MULTI record lists the indices of its generator fields.
* `CaExp` embeds `ca_as_fmpq_pi_i`, `ca_is_fmpq_times_gen_as_ext` and `ca_exp` over the
  pointer-based values that `exp.c` works on: a value carries its field record, and a
  field record lists the handles of its extension generators.
* `CaQQbar` embeds `ca_qqbar_sin_pi` with 64-bit word arithmetic made explicit.
* Functions that the embedded code calls but that live outside these three files are
  either parameters (`ca_field_cmp`, the structure `ca_lib`) or small models with a doc
  comment saying so.
* In `CaMerge` and `CaExp` machine integers are unbounded: the embedding does not
  follow table sizes or exponents beyond the range of a machine word.
* Reading outside an array, reading a cell that was never written, and reading the
  wrong member of a union are undefined behaviour in C; the embedding reports them as
  `ca_fault.undefined`.  `flint_abort()` is `ca_fault.abort`.
-/

namespace CaMerge

/-- Ways in which a call fails to return. -/
inductive ca_fault where
  /-- `flint_abort()` was called. -/
  | abort
  /-- The C code has undefined behaviour (out-of-bounds access, uninitialised read). -/
  | undefined
  /-- The iteration budget of a loop of the embedding ran out (never happens for the
  budgets the embedding passes, see `merge_loop_total`). -/
  | fuel
  deriving DecidableEq, Repr

/-- The constants `CA_FIELD_TYPE_*`. -/
inductive ca_field_type where
  | QQ
  | NF
  | FUNC
  | MULTI
  deriving DecidableEq, Repr

/-- One record of the field table (`ca_field_struct`).  `nf_flag` is the flag word of
the number field handle of an NF record, `data` stands for the rest of the payload of an
NF or FUNC record (minimal polynomial, function code and arguments), which the merge
never inspects itself, and `multi_ext` is `data.multi.ext` with `data.multi.len` its
length. -/
structure ca_field_struct where
  type : ca_field_type
  nf_flag : Nat
  data : List Int
  multi_ext : List Nat
  deriving DecidableEq, Repr

/-- The part of `ca_ctx_struct` that the merge touches: the entries
`fields[0 .. fields_len)` of the field table and the capacity `fields_alloc`. -/
structure ca_ctx_struct where
  fields : List ca_field_struct
  fields_alloc : Nat
  deriving DecidableEq, Repr

/-- The number `ctx->fields_len` of records in the table. -/
def ca_ctx_struct.fields_len (ctx : ca_ctx_struct) : Nat := ctx.fields.length

/-- An `fmpz_mpoly`: its terms, each a coefficient with an exponent vector. -/
structure fmpz_mpoly_struct where
  terms : List (Int × List Nat)
  deriving DecidableEq, Repr

/-- An `fmpz_poly` header: the coefficient storage and the length in use. -/
structure fmpz_poly_struct where
  coeffs : List Int
  length : Nat
  deriving DecidableEq, Repr

/-- The union `nf_elem_struct`: a linear element (one numerator), a quadratic element
(three numerator cells) or a general element (an `fmpq_poly` whose `length` is the
length of `coeffs`). -/
inductive nf_elem_struct where
  | lelem (num : Int) (den : Int)
  | qelem (num0 num1 num2 : Int) (den : Int)
  | elem (coeffs : List Int) (den : Int)
  deriving DecidableEq, Repr

/-- The union `ca_elem_struct`: a rational, a number field element or a rational
function `num / den`. -/
inductive ca_elem_struct where
  | q (num : Int) (den : Int)
  | nf (a : nf_elem_struct)
  | mpoly_q (num den : fmpz_mpoly_struct)
  deriving DecidableEq, Repr

/-- The special values. -/
inductive ca_special where
  | PosInf
  | NegInf
  | UnsignedInf
  | Undefined
  | Unknown
  deriving DecidableEq, Repr

/-- A value (`ca_struct`): the field word, the special marker carried by the field word
(`none` for a field element) and the representation. -/
structure ca_struct where
  field : Nat
  special : Option ca_special
  elem : ca_elem_struct
  deriving DecidableEq, Repr

/-- Modelled from the spec: the macro `CA_IS_SPECIAL` is absent from the sources; a
Value is either a Special or an Element. -/
def CA_IS_SPECIAL (x : ca_struct) : Bool := x.special.isSome

/-- The helper `_slong_vec_equal(a, b, len)`: walks both arrays and answers 0 at the
first difference.  The last equation is never reached by `ca_merge_fields`, which calls
it on two arrays of `len` entries. -/
def _slong_vec_equal : List Nat → List Nat → Nat → Bool
  | _, _, 0 => true
  | a :: as, b :: bs, len + 1 => if a ≠ b then false else _slong_vec_equal as bs len
  | _, _, _ + 1 => false

/-- The working state of the merge loop: the two cursors, the cells
`fields[0 .. fields_len)` written so far, and the two index maps, whose cells are `none`
until they are written. -/
structure merge_state where
  ix : Nat
  iy : Nat
  fields : List Nat
  xgen_map : List (Option Nat)
  ygen_map : List (Option Nat)
  deriving DecidableEq, Repr

/-- The state on entry to the loop: `ix = iy = 0`, `fields_len = 0`, and two freshly
allocated maps of `xlen` and `ylen` cells. -/
def merge_init (xlen ylen : Nat) : merge_state :=
  { ix := 0, iy := 0, fields := [],
    xgen_map := List.replicate xlen none, ygen_map := List.replicate ylen none }

/-- The call `ca_field_cmp(ctx->fields + i, ctx->fields + j, ctx)` of the loop: the
comparison function applied to the two records. -/
def field_cmp_at (ca_field_cmp : ca_field_struct → ca_field_struct → Int)
    (ctx : ca_ctx_struct) (i j : Nat) : Except ca_fault Int :=
  match ctx.fields[i]?, ctx.fields[j]? with
  | some a, some b => .ok (ca_field_cmp a b)
  | _, _ => .error .undefined

/-- Take `xfields[ix]` into the merged list (`fields[fields_len] = xfields[ix];
xgen_map[ix] = fields_len; ix++; fields_len++`). -/
def take_x (st : merge_state) (fx : Nat) : merge_state :=
  { st with
    fields := st.fields ++ [fx],
    xgen_map := st.xgen_map.set st.ix (some st.fields.length),
    ix := st.ix + 1 }

/-- Take `yfields[iy]` into the merged list. -/
def take_y (st : merge_state) (fy : Nat) : merge_state :=
  { st with
    fields := st.fields ++ [fy],
    ygen_map := st.ygen_map.set st.iy (some st.fields.length),
    iy := st.iy + 1 }

/-- The branch `cmp == 0`: `xfields[ix]` is stored and both cursors advance. -/
def take_both (st : merge_state) (fx : Nat) : merge_state :=
  { st with
    fields := st.fields ++ [fx],
    xgen_map := st.xgen_map.set st.ix (some st.fields.length),
    ygen_map := st.ygen_map.set st.iy (some st.fields.length),
    ix := st.ix + 1,
    iy := st.iy + 1 }

/-- One pass through the body of `while (ix < xlen || iy < ylen)` (lines 136-176).
Both cursors in range is the branch `ix < xlen && iy < ylen` with its three-way test of
`cmp`; only `ix` in range is the branch `else if (ix < xlen)`; otherwise the last branch
reads `yfields[iy]`, which lies outside the list when `iy` is out of range too (the
loop never makes a pass in that state). -/
def merge_step (ca_field_cmp : ca_field_struct → ca_field_struct → Int)
    (ctx : ca_ctx_struct) (xfields yfields : List Nat) (st : merge_state) :
    Except ca_fault merge_state :=
  match xfields[st.ix]?, yfields[st.iy]? with
  | some fx, some fy =>
    match field_cmp_at ca_field_cmp ctx fx fy with
    | .error e => .error e
    | .ok cmp =>
      if cmp = 0 then .ok (take_both st fx)
      else if cmp = -1 then .ok (take_x st fx)
      else .ok (take_y st fy)
  | some fx, none => .ok (take_x st fx)
  | none, some fy => .ok (take_y st fy)
  | none, none => .error .undefined

/-- The loop `while (ix < xlen || iy < ylen)`, run for at most `fuel` passes. -/
def merge_loop (ca_field_cmp : ca_field_struct → ca_field_struct → Int)
    (ctx : ca_ctx_struct) (xfields yfields : List Nat) :
    Nat → merge_state → Except ca_fault merge_state
  | 0, st =>
    if st.ix < xfields.length ∨ st.iy < yfields.length then .error .fuel else .ok st
  | fuel + 1, st =>
    if st.ix < xfields.length ∨ st.iy < yfields.length then
      match merge_step ca_field_cmp ctx xfields yfields st with
      | .error e => .error e
      | .ok st1 => merge_loop ca_field_cmp ctx xfields yfields fuel st1
    else .ok st

/-- Lines 120-177: allocate the merged list and the two maps and run the loop.  No pass
leaves both cursors in place, so `xlen + ylen` passes suffice. -/
def merge_lists (ca_field_cmp : ca_field_struct → ca_field_struct → Int)
    (ctx : ca_ctx_struct) (xfields yfields : List Nat) : Except ca_fault merge_state :=
  merge_loop ca_field_cmp ctx xfields yfields (xfields.length + yfields.length)
    (merge_init xfields.length yfields.length)

/-- The records at table indices `i` and `j` compare equal. -/
def cmp_equal (ca_field_cmp : ca_field_struct → ca_field_struct → Int)
    (ctx : ca_ctx_struct) (i j : Nat) : Prop :=
  field_cmp_at ca_field_cmp ctx i j = .ok 0

/-- The record at table index `i` compares below the record at index `j`. -/
def cmp_less (ca_field_cmp : ca_field_struct → ca_field_struct → Int)
    (ctx : ca_ctx_struct) (i j : Nat) : Prop :=
  field_cmp_at ca_field_cmp ctx i j = .ok (-1)

/-- What holds of the loop state before and after every pass, whatever the comparison
function answers. -/
structure merge_inv (ca_field_cmp : ca_field_struct → ca_field_struct → Int)
    (ctx : ca_ctx_struct) (X Y : List Nat) (st : merge_state) : Prop where
  ix_le : st.ix ≤ X.length
  iy_le : st.iy ≤ Y.length
  xmap_len : st.xgen_map.length = X.length
  ymap_len : st.ygen_map.length = Y.length
  len_lo_x : st.ix ≤ st.fields.length
  len_lo_y : st.iy ≤ st.fields.length
  len_hi : st.fields.length ≤ st.ix + st.iy
  xmap : ∀ i a, i < st.ix → X[i]? = some a →
    ∃ k, st.xgen_map[i]? = some (some k) ∧ st.fields[k]? = some a
  ymap : ∀ j b, j < st.iy → Y[j]? = some b →
    ∃ k m, st.ygen_map[j]? = some (some k) ∧ st.fields[k]? = some m ∧
      (m = b ∨ (m ∈ X ∧ cmp_equal ca_field_cmp ctx m b))
  mem : ∀ m ∈ st.fields, m ∈ X ∨ m ∈ Y

/-- Every index of the list names a record of the table. -/
def indices_valid (ctx : ca_ctx_struct) (l : List Nat) : Prop :=
  ∀ i ∈ l, i < ctx.fields.length

/-- The comparison of field records is a strict total order reported as -1, 0 or 1:
it answers one of the three values, swapping the arguments negates the answer, and
"not above" is transitive. -/
structure field_order (ca_field_cmp : ca_field_struct → ca_field_struct → Int) : Prop where
  range : ∀ a b, ca_field_cmp a b = -1 ∨ ca_field_cmp a b = 0 ∨ ca_field_cmp a b = 1
  antisymm : ∀ a b, ca_field_cmp b a = - ca_field_cmp a b
  trans : ∀ a b c, ca_field_cmp a b ≤ 0 → ca_field_cmp b c ≤ 0 → ca_field_cmp a c ≤ 0

/-- The list of table indices is strictly increasing: each record compares below the
next one. -/
def strictly_increasing (ca_field_cmp : ca_field_struct → ca_field_struct → Int)
    (ctx : ca_ctx_struct) (l : List Nat) : Prop :=
  l.Chain' (cmp_less ca_field_cmp ctx)

/-- What the order adds to `merge_inv`: the merged list is increasing and lies below
everything still to be read. -/
structure merge_sorted (ca_field_cmp : ca_field_struct → ca_field_struct → Int)
    (ctx : ca_ctx_struct) (X Y : List Nat) (st : merge_state) : Prop where
  sorted : st.fields.Pairwise (cmp_less ca_field_cmp ctx)
  below_x : ∀ m ∈ st.fields, ∀ i a, st.ix ≤ i → X[i]? = some a → cmp_less ca_field_cmp ctx m a
  below_y : ∀ m ∈ st.fields, ∀ j b, st.iy ≤ j → Y[j]? = some b → cmp_less ca_field_cmp ctx m b

end CaMerge

namespace CaMerge

/-- A sample comparison of field records: by the first payload word. -/
def sample_cmp (a b : ca_field_struct) : Int :=
  if a.data.headD 0 < b.data.headD 0 then -1
  else if a.data.headD 0 = b.data.headD 0 then 0
  else 1

/-- A sample field table: QQ, three single-generator fields and the MULTI field of the
generators 1 and 2. -/
def sample_ctx : ca_ctx_struct :=
  { fields := [
      { type := .QQ, nf_flag := 0, data := [0], multi_ext := [] },
      { type := .NF, nf_flag := 4, data := [2], multi_ext := [] },
      { type := .NF, nf_flag := 4, data := [3], multi_ext := [] },
      { type := .FUNC, nf_flag := 0, data := [5], multi_ext := [] },
      { type := .MULTI, nf_flag := 0, data := [7], multi_ext := [1, 2] } ],
    fields_alloc := 8 }

end CaMerge

namespace CaMerge

/-- The constant `NF_LINEAR` of the number field library. -/
def NF_LINEAR : Nat := 2

/-- The constant `NF_QUADRATIC` of the number field library. -/
def NF_QUADRATIC : Nat := 4

/-- The helper `_nf_elem_get_fmpz_poly_den_shallow(pol, den, a, nf)`: the numerator
of `a` as a polynomial header that borrows the coefficient cells of `a`, and its
denominator.  Which member of the union is read depends on the flag word of the number
field alone; reading another member than the one `a` holds is undefined. -/
def _nf_elem_get_fmpz_poly_den_shallow (a : nf_elem_struct) (nf_flag : Nat) :
    Except ca_fault (fmpz_poly_struct × Int) :=
  if nf_flag &&& NF_LINEAR ≠ 0 then
    match a with
    | .lelem num den =>
      .ok ({ coeffs := [num], length := if num = 0 then 0 else 1 }, den)
    | _ => .error .undefined
  else if nf_flag &&& NF_QUADRATIC ≠ 0 then
    match a with
    | .qelem num0 num1 num2 den =>
      .ok ({ coeffs := [num0, num1, num2],
             length := if num1 = 0 then (if num0 = 0 then 0 else 1) else 2 }, den)
    | _ => .error .undefined
  else
    match a with
    | .elem coeffs den => .ok ({ coeffs := coeffs, length := coeffs.length }, den)
    | _ => .error .undefined

/-- The exponent vector of `x_var ^ k` in a ring of `nvars` variables. -/
def gen_power_exp (nvars var k : Nat) : List Nat :=
  (List.replicate nvars 0).set var k

/-- The library call `fmpz_mpoly_set_fmpz(A, c, ctx)`: the constant polynomial `c` of a
ring of `nvars` variables. -/
def fmpz_mpoly_set_fmpz (c : Int) (nvars : Nat) : fmpz_mpoly_struct :=
  { terms := if c = 0 then [] else [(c, List.replicate nvars 0)] }

/-- The terms `coeffs[k] * x_var ^ k`, `k` counting up from `k0`, highest power first,
zero coefficients left out. -/
def gen_poly_terms (nvars var : Nat) : List Int → Nat → List (Int × List Nat)
  | [], _ => []
  | c :: cs, k0 =>
    gen_poly_terms nvars var cs (k0 + 1) ++
      (if c = 0 then [] else [(c, gen_power_exp nvars var k0)])

/-- Modelled from the spec: `fmpz_mpoly_set_gen_fmpz_poly(res, var, pol, ctx)` is
declared in `merge_fields.c` and defined elsewhere in the repository; it installs the
dense polynomial `pol` as a univariate polynomial in the variable `var` of a ring of
`nvars` variables. -/
def fmpz_mpoly_set_gen_fmpz_poly (var : Nat) (pol : fmpz_poly_struct) (nvars : Nat) :
    fmpz_mpoly_struct :=
  { terms := gen_poly_terms nvars var (pol.coeffs.take pol.length) 0 }

/-- Add `e` to the exponent at position `k`. -/
def add_exp (exps : List Nat) (k e : Nat) : List Nat :=
  match exps, k with
  | [], _ => []
  | a :: as, 0 => (a + e) :: as
  | a :: as, k + 1 => a :: add_exp as k e

/-- The exponent vector, in a ring of `nvarsAC` variables, of the monomial with
exponents `e` after variable `i` is replaced by variable `c[i]`. -/
def compose_exps (nvarsAC : Nat) : List Nat → List Nat → List Nat
  | ci :: c, ei :: e => add_exp (compose_exps nvarsAC c e) ci ei
  | _, _ => List.replicate nvarsAC 0

/-- The first `nvarsB` cells of the array `c`, each of which must have been written and
must name a variable of the target ring. -/
def read_gen_map : List (Option Nat) → Nat → Nat → Except ca_fault (List Nat)
  | _, 0, _ => .ok []
  | some v :: rest, n + 1, nvarsAC =>
    if v < nvarsAC then
      match read_gen_map rest n nvarsAC with
      | .ok vs => .ok (v :: vs)
      | .error e => .error e
    else .error .undefined
  | _, _ + 1, _ => .error .undefined

/-- The library call `fmpz_mpoly_compose_fmpz_mpoly_gen(A, B, c, ctxB, ctxAC)`: `B`, a
polynomial of a ring of `nvarsB` variables, with variable `i` replaced by variable
`c[i]` of a ring of `nvarsAC` variables.  Terms that the renaming makes alike are listed
one after the other. -/
def fmpz_mpoly_compose_fmpz_mpoly_gen (B : fmpz_mpoly_struct) (c : List (Option Nat))
    (nvarsB nvarsAC : Nat) : Except ca_fault fmpz_mpoly_struct :=
  match read_gen_map c nvarsB nvarsAC with
  | .error e => .error e
  | .ok vs =>
    if B.terms.all (fun t => t.2.length = nvarsB) then
      .ok { terms := B.terms.map (fun t => (t.1, compose_exps nvarsAC vs t.2)) }
    else .error .undefined

/-- The generator list of a field (lines 98-118): the field itself for an NF or FUNC
field, the extension list of the record otherwise. -/
def generator_list (f : ca_field_struct) (field : Nat) : List Nat :=
  if f.type = .NF ∨ f.type = .FUNC then [field] else f.multi_ext

/-- The scan of lines 190-203 from table index `i` on: the first MULTI record whose
extension list has the length of `fields` and the same entries. -/
def cache_scan (fields : List Nat) : List ca_field_struct → Nat → Option Nat
  | [], _ => none
  | f :: rest, i =>
    if f.type = .MULTI then
      if f.multi_ext.length = fields.length then
        if _slong_vec_equal fields f.multi_ext fields.length = true then some i
        else cache_scan fields rest (i + 1)
      else cache_scan fields rest (i + 1)
    else cache_scan fields rest (i + 1)

/-- Lines 188-203: `some i` when the scan stops at record `i`, `none` when `field` is
still -1 after it. -/
def cache_lookup (ctx : ca_ctx_struct) (fields : List Nat) : Option Nat :=
  cache_scan fields ctx.fields 0

/-- Modelled from the spec: `ca_field_init_multi` followed by `ca_field_set_ext` on
every position (both absent from the sources) make the record a MULTI field whose
generator list is `fields`. -/
def ca_field_init_multi (fields : List Nat) : ca_field_struct :=
  { type := .MULTI, nf_flag := 0, data := [], multi_ext := fields }

/-- Lines 188-222: the target field index and the context after the call.  On a miss
the table doubles its capacity when it is full; the new record is then written at index
`fields_len`, which is undefined when that cell is still outside the capacity. -/
def select_field (ctx : ca_ctx_struct) (fields : List Nat) :
    Except ca_fault (Nat × ca_ctx_struct) :=
  match cache_lookup ctx fields with
  | some field => .ok (field, ctx)
  | none =>
    let field := ctx.fields_len
    let fields_alloc :=
      if field ≥ ctx.fields_alloc then 2 * ctx.fields_alloc else ctx.fields_alloc
    if field < fields_alloc then
      .ok (field, { fields := ctx.fields ++ [ca_field_init_multi fields],
                    fields_alloc := fields_alloc })
    else .error .undefined

/-- Lines 230-278 for `x` and, with the same text, lines 280-327 for `y`: the image of
the value in the target field `field`.  The result must not alias an input. -/
def lift_to_field (ctx : ca_ctx_struct) (field : Nat) (x : ca_struct)
    (gen_map : List (Option Nat)) : Except ca_fault ca_struct :=
  if x.field = field then .ok x
  else
    match ctx.fields[x.field]?, ctx.fields[field]? with
    | some fx, some fz =>
      match fx.type with
      | .NF =>
        match x.elem with
        | .nf a =>
          match _nf_elem_get_fmpz_poly_den_shallow a fx.nf_flag with
          | .error e => .error e
          | .ok (pol, den) =>
            match gen_map[0]? with
            | some (some var) =>
              if var < fz.multi_ext.length then
                .ok { field := field, special := none,
                      elem := .mpoly_q
                        (fmpz_mpoly_set_gen_fmpz_poly var pol fz.multi_ext.length)
                        (fmpz_mpoly_set_fmpz den fz.multi_ext.length) }
              else .error .undefined
            | _ => .error .undefined
        | _ => .error .undefined
      | .FUNC =>
        match x.elem with
        | .mpoly_q xnum xden =>
          match fmpz_mpoly_compose_fmpz_mpoly_gen xnum gen_map 1 fz.multi_ext.length with
          | .error e => .error e
          | .ok num =>
            match fmpz_mpoly_compose_fmpz_mpoly_gen xden gen_map 1 fz.multi_ext.length with
            | .error e => .error e
            | .ok den => .ok { field := field, special := none, elem := .mpoly_q num den }
        | _ => .error .undefined
      | _ =>
        match x.elem with
        | .mpoly_q xnum xden =>
          match fmpz_mpoly_compose_fmpz_mpoly_gen xnum gen_map fx.multi_ext.length
              fz.multi_ext.length with
          | .error e => .error e
          | .ok num =>
            match fmpz_mpoly_compose_fmpz_mpoly_gen xden gen_map fx.multi_ext.length
                fz.multi_ext.length with
            | .error e => .error e
            | .ok den => .ok { field := field, special := none, elem := .mpoly_q num den }
        | _ => .error .undefined
    | _, _ => .error .undefined

/-- The function `ca_merge_fields(resx, resy, x, y, ctx)`: the two results and the
context after the call. -/
def ca_merge_fields (ca_field_cmp : ca_field_struct → ca_field_struct → Int)
    (ctx : ca_ctx_struct) (x y : ca_struct) :
    Except ca_fault (ca_struct × ca_struct × ca_ctx_struct) :=
  if CA_IS_SPECIAL x || CA_IS_SPECIAL y then .error .abort
  else if x.field = y.field then .ok (x, y, ctx)
  else
    match ctx.fields[x.field]? with
    | none => .error .undefined
    | some fx =>
      if fx.type = .QQ then .error .abort
      else
        match ctx.fields[y.field]? with
        | none => .error .undefined
        | some fy =>
          if fy.type = .QQ then .error .abort
          else
            match merge_lists ca_field_cmp ctx (generator_list fx x.field)
                (generator_list fy y.field) with
            | .error e => .error e
            | .ok st =>
              match select_field ctx st.fields with
              | .error e => .error e
              | .ok (field, ctx1) =>
                match lift_to_field ctx1 field x st.xgen_map with
                | .error e => .error e
                | .ok resx =>
                  match lift_to_field ctx1 field y st.ygen_map with
                  | .error e => .error e
                  | .ok resy => .ok (resx, resy, ctx1)

/-- The loop state of the call with the arguments exchanged. -/
def merge_state.swap (st : merge_state) : merge_state :=
  { ix := st.iy, iy := st.ix, fields := st.fields,
    xgen_map := st.ygen_map, ygen_map := st.xgen_map }

/-- Sample values: the generators of the fields 1 and 2 of `sample_ctx`, quadratic
number field elements `0 + 1 * a`. -/
def sample_x : ca_struct :=
  { field := 1, special := none, elem := .nf (.qelem 0 1 0 1) }

/-- The generator of field 2 of `sample_ctx`. -/
def sample_y : ca_struct :=
  { field := 2, special := none, elem := .nf (.qelem 0 1 0 1) }

/-- The generator of field 3 of `sample_ctx`, a FUNC field: the rational function
`x_0 / 1`. -/
def sample_z : ca_struct :=
  { field := 3, special := none,
    elem := .mpoly_q { terms := [(1, [1])] } { terms := [(1, [0])] } }

end CaMerge

namespace CaMerge

end CaMerge

namespace CaExp

open CaMerge (ca_fault ca_special ca_field_type fmpz_mpoly_struct ca_elem_struct
  gen_power_exp)

/-- The three truth values `truth_t`. -/
inductive truth_t where
  | T_TRUE
  | T_FALSE
  | T_UNKNOWN
  deriving DecidableEq, Repr

/-- The head symbols of extension generators (`calcium_func_code`); `exp.c` names
`CA_Exp` and `CA_Log`. -/
inductive calcium_func_code where
  | CA_QQBar
  | CA_Pi
  | CA_Euler
  | CA_I
  | CA_Exp
  | CA_Log
  | CA_Sin
  | CA_Cos
  | CA_Sqrt
  | other (code : Nat)
  deriving DecidableEq, Repr

/-- A `ca_ext_ptr`: the handle of an interned extension generator. -/
abbrev ca_ext_ptr := Nat

/-- The field record that `exp.c` reads through `CA_FIELD(x, ctx)`: its variant and the
handles of its generators, in the order of the variables of its polynomial ring. -/
structure ca_field_struct where
  type : ca_field_type
  ext : List ca_ext_ptr
  deriving DecidableEq, Repr

/-- A value: a special marker, or an element of a field with its representation. -/
inductive ca_struct where
  | special (s : ca_special)
  | element (field : ca_field_struct) (elem : ca_elem_struct)
  deriving DecidableEq, Repr

/-- A rational `fmpq`: numerator and denominator cells. -/
structure fmpq where
  num : Int
  den : Int
  deriving DecidableEq, Repr

/-- The call `fmpq_init(t)`: the rational 0/1. -/
def fmpq_init : fmpq := { num := 0, den := 1 }

/-- Modelled from the spec: the macro `CA_IS_SPECIAL` is absent from the sources; a
Value is either a Special or an Element. -/
def CA_IS_SPECIAL (x : ca_struct) : Bool :=
  match x with
  | .special _ => true
  | .element _ _ => false

/-- Modelled from the spec: the macro `CA_FIELD_IS_QQ` is absent from the sources; QQ
is the field of the rationals, without generators. -/
def CA_FIELD_IS_QQ (K : ca_field_struct) : Bool := decide (K.type = .QQ)

/-- Modelled from the spec: the macro `CA_FIELD_IS_NF` is absent from the sources; NF
is a simple algebraic number field. -/
def CA_FIELD_IS_NF (K : ca_field_struct) : Bool := decide (K.type = .NF)

/-- Modelled from the spec: the macro `CA_IS_QQ(x, ctx)` is absent from the sources;
the value is an element of the QQ field. -/
def CA_IS_QQ (x : ca_struct) : Bool :=
  match x with
  | .special _ => false
  | .element K _ => CA_FIELD_IS_QQ K

/-- The QQ field record. -/
def field_qq : ca_field_struct := { type := .QQ, ext := [] }

/-- Modelled from the spec: the constructors `ca_pos_inf`, `ca_undefined`,
`ca_unknown`, `ca_zero`, `ca_one` and `ca_neg_one` are absent from the sources; each
writes the value it is named after, the numbers as elements of QQ in lowest terms. -/
def ca_pos_inf : ca_struct := .special .PosInf

/-- Modelled from the spec: see `ca_pos_inf`. -/
def ca_undefined : ca_struct := .special .Undefined

/-- Modelled from the spec: see `ca_pos_inf`. -/
def ca_unknown : ca_struct := .special .Unknown

/-- Modelled from the spec: see `ca_pos_inf`. -/
def ca_zero : ca_struct := .element field_qq (.q 0 1)

/-- Modelled from the spec: see `ca_pos_inf`. -/
def ca_one : ca_struct := .element field_qq (.q 1 1)

/-- Modelled from the spec: see `ca_pos_inf`. -/
def ca_neg_one : ca_struct := .element field_qq (.q (-1) 1)

/-- The library call `fmpz_mpoly_is_fmpz(A, ctx)`: at most one term, and that term
without variables. -/
def fmpz_mpoly_is_fmpz (A : fmpz_mpoly_struct) : Bool :=
  match A.terms with
  | [] => true
  | [t] => t.2.all (fun e => e == 0)
  | _ => false

/-- The library call `fmpz_mpoly_length(A, ctx)`. -/
def fmpz_mpoly_length (A : fmpz_mpoly_struct) : Nat := A.terms.length

/-- The library call `fmpz_mpoly_is_gen(A, var, ctx)`: `A` is the generator number
`var` when `var` is not negative, and any generator when it is. -/
def fmpz_mpoly_is_gen (A : fmpz_mpoly_struct) (var : Int) : Bool :=
  match A.terms with
  | [t] =>
    if t.1 ≠ 1 then false
    else if 0 ≤ var then
      decide (var.toNat < t.2.length) && decide (t.2 = gen_power_exp t.2.length var.toNat 1)
    else (List.range t.2.length).any (fun i => decide (t.2 = gen_power_exp t.2.length i 1))
  | _ => false

/-- The loop `for (i = 0; ; i++)` of `ca_is_fmpq_times_gen_as_ext`, from index `i` on,
with `fuel` variables of the ring of `K` still ahead.  Past the last variable the C
code asks about a variable that the ring does not have. -/
def gen_search (K : ca_field_struct) (tnum : fmpz_mpoly_struct) :
    Nat → Nat → Except ca_fault ca_ext_ptr
  | _, 0 => .error .undefined
  | i, fuel + 1 =>
    if fmpz_mpoly_is_gen tnum (i : Int) then
      match K.ext[i]? with
      | some e => .ok e
      | none => .error .undefined
    else gen_search K tnum (i + 1) fuel

/-- The function `ca_is_fmpq_times_gen_as_ext(c, x, ctx)`: the extension handle it
returns (`none` for `NULL`) and the contents of `c` after the call. -/
def ca_is_fmpq_times_gen_as_ext (c : fmpq) (x : ca_struct) :
    Except ca_fault (Option ca_ext_ptr × fmpq) :=
  match x with
  | .special _ => .ok (none, c)
  | .element K elem =>
    if CA_FIELD_IS_QQ K then .ok (none, c)
    else if CA_FIELD_IS_NF K then .ok (none, c)
    else
      match elem with
      | .mpoly_q num den =>
        if fmpz_mpoly_is_fmpz den then
          if fmpz_mpoly_length num = 1 then
            match num.terms with
            | (a, exps) :: _ =>
              if fmpz_mpoly_is_gen { terms := [(1, exps)] } (-1) then
                match den.terms with
                | (d, _) :: _ =>
                  match gen_search K { terms := [(1, exps)] } 0 K.ext.length with
                  | .ok e => .ok (some e, { num := a, den := d })
                  | .error err => .error err
                | [] => .error .undefined
              else .ok (none, c)
            | [] => .ok (none, c)
          else .ok (none, c)
        else .ok (none, c)
      | _ => .error .undefined

/-- The functions of the library that `exp.c` calls and that live in other files, over
a context state `σ` and algebraic numbers `β`.  A function that takes the context and
may extend it returns the context it leaves. -/
structure ca_lib (σ β : Type) where
  CA_EXT_HEAD : ca_ext_ptr → calcium_func_code
  CA_EXT_FUNC_ARGS : ca_ext_ptr → List ca_struct
  ca_check_is_pos_inf : σ → ca_struct → truth_t
  ca_check_is_neg_inf : σ → ca_struct → truth_t
  ca_check_is_undefined : σ → ca_struct → truth_t
  ca_check_is_uinf : σ → ca_struct → truth_t
  ca_check_is_zero : σ → ca_struct → truth_t
  ca_is_gen_as_ext : σ → ca_struct → Option ca_ext_ptr
  ca_pow_fmpq : σ → ca_struct → fmpq → ca_struct × σ
  ca_pi_i : σ → ca_struct × σ
  ca_div : σ → ca_struct → ca_struct → ca_struct × σ
  ca_i : σ → ca_struct × σ
  ca_neg_i : σ → ca_struct × σ
  qqbar_exp_pi_i : Int → Nat → β
  ca_set_qqbar : σ → β → ca_struct × σ
  ca_pow_ui : σ → ca_struct → Nat → ca_struct × σ
  _ca_ctx_get_field_fx : σ → calcium_func_code → ca_struct → ca_field_struct × σ
  _ca_mpoly_q_reduce_ideal : σ → ca_field_struct → ca_elem_struct → ca_elem_struct × σ
  ca_condense_field : σ → ca_struct → ca_struct × σ

/-- The function `ca_as_fmpq_pi_i(res, x, ctx)`: whether it found a rational, the
contents of `res` after the call, and the context it leaves. -/
def ca_as_fmpq_pi_i {σ β : Type} (lib : ca_lib σ β) (res : fmpq) (x : ca_struct)
    (ctx : σ) : Except ca_fault (Bool × fmpq × σ) :=
  match x with
  | .special _ => .ok (false, res, ctx)
  | .element K _ =>
    if CA_FIELD_IS_QQ K || CA_FIELD_IS_NF K then .ok (false, res, ctx)
    else
      let t1 := lib.ca_pi_i ctx
      let t2 := lib.ca_div t1.2 x t1.1
      if CA_IS_QQ t2.1 then
        match t2.1 with
        | .element _ (.q num den) => .ok (true, { num := num, den := den }, t2.2)
        | _ => .error .undefined
      else .ok (false, res, t2.2)

/-- Lines 151-184 of `ca_exp`: the root of unity for `t = num/den` with `den ≤ 12`.
`fmpz_get_ui` reads the absolute value of the denominator and `fmpz_fdiv_ui` throws on a
zero modulus. -/
def exp_root_of_unity {σ β : Type} (lib : ca_lib σ β) (t : fmpq) (ctx : σ) :
    Except ca_fault (ca_struct × σ) :=
  let q : Nat := t.den.natAbs
  if 2 * q = 0 then .error .abort
  else
    let p : Nat := (t.num % ((2 * q : Nat) : Int)).toNat
    if q = 1 then
      if p = 0 then .ok (ca_one, ctx) else .ok (ca_neg_one, ctx)
    else if q = 2 then
      if p = 1 then .ok (lib.ca_i ctx) else .ok (lib.ca_neg_i ctx)
    else
      let a := lib.qqbar_exp_pi_i 1 q
      let r := lib.ca_set_qqbar ctx a
      .ok (lib.ca_pow_ui r.2 r.1 p)

/-- Lines 189-193 of `ca_exp`: the generator of the field of `Exp(x)`, reduced and
condensed. -/
def exp_new_generator {σ β : Type} (lib : ca_lib σ β) (x : ca_struct) (ctx : σ) :
    ca_struct × σ :=
  let K := lib._ca_ctx_get_field_fx ctx calcium_func_code.CA_Exp x
  let e := lib._ca_mpoly_q_reduce_ideal K.2 K.1
    (.mpoly_q { terms := [(1, [1])] } { terms := [(1, [0])] })
  lib.ca_condense_field e.2 (.element K.1 e.1)

/-- The test `ext != NULL && CA_EXT_HEAD(ext) == CA_Log` of `ca_exp`: the handle when
it passes. -/
def ext_if_log {σ β : Type} (lib : ca_lib σ β) (ext : Option ca_ext_ptr) :
    Option ca_ext_ptr :=
  match ext with
  | some e => if lib.CA_EXT_HEAD e = calcium_func_code.CA_Log then some e else none
  | none => none

/-- The call `ca_set(res, CA_EXT_FUNC_ARGS(ext), ctx)`: a copy of the first cell of the
argument array of the extension. -/
def ext_first_arg {σ β : Type} (lib : ca_lib σ β) (ext : ca_ext_ptr) :
    Except ca_fault ca_struct :=
  match lib.CA_EXT_FUNC_ARGS ext with
  | a :: _ => .ok a
  | [] => .error .undefined

/-- The function `ca_exp(res, x, ctx)`: the value written to `res` and the context
after the call. -/
def ca_exp {σ β : Type} (lib : ca_lib σ β) (x : ca_struct) (ctx : σ) :
    Except ca_fault (ca_struct × σ) :=
  if CA_IS_SPECIAL x then
    if lib.ca_check_is_pos_inf ctx x = truth_t.T_TRUE then .ok (ca_pos_inf, ctx)
    else if lib.ca_check_is_neg_inf ctx x = truth_t.T_TRUE then .ok (ca_zero, ctx)
    else if lib.ca_check_is_undefined ctx x = truth_t.T_TRUE ∨
        lib.ca_check_is_uinf ctx x = truth_t.T_TRUE then .ok (ca_undefined, ctx)
    else .ok (ca_unknown, ctx)
  else
    match ext_if_log lib (lib.ca_is_gen_as_ext ctx x) with
    | some ext =>
      match ext_first_arg lib ext with
      | .ok a => .ok (a, ctx)
      | .error e => .error e
    | none =>
      match ca_is_fmpq_times_gen_as_ext fmpq_init x with
      | .error e => .error e
      | .ok (ext2, t) =>
        match ext_if_log lib ext2 with
        | some ext =>
          match ext_first_arg lib ext with
          | .ok a => .ok (lib.ca_pow_fmpq ctx a t)
          | .error e => .error e
        | none =>
          if lib.ca_check_is_zero ctx x = truth_t.T_TRUE then .ok (ca_one, ctx)
          else
            match ca_as_fmpq_pi_i lib fmpq_init x ctx with
            | .error e => .error e
            | .ok (found, t5, ctx5) =>
              if found = true then
                if t5.den ≤ 12 then exp_root_of_unity lib t5 ctx5
                else .ok (exp_new_generator lib x ctx5)
              else .ok (exp_new_generator lib x ctx5)

end CaExp

namespace CaExp

open CaMerge (ca_fault ca_special ca_field_type fmpz_mpoly_struct ca_elem_struct
  gen_power_exp)

/-- Each of the four predicates on infinities and undefined answers `T_TRUE` on a
special value exactly when the value is the one the predicate is named after. -/
structure special_predicates_exact {σ β : Type} (lib : ca_lib σ β) : Prop where
  pos_inf : ∀ ctx s,
    lib.ca_check_is_pos_inf ctx (.special s) = truth_t.T_TRUE ↔ s = ca_special.PosInf
  neg_inf : ∀ ctx s,
    lib.ca_check_is_neg_inf ctx (.special s) = truth_t.T_TRUE ↔ s = ca_special.NegInf
  undefined : ∀ ctx s,
    lib.ca_check_is_undefined ctx (.special s) = truth_t.T_TRUE ↔ s = ca_special.Undefined
  uinf : ∀ ctx s,
    lib.ca_check_is_uinf ctx (.special s) = truth_t.T_TRUE ↔ s = ca_special.UnsignedInf

/-- What the first step of the cascade of §4.5 asks for a special input. -/
def exp_of_special (s : ca_special) : ca_struct :=
  match s with
  | .PosInf => ca_pos_inf
  | .NegInf => ca_zero
  | .Undefined => ca_undefined
  | .UnsignedInf => ca_undefined
  | .Unknown => ca_unknown

/-- A sample predicate on special values: `T_TRUE` on `s0`, `T_UNKNOWN` on Unknown,
`T_FALSE` elsewhere. -/
def sample_check (s0 : ca_special) (x : ca_struct) : truth_t :=
  match x with
  | .special s =>
    if s = s0 then truth_t.T_TRUE
    else if s = ca_special.Unknown then truth_t.T_UNKNOWN
    else truth_t.T_FALSE
  | .element _ _ => truth_t.T_FALSE

/-- Sample field of the generators `pi` (handle 1) and `i` (handle 2). -/
def sample_field_pi_i : ca_field_struct := { type := .MULTI, ext := [1, 2] }

/-- Sample field of the generator `log(2)` (handle 0). -/
def sample_field_log : ca_field_struct := { type := .FUNC, ext := [0] }

/-- A sample library over a context that counts the calls extending it.  Handle 0 is
`log(2)`, handle 1 is `pi`, handle 2 is `i`; division recognises the multiples
`(n/d) * pi * i` written in `sample_field_pi_i`. -/
def sample_lib : ca_lib Nat (Int × Nat) :=
  { CA_EXT_HEAD := fun e =>
      if e = 0 then calcium_func_code.CA_Log
      else if e = 1 then calcium_func_code.CA_Pi
      else calcium_func_code.CA_I,
    CA_EXT_FUNC_ARGS := fun e => if e = 0 then [.element field_qq (.q 2 1)] else [],
    ca_check_is_pos_inf := fun _ x => sample_check .PosInf x,
    ca_check_is_neg_inf := fun _ x => sample_check .NegInf x,
    ca_check_is_undefined := fun _ x => sample_check .Undefined x,
    ca_check_is_uinf := fun _ x => sample_check .UnsignedInf x,
    ca_check_is_zero := fun _ x =>
      match x with
      | .special _ => truth_t.T_UNKNOWN
      | .element _ (.q 0 _) => truth_t.T_TRUE
      | .element _ _ => truth_t.T_FALSE,
    ca_is_gen_as_ext := fun _ x =>
      match x with
      | .element K (.mpoly_q { terms := [(1, [1])] } { terms := [(1, [0])] }) => K.ext[0]?
      | _ => none,
    ca_pow_fmpq := fun ctx _ t =>
      (.element { type := .NF, ext := [3] } (.nf (.elem [t.num, t.den] 1)), ctx + 1),
    ca_pi_i := fun ctx =>
      (.element sample_field_pi_i
        (.mpoly_q { terms := [(1, [1, 1])] } { terms := [(1, [0, 0])] }), ctx + 1),
    ca_div := fun ctx x _ =>
      match x with
      | .element _ (.mpoly_q { terms := [(n, [1, 1])] } { terms := [(d, [0, 0])] }) =>
        (.element field_qq (.q n d), ctx + 1)
      | _ => (.special .Unknown, ctx + 1),
    ca_i := fun ctx => (.element { type := .NF, ext := [2] } (.nf (.qelem 0 1 0 1)), ctx),
    ca_neg_i := fun ctx =>
      (.element { type := .NF, ext := [2] } (.nf (.qelem 0 (-1) 0 1)), ctx),
    qqbar_exp_pi_i := fun p q => (p, q),
    ca_set_qqbar := fun ctx a =>
      (.element { type := .NF, ext := [4] } (.nf (.elem [a.1, a.2] 1)), ctx + 1),
    ca_pow_ui := fun ctx _ n =>
      (.element { type := .NF, ext := [4] } (.nf (.elem [n] 1)), ctx + 1),
    _ca_ctx_get_field_fx := fun ctx _ _ => ({ type := .FUNC, ext := [5] }, ctx + 1),
    _ca_mpoly_q_reduce_ideal := fun ctx _ e => (e, ctx),
    ca_condense_field := fun ctx x => (x, ctx) }

/-- The sample value `log(2)`: the generator of `sample_field_log`. -/
def sample_log2 : ca_struct :=
  .element sample_field_log (.mpoly_q { terms := [(1, [1])] } { terms := [(1, [0])] })

/-- The sample value `(3/2) * log(2)`. -/
def sample_three_half_log2 : ca_struct :=
  .element sample_field_log (.mpoly_q { terms := [(3, [1])] } { terms := [(2, [0])] })

/-- The sample value `(n/d) * pi * i`. -/
def sample_pi_i_times (n d : Int) : ca_struct :=
  .element sample_field_pi_i
    (.mpoly_q { terms := [(n, [1, 1])] } { terms := [(d, [0, 0])] })

end CaExp

namespace CaMerge

/-- What the loop keeps true of the two index maps: the cells written so far hold
positions of the merged list, in increasing order, and the cells from the cursor on are
not written yet. -/
structure merge_mono (st : merge_state) : Prop where
  xbound : ∀ (i k : Nat), st.xgen_map[i]? = some (some k) → k < st.fields.length
  ybound : ∀ (j k : Nat), st.ygen_map[j]? = some (some k) → k < st.fields.length
  xmono : ∀ (i j ki kj : Nat), i < j → st.xgen_map[i]? = some (some ki) →
    st.xgen_map[j]? = some (some kj) → ki < kj
  ymono : ∀ (i j ki kj : Nat), i < j → st.ygen_map[i]? = some (some ki) →
    st.ygen_map[j]? = some (some kj) → ki < kj
  xfresh : ∀ (i k : Nat), st.ix ≤ i → st.xgen_map[i]? ≠ some (some k)
  yfresh : ∀ (j k : Nat), st.iy ≤ j → st.ygen_map[j]? ≠ some (some k)

/-- The representation of a value fits the record of its field: a number field
element of the variant that the flag word selects for an NF field, a rational function
over the one variable of a FUNC field or over the generators of a MULTI field, a
rational for QQ. -/
def elem_fits (f : ca_field_struct) (e : ca_elem_struct) : Prop :=
  match f.type with
  | .QQ => ∃ n d, e = .q n d
  | .NF => ∃ a r, e = .nf a ∧ _nf_elem_get_fmpz_poly_den_shallow a f.nf_flag = .ok r
  | .FUNC => ∃ num den, e = .mpoly_q num den ∧
      (∀ t ∈ num.terms, t.2.length = 1) ∧ (∀ t ∈ den.terms, t.2.length = 1)
  | .MULTI => ∃ num den, e = .mpoly_q num den ∧
      (∀ t ∈ num.terms, t.2.length = f.multi_ext.length) ∧
      (∀ t ∈ den.terms, t.2.length = f.multi_ext.length)

/-- A sample special value carrying the field word of `sample_x`. -/
def sample_unknown : ca_struct :=
  { field := 1, special := some .Unknown, elem := .q 0 1 }

/-- Sample rationals in the QQ field (record 0 of `sample_ctx`). -/
def sample_q1 : ca_struct :=
  { field := 0, special := none, elem := .q 1 2 }

/-- A second sample rational in the QQ field. -/
def sample_q2 : ca_struct :=
  { field := 0, special := none, elem := .q 3 1 }

/-- A sample table in which the records 1 and 2 are two copies of one number field. -/
def sample_ctx_twice : ca_ctx_struct :=
  { fields := [
      { type := .QQ, nf_flag := 0, data := [0], multi_ext := [] },
      { type := .NF, nf_flag := 4, data := [2], multi_ext := [] },
      { type := .NF, nf_flag := 4, data := [2], multi_ext := [] } ],
    fields_alloc := 4 }

end CaMerge

namespace CaExp

open CaMerge (ca_fault ca_special ca_field_type fmpz_mpoly_struct ca_elem_struct
  gen_power_exp fmpz_mpoly_set_fmpz)

/-- The polynomial `a * x_i` of a ring of `nvars` variables: one term, none for
`a = 0`. -/
def fmpz_mpoly_scalar_gen (a : Int) (i nvars : Nat) : fmpz_mpoly_struct :=
  { terms := if a = 0 then [] else [(a, gen_power_exp nvars i 1)] }

/-- The value `x` of the field `K` is `c * g` for the rational `c` and the generator
number `i` of `K`: its numerator is `c.num * x_i` and its denominator the constant
`c.den`. -/
def is_fmpq_times_gen (K : ca_field_struct) (x : ca_struct) (c : fmpq) (i : Nat) : Prop :=
  i < K.ext.length ∧ c.den ≠ 0 ∧
  x = .element K (.mpoly_q (fmpz_mpoly_scalar_gen c.num i K.ext.length)
      (fmpz_mpoly_set_fmpz c.den K.ext.length))

/-- The polynomial is one of a ring of `nvars` variables: no term has a zero
coefficient and every exponent vector has `nvars` entries. -/
def poly_in_ring (nvars : Nat) (p : fmpz_mpoly_struct) : Prop :=
  ∀ t ∈ p.terms, t.1 ≠ 0 ∧ t.2.length = nvars

/-- The representation of the value matches its field: a rational for QQ, a number
field element for NF, and for FUNC and MULTI a quotient of two polynomials of the ring
of the field with a nonzero denominator. -/
def value_wf (x : ca_struct) : Prop :=
  match x with
  | .special _ => True
  | .element K elem =>
    match K.type with
    | .QQ => ∃ n d, elem = .q n d
    | .NF => ∃ a, elem = .nf a
    | _ => ∃ num den, elem = .mpoly_q num den ∧
        poly_in_ring K.ext.length num ∧ poly_in_ring K.ext.length den ∧ den.terms ≠ []

/-- The content of a polynomial: the greatest common divisor of its coefficients. -/
def fmpz_mpoly_content (p : fmpz_mpoly_struct) : Nat :=
  p.terms.foldr (fun t g => Nat.gcd t.1.natAbs g) 0

/-- The part of the canonical form of a rational function that
`ca_is_fmpq_times_gen_as_ext` hands on: numerator and denominator have no common integer
factor, and the leading coefficient of the denominator is positive. -/
def value_canonical (x : ca_struct) : Prop :=
  match x with
  | .element _ (.mpoly_q num den) =>
    Nat.gcd (fmpz_mpoly_content num) (fmpz_mpoly_content den) = 1 ∧
    (∀ t ∈ den.terms.head?, 0 < t.1)
  | _ => True

/-- The rational is in lowest terms with a positive denominator (`fmpq_is_canonical`). -/
def fmpq_is_canonical (c : fmpq) : Prop :=
  Int.gcd c.num c.den = 1 ∧ 0 < c.den

/-- The shape that §4.3 of the specification gives for a value accepted by
`ca_is_fmpq_times_gen_as_ext`: the denominator is a nonzero constant and the numerator is
a single monomial of total degree 1 with coefficient 1 or -1. -/
def shape_unit_coefficient (x : ca_struct) : Prop :=
  ∃ K a exps d dexps,
    x = .element K (.mpoly_q { terms := [(a, exps)] } { terms := [(d, dexps)] }) ∧
    d ≠ 0 ∧ (∀ e ∈ dexps, e = 0) ∧ exps.sum = 1 ∧ (a = 1 ∨ a = -1)

/-- The shape that the code accepts: the denominator is a nonzero constant `d` and the
numerator is a single monomial of total degree 1 with any coefficient `a`. -/
def shape_any_coefficient (x : ca_struct) (a d : Int) : Prop :=
  ∃ K exps dexps,
    x = .element K (.mpoly_q { terms := [(a, exps)] } { terms := [(d, dexps)] }) ∧
    d ≠ 0 ∧ (∀ e ∈ dexps, e = 0) ∧ exps.sum = 1

/-- The sample value 0 written in the field of `log(2)`: numerator without terms over
the denominator 1. -/
def sample_zero_in_log : ca_struct :=
  .element sample_field_log (.mpoly_q { terms := [] } { terms := [(1, [0])] })

/-- The sample library with a division that answers the rational 0 for the dividend
0 of QQ. -/
def sample_lib_zero_div : ca_lib Nat (Int × Nat) :=
  { sample_lib with
    ca_div := fun ctx x t =>
      match x with
      | .element _ (.q 0 _) => (ca_zero, ctx + 1)
      | _ => sample_lib.ca_div ctx x t }

end CaExp

namespace CaQQbar

open CaMerge (ca_fault)

/-- The value of a signed 64-bit word operation whose exact result is `z`: the result
modulo `2^64`, read in two's complement. -/
def slong_wrap (z : Int) : Int :=
  (z + 9223372036854775808) % 18446744073709551616 - 9223372036854775808

/-- The value of an unsigned 64-bit word operation whose exact result is `z`. -/
def ulong_wrap (z : Nat) : Nat := z % 18446744073709551616

/-- The function `ca_qqbar_sin_pi(res, p, q)`: what the call of `ca_qqbar_cos_pi` at
line 18 returns, that function being a parameter.  `(slong) q` converts the unsigned
word, the signed operations wrap, and the remainder by zero at line 17 is undefined. -/
def ca_qqbar_sin_pi {β : Type} (ca_qqbar_cos_pi : Int → Nat → β) (p : Int) (q : Nat) :
    Except ca_fault β :=
  let m := slong_wrap (2 * slong_wrap (q : Int))
  if m = 0 then .error .undefined
  else
    let p1 := Int.tmod p m
    .ok (ca_qqbar_cos_pi (slong_wrap (slong_wrap (q : Int) - slong_wrap (2 * p1)))
      (ulong_wrap (2 * q)))

end CaQQbar

namespace CaMerge

/-- The generator list of a MULTI record holds table indices (nothing is asked of the
other records, whose generator is the field itself). -/
def generators_valid (ctx : ca_ctx_struct) (f : ca_field_struct) : Prop :=
  f.type = .MULTI → indices_valid ctx f.multi_ext

/-- A sample value of the MULTI field 4 of `sample_ctx`, whose generators are the
fields 1 and 2: the rational function `(2 * a * b + b) / 3`. -/
def sample_m : ca_struct :=
  { field := 4, special := none,
    elem := .mpoly_q { terms := [(2, [1, 1]), (1, [0, 1])] } { terms := [(3, [0, 0])] } }

/-- A sample field table with two MULTI fields whose generator lists overlap: record 4
has the generators 1 and 2, record 5 the generators 2 and 3. -/
def sample_ctx_pair : ca_ctx_struct :=
  { fields := [
      { type := .QQ, nf_flag := 0, data := [0], multi_ext := [] },
      { type := .NF, nf_flag := 4, data := [2], multi_ext := [] },
      { type := .NF, nf_flag := 4, data := [3], multi_ext := [] },
      { type := .FUNC, nf_flag := 0, data := [5], multi_ext := [] },
      { type := .MULTI, nf_flag := 0, data := [7], multi_ext := [1, 2] },
      { type := .MULTI, nf_flag := 0, data := [11], multi_ext := [2, 3] } ],
    fields_alloc := 8 }

/-- A sample value of the MULTI field 5 of `sample_ctx_pair`, whose generators are the
fields 2 and 3: the rational function `(5 * b * c^2 + 7 * b) / 4`. -/
def sample_n : ca_struct :=
  { field := 5, special := none,
    elem := .mpoly_q { terms := [(5, [1, 2]), (7, [1, 0])] } { terms := [(4, [0, 0])] } }

end CaMerge

namespace CaMerge

theorem getElem?_lt_length {α : Type} {l : List α} {i : Nat} {a : α}
    (h : l[i]? = some a) : i < l.length := by
  rcases List.getElem?_eq_some.mp h with ⟨hi, _⟩
  exact hi

theorem getElem?_snoc_old {α : Type} {l : List α} {k : Nat} {a b : α}
    (h : l[k]? = some a) : (l ++ [b])[k]? = some a := by
  rw [List.getElem?_append_left (getElem?_lt_length h)]
  exact h

theorem merge_inv_init (ca_field_cmp : ca_field_struct → ca_field_struct → Int)
    (ctx : ca_ctx_struct) (X Y : List Nat) :
    merge_inv ca_field_cmp ctx X Y (merge_init X.length Y.length) := by
  refine ⟨?_, ?_, ?_, ?_, ?_, ?_, ?_, ?_, ?_, ?_⟩ <;> simp [merge_init]

theorem merge_inv_take_x {ca_field_cmp : ca_field_struct → ca_field_struct → Int}
    {ctx : ca_ctx_struct} {X Y : List Nat} {st : merge_state} {fx : Nat}
    (inv : merge_inv ca_field_cmp ctx X Y st) (hx : X[st.ix]? = some fx) :
    merge_inv ca_field_cmp ctx X Y (take_x st fx) := by
  have hlt : st.ix < X.length := getElem?_lt_length hx
  refine ⟨?_, ?_, ?_, ?_, ?_, ?_, ?_, ?_, ?_, ?_⟩
  · simp only [take_x]; omega
  · simpa [take_x] using inv.iy_le
  · simpa [take_x] using inv.xmap_len
  · simpa [take_x] using inv.ymap_len
  · have := inv.len_lo_x
    simp only [take_x, List.length_append, List.length_singleton]; omega
  · have := inv.len_lo_y
    simp only [take_x, List.length_append, List.length_singleton]; omega
  · have := inv.len_hi
    simp only [take_x, List.length_append, List.length_singleton]; omega
  · intro i a hi ha
    simp only [take_x] at hi ⊢
    by_cases hlast : i = st.ix
    · subst hlast
      refine ⟨st.fields.length, ?_, ?_⟩
      · rw [List.getElem?_set]
        simp [inv.xmap_len, hlt]
      · rw [List.getElem?_concat_length]
        rw [hx] at ha
        exact ha
    · obtain ⟨k, hk1, hk2⟩ := inv.xmap i a (by omega) ha
      refine ⟨k, ?_, getElem?_snoc_old hk2⟩
      rw [List.getElem?_set_ne (Ne.symm hlast)]
      exact hk1
  · intro j b hj hb
    simp only [take_x] at hj ⊢
    obtain ⟨k, m, hk1, hk2, hk3⟩ := inv.ymap j b hj hb
    exact ⟨k, m, hk1, getElem?_snoc_old hk2, hk3⟩
  · intro m hm
    simp only [take_x, List.mem_append, List.mem_singleton] at hm
    rcases hm with hm | hm
    · exact inv.mem m hm
    · subst hm
      exact Or.inl (List.getElem?_mem hx)

theorem merge_inv_take_y {ca_field_cmp : ca_field_struct → ca_field_struct → Int}
    {ctx : ca_ctx_struct} {X Y : List Nat} {st : merge_state} {fy : Nat}
    (inv : merge_inv ca_field_cmp ctx X Y st) (hy : Y[st.iy]? = some fy) :
    merge_inv ca_field_cmp ctx X Y (take_y st fy) := by
  have hlt : st.iy < Y.length := getElem?_lt_length hy
  refine ⟨?_, ?_, ?_, ?_, ?_, ?_, ?_, ?_, ?_, ?_⟩
  · simpa [take_y] using inv.ix_le
  · simp only [take_y]; omega
  · simpa [take_y] using inv.xmap_len
  · simpa [take_y] using inv.ymap_len
  · have := inv.len_lo_x
    simp only [take_y, List.length_append, List.length_singleton]; omega
  · have := inv.len_lo_y
    simp only [take_y, List.length_append, List.length_singleton]; omega
  · have := inv.len_hi
    simp only [take_y, List.length_append, List.length_singleton]; omega
  · intro i a hi ha
    simp only [take_y] at hi ⊢
    obtain ⟨k, hk1, hk2⟩ := inv.xmap i a hi ha
    exact ⟨k, hk1, getElem?_snoc_old hk2⟩
  · intro j b hj hb
    simp only [take_y] at hj ⊢
    by_cases hlast : j = st.iy
    · subst hlast
      refine ⟨st.fields.length, fy, ?_, ?_, ?_⟩
      · rw [List.getElem?_set]
        simp [inv.ymap_len, hlt]
      · exact List.getElem?_concat_length _ _
      · rw [hy] at hb
        exact Or.inl (Option.some.inj hb)
    · obtain ⟨k, m, hk1, hk2, hk3⟩ := inv.ymap j b (by omega) hb
      refine ⟨k, m, ?_, getElem?_snoc_old hk2, hk3⟩
      rw [List.getElem?_set_ne (Ne.symm hlast)]
      exact hk1
  · intro m hm
    simp only [take_y, List.mem_append, List.mem_singleton] at hm
    rcases hm with hm | hm
    · exact inv.mem m hm
    · subst hm
      exact Or.inr (List.getElem?_mem hy)

theorem merge_inv_take_both {ca_field_cmp : ca_field_struct → ca_field_struct → Int}
    {ctx : ca_ctx_struct} {X Y : List Nat} {st : merge_state} {fx fy : Nat}
    (inv : merge_inv ca_field_cmp ctx X Y st) (hx : X[st.ix]? = some fx)
    (hy : Y[st.iy]? = some fy) (heq : cmp_equal ca_field_cmp ctx fx fy) :
    merge_inv ca_field_cmp ctx X Y (take_both st fx) := by
  have hltx : st.ix < X.length := getElem?_lt_length hx
  have hlty : st.iy < Y.length := getElem?_lt_length hy
  refine ⟨?_, ?_, ?_, ?_, ?_, ?_, ?_, ?_, ?_, ?_⟩
  · simp only [take_both]; omega
  · simp only [take_both]; omega
  · simpa [take_both] using inv.xmap_len
  · simpa [take_both] using inv.ymap_len
  · have := inv.len_lo_x
    simp only [take_both, List.length_append, List.length_singleton]; omega
  · have := inv.len_lo_y
    simp only [take_both, List.length_append, List.length_singleton]; omega
  · have := inv.len_hi
    simp only [take_both, List.length_append, List.length_singleton]; omega
  · intro i a hi ha
    simp only [take_both] at hi ⊢
    by_cases hlast : i = st.ix
    · subst hlast
      refine ⟨st.fields.length, ?_, ?_⟩
      · rw [List.getElem?_set]
        simp [inv.xmap_len, hltx]
      · rw [List.getElem?_concat_length]
        rw [hx] at ha
        exact ha
    · obtain ⟨k, hk1, hk2⟩ := inv.xmap i a (by omega) ha
      refine ⟨k, ?_, getElem?_snoc_old hk2⟩
      rw [List.getElem?_set_ne (Ne.symm hlast)]
      exact hk1
  · intro j b hj hb
    simp only [take_both] at hj ⊢
    by_cases hlast : j = st.iy
    · subst hlast
      refine ⟨st.fields.length, fx, ?_, ?_, ?_⟩
      · rw [List.getElem?_set]
        simp [inv.ymap_len, hlty]
      · exact List.getElem?_concat_length _ _
      · rw [hy] at hb
        have hb2 : fy = b := Option.some.inj hb
        subst hb2
        exact Or.inr ⟨List.getElem?_mem hx, heq⟩
    · obtain ⟨k, m, hk1, hk2, hk3⟩ := inv.ymap j b (by omega) hb
      refine ⟨k, m, ?_, getElem?_snoc_old hk2, hk3⟩
      rw [List.getElem?_set_ne (Ne.symm hlast)]
      exact hk1
  · intro m hm
    simp only [take_both, List.mem_append, List.mem_singleton] at hm
    rcases hm with hm | hm
    · exact inv.mem m hm
    · subst hm
      exact Or.inl (List.getElem?_mem hx)

theorem merge_step_inv {ca_field_cmp : ca_field_struct → ca_field_struct → Int}
    {ctx : ca_ctx_struct} {X Y : List Nat} {st st1 : merge_state}
    (inv : merge_inv ca_field_cmp ctx X Y st)
    (h : merge_step ca_field_cmp ctx X Y st = .ok st1) :
    merge_inv ca_field_cmp ctx X Y st1 ∧ st.ix + st.iy < st1.ix + st1.iy := by
  unfold merge_step at h
  cases hx : X[st.ix]? with
  | none =>
    cases hy : Y[st.iy]? with
    | none => simp [hx, hy] at h
    | some fy =>
      simp only [hx, hy, Except.ok.injEq] at h
      subst h
      exact ⟨merge_inv_take_y inv hy, by simp only [take_y]; omega⟩
  | some fx =>
    cases hy : Y[st.iy]? with
    | none =>
      simp only [hx, hy, Except.ok.injEq] at h
      subst h
      exact ⟨merge_inv_take_x inv hx, by simp only [take_x]; omega⟩
    | some fy =>
      simp only [hx, hy] at h
      cases hc : field_cmp_at ca_field_cmp ctx fx fy with
      | error e => simp [hc] at h
      | ok c =>
        simp only [hc] at h
        by_cases h0 : c = 0
        · simp only [h0, if_true, Except.ok.injEq] at h
          subst h
          refine ⟨merge_inv_take_both inv hx hy ?_, by simp only [take_both]; omega⟩
          rw [cmp_equal, hc, h0]
        · by_cases h1 : c = -1
          · rw [if_neg h0, if_pos h1] at h
            simp only [Except.ok.injEq] at h
            subst h
            exact ⟨merge_inv_take_x inv hx, by simp only [take_x]; omega⟩
          · rw [if_neg h0, if_neg h1] at h
            simp only [Except.ok.injEq] at h
            subst h
            exact ⟨merge_inv_take_y inv hy, by simp only [take_y]; omega⟩

theorem merge_loop_inv {ca_field_cmp : ca_field_struct → ca_field_struct → Int}
    {ctx : ca_ctx_struct} {X Y : List Nat} (fuel : Nat) :
    ∀ (st st1 : merge_state), merge_inv ca_field_cmp ctx X Y st →
      merge_loop ca_field_cmp ctx X Y fuel st = .ok st1 →
      merge_inv ca_field_cmp ctx X Y st1 ∧ st1.ix = X.length ∧ st1.iy = Y.length := by
  induction fuel with
  | zero =>
    intro st st1 inv h
    unfold merge_loop at h
    by_cases hc : st.ix < X.length ∨ st.iy < Y.length
    · simp [hc] at h
    · simp only [hc, if_false, Except.ok.injEq] at h
      subst h
      have := inv.ix_le
      have := inv.iy_le
      exact ⟨inv, by omega, by omega⟩
  | succ n ih =>
    intro st st1 inv h
    unfold merge_loop at h
    by_cases hc : st.ix < X.length ∨ st.iy < Y.length
    · simp only [hc, if_true] at h
      cases hs : merge_step ca_field_cmp ctx X Y st with
      | error e => simp [hs] at h
      | ok st2 =>
        simp only [hs] at h
        exact ih st2 st1 (merge_step_inv inv hs).1 h
    · simp only [hc, if_false, Except.ok.injEq] at h
      subst h
      have := inv.ix_le
      have := inv.iy_le
      exact ⟨inv, by omega, by omega⟩

theorem field_cmp_at_valid (ca_field_cmp : ca_field_struct → ca_field_struct → Int)
    (ctx : ca_ctx_struct) {i j : Nat} (hi : i < ctx.fields.length)
    (hj : j < ctx.fields.length) :
    field_cmp_at ca_field_cmp ctx i j = .ok (ca_field_cmp ctx.fields[i] ctx.fields[j]) := by
  simp [field_cmp_at, List.getElem?_eq_getElem hi, List.getElem?_eq_getElem hj]

theorem merge_step_total (ca_field_cmp : ca_field_struct → ca_field_struct → Int)
    (ctx : ca_ctx_struct) (X Y : List Nat) (st : merge_state)
    (hX : indices_valid ctx X) (hY : indices_valid ctx Y)
    (hc : st.ix < X.length ∨ st.iy < Y.length) :
    ∃ st1, merge_step ca_field_cmp ctx X Y st = .ok st1 := by
  unfold merge_step
  cases hx : X[st.ix]? with
  | none =>
    cases hy : Y[st.iy]? with
    | none =>
      rw [List.getElem?_eq_none_iff] at hx hy
      omega
    | some fy => exact ⟨_, rfl⟩
  | some fx =>
    cases hy : Y[st.iy]? with
    | none => exact ⟨_, rfl⟩
    | some fy =>
      simp only []
      rw [field_cmp_at_valid ca_field_cmp ctx (hX fx (List.getElem?_mem hx))
        (hY fy (List.getElem?_mem hy))]
      simp only []
      split
      · exact ⟨_, rfl⟩
      · split
        · exact ⟨_, rfl⟩
        · exact ⟨_, rfl⟩

theorem merge_loop_total_aux (ca_field_cmp : ca_field_struct → ca_field_struct → Int)
    (ctx : ca_ctx_struct) (X Y : List Nat)
    (hX : indices_valid ctx X) (hY : indices_valid ctx Y) (fuel : Nat) :
    ∀ st : merge_state, merge_inv ca_field_cmp ctx X Y st →
      (X.length - st.ix) + (Y.length - st.iy) ≤ fuel →
      ∃ st1, merge_loop ca_field_cmp ctx X Y fuel st = .ok st1 := by
  induction fuel with
  | zero =>
    intro st _ hm
    unfold merge_loop
    have hc : ¬ (st.ix < X.length ∨ st.iy < Y.length) := by omega
    simp [hc]
  | succ n ih =>
    intro st inv hm
    unfold merge_loop
    by_cases hc : st.ix < X.length ∨ st.iy < Y.length
    · obtain ⟨st2, hs⟩ := merge_step_total ca_field_cmp ctx X Y st hX hY hc
      simp only [hc, if_true, hs]
      have h2 := merge_step_inv inv hs
      have := h2.1.ix_le
      have := h2.1.iy_le
      exact ih st2 h2.1 (by omega)
    · simp [hc]

/-- The loop of `merge_lists` always runs to its end within its budget when the two
lists hold table indices. -/
theorem merge_loop_total (ca_field_cmp : ca_field_struct → ca_field_struct → Int)
    (ctx : ca_ctx_struct) (X Y : List Nat)
    (hX : indices_valid ctx X) (hY : indices_valid ctx Y) :
    ∃ st, merge_lists ca_field_cmp ctx X Y = .ok st := by
  unfold merge_lists
  apply merge_loop_total_aux ca_field_cmp ctx X Y hX hY _ _
    (merge_inv_init ca_field_cmp ctx X Y)
  simp [merge_init]

theorem field_cmp_at_ok_iff (ca_field_cmp : ca_field_struct → ca_field_struct → Int)
    (ctx : ca_ctx_struct) (i j : Nat) (c : Int) :
    field_cmp_at ca_field_cmp ctx i j = .ok c ↔
      ∃ a b, ctx.fields[i]? = some a ∧ ctx.fields[j]? = some b ∧ ca_field_cmp a b = c := by
  unfold field_cmp_at
  cases hi : ctx.fields[i]? with
  | none => simp
  | some a =>
    cases hj : ctx.fields[j]? with
    | none => simp
    | some b => simp

theorem field_order.refl {ca_field_cmp : ca_field_struct → ca_field_struct → Int}
    (ho : field_order ca_field_cmp) (a : ca_field_struct) : ca_field_cmp a a = 0 := by
  have := ho.antisymm a a
  omega

theorem cmp_less_trans {ca_field_cmp : ca_field_struct → ca_field_struct → Int}
    (ho : field_order ca_field_cmp) (ctx : ca_ctx_struct) {i j k : Nat}
    (h1 : cmp_less ca_field_cmp ctx i j) (h2 : cmp_less ca_field_cmp ctx j k) :
    cmp_less ca_field_cmp ctx i k := by
  unfold cmp_less at *
  rw [field_cmp_at_ok_iff] at *
  obtain ⟨a, b, ha, hb, hab⟩ := h1
  obtain ⟨b2, c, hb2, hc, hbc⟩ := h2
  rw [hb] at hb2
  cases hb2
  refine ⟨a, c, ha, hc, ?_⟩
  have t1 := ho.trans a b c (by omega) (by omega)
  have t2 := ho.trans c a b
  have r1 := ho.range a c
  have a1 := ho.antisymm a c
  have a2 := ho.antisymm b c
  omega

theorem cmp_equal_less {ca_field_cmp : ca_field_struct → ca_field_struct → Int}
    (ho : field_order ca_field_cmp) (ctx : ca_ctx_struct) {i j k : Nat}
    (h1 : cmp_equal ca_field_cmp ctx i j) (h2 : cmp_less ca_field_cmp ctx j k) :
    cmp_less ca_field_cmp ctx i k := by
  unfold cmp_less cmp_equal at *
  rw [field_cmp_at_ok_iff] at *
  obtain ⟨a, b, ha, hb, hab⟩ := h1
  obtain ⟨b2, c, hb2, hc, hbc⟩ := h2
  rw [hb] at hb2
  cases hb2
  refine ⟨a, c, ha, hc, ?_⟩
  have t1 := ho.trans a b c (by omega) (by omega)
  have t2 := ho.trans c a b
  have r1 := ho.range a c
  have a1 := ho.antisymm a c
  have a2 := ho.antisymm b c
  omega

theorem cmp_less_of_above {ca_field_cmp : ca_field_struct → ca_field_struct → Int}
    (ho : field_order ca_field_cmp) (ctx : ca_ctx_struct) {i j : Nat} {c : Int}
    (h : field_cmp_at ca_field_cmp ctx i j = .ok c) (h0 : c ≠ 0) (h1 : c ≠ -1) :
    cmp_less ca_field_cmp ctx j i := by
  unfold cmp_less
  rw [field_cmp_at_ok_iff] at *
  obtain ⟨a, b, ha, hb, hab⟩ := h
  refine ⟨b, a, hb, ha, ?_⟩
  have r1 := ho.range a b
  have a1 := ho.antisymm a b
  omega

theorem strictly_increasing_pairwise {ca_field_cmp : ca_field_struct → ca_field_struct → Int}
    (ho : field_order ca_field_cmp) (ctx : ca_ctx_struct) {l : List Nat}
    (h : strictly_increasing ca_field_cmp ctx l) :
    l.Pairwise (cmp_less ca_field_cmp ctx) := by
  haveI : IsTrans Nat (cmp_less ca_field_cmp ctx) :=
    ⟨fun _ _ _ h1 h2 => cmp_less_trans ho ctx h1 h2⟩
  exact List.chain'_iff_pairwise.mp h

theorem pairwise_getElem? {α : Type} {R : α → α → Prop} {l : List α}
    (h : l.Pairwise R) {i j : Nat} {a b : α} (hij : i < j)
    (ha : l[i]? = some a) (hb : l[j]? = some b) : R a b := by
  rcases List.getElem?_eq_some.mp ha with ⟨hi, rfl⟩
  rcases List.getElem?_eq_some.mp hb with ⟨hj, rfl⟩
  exact List.pairwise_iff_getElem.mp h i j hi hj hij

theorem merge_sorted_init (ca_field_cmp : ca_field_struct → ca_field_struct → Int)
    (ctx : ca_ctx_struct) (X Y : List Nat) :
    merge_sorted ca_field_cmp ctx X Y (merge_init X.length Y.length) := by
  refine ⟨?_, ?_, ?_⟩ <;> simp [merge_init]

theorem merge_step_sorted {ca_field_cmp : ca_field_struct → ca_field_struct → Int}
    (ho : field_order ca_field_cmp) {ctx : ca_ctx_struct} {X Y : List Nat}
    (hXs : X.Pairwise (cmp_less ca_field_cmp ctx))
    (hYs : Y.Pairwise (cmp_less ca_field_cmp ctx))
    {st st1 : merge_state}
    (srt : merge_sorted ca_field_cmp ctx X Y st)
    (h : merge_step ca_field_cmp ctx X Y st = .ok st1) :
    merge_sorted ca_field_cmp ctx X Y st1 := by
  -- the three ways a pass can extend the list
  have key_x : ∀ fx, X[st.ix]? = some fx →
      (∀ j b, st.iy ≤ j → Y[j]? = some b → cmp_less ca_field_cmp ctx fx b) →
      merge_sorted ca_field_cmp ctx X Y (take_x st fx) := by
    intro fx hx hb
    refine ⟨?_, ?_, ?_⟩
    · simp only [take_x]
      rw [List.pairwise_append]
      refine ⟨srt.sorted, List.pairwise_singleton _ _, ?_⟩
      intro m hm b hb2
      rw [List.mem_singleton] at hb2
      subst hb2
      exact srt.below_x m hm st.ix b (Nat.le_refl _) hx
    · intro m hm i a hi ha
      simp only [take_x, List.mem_append, List.mem_singleton] at hm hi
      rcases hm with hm | hm
      · exact srt.below_x m hm i a (by omega) ha
      · subst hm
        exact pairwise_getElem? hXs (by omega) hx ha
    · intro m hm j b hj hbj
      simp only [take_x, List.mem_append, List.mem_singleton] at hm hj
      rcases hm with hm | hm
      · exact srt.below_y m hm j b hj hbj
      · subst hm
        exact hb j b hj hbj
  have key_y : ∀ fy, Y[st.iy]? = some fy →
      (∀ i a, st.ix ≤ i → X[i]? = some a → cmp_less ca_field_cmp ctx fy a) →
      merge_sorted ca_field_cmp ctx X Y (take_y st fy) := by
    intro fy hy ha
    refine ⟨?_, ?_, ?_⟩
    · simp only [take_y]
      rw [List.pairwise_append]
      refine ⟨srt.sorted, List.pairwise_singleton _ _, ?_⟩
      intro m hm b hb2
      rw [List.mem_singleton] at hb2
      subst hb2
      exact srt.below_y m hm st.iy b (Nat.le_refl _) hy
    · intro m hm i a hi hai
      simp only [take_y, List.mem_append, List.mem_singleton] at hm hi
      rcases hm with hm | hm
      · exact srt.below_x m hm i a hi hai
      · subst hm
        exact ha i a hi hai
    · intro m hm j b hj hbj
      simp only [take_y, List.mem_append, List.mem_singleton] at hm hj
      rcases hm with hm | hm
      · exact srt.below_y m hm j b (by omega) hbj
      · subst hm
        exact pairwise_getElem? hYs (by omega) hy hbj
  have key_b : ∀ fx fy, X[st.ix]? = some fx → Y[st.iy]? = some fy →
      cmp_equal ca_field_cmp ctx fx fy →
      merge_sorted ca_field_cmp ctx X Y (take_both st fx) := by
    intro fx fy hx hy heq
    refine ⟨?_, ?_, ?_⟩
    · simp only [take_both]
      rw [List.pairwise_append]
      refine ⟨srt.sorted, List.pairwise_singleton _ _, ?_⟩
      intro m hm b hb2
      rw [List.mem_singleton] at hb2
      subst hb2
      exact srt.below_x m hm st.ix b (Nat.le_refl _) hx
    · intro m hm i a hi ha
      simp only [take_both, List.mem_append, List.mem_singleton] at hm hi
      rcases hm with hm | hm
      · exact srt.below_x m hm i a (by omega) ha
      · subst hm
        exact pairwise_getElem? hXs (by omega) hx ha
    · intro m hm j b hj hbj
      simp only [take_both, List.mem_append, List.mem_singleton] at hm hj
      rcases hm with hm | hm
      · exact srt.below_y m hm j b (by omega) hbj
      · subst hm
        exact cmp_equal_less ho ctx heq (pairwise_getElem? hYs (by omega) hy hbj)
  unfold merge_step at h
  cases hx : X[st.ix]? with
  | none =>
    cases hy : Y[st.iy]? with
    | none => simp [hx, hy] at h
    | some fy =>
      simp only [hx, hy, Except.ok.injEq] at h
      subst h
      refine key_y fy hy ?_
      intro i a hi ha
      have := getElem?_lt_length ha
      rw [List.getElem?_eq_none_iff] at hx
      omega
  | some fx =>
    cases hy : Y[st.iy]? with
    | none =>
      simp only [hx, hy, Except.ok.injEq] at h
      subst h
      refine key_x fx hx ?_
      intro j b hj hb
      have := getElem?_lt_length hb
      rw [List.getElem?_eq_none_iff] at hy
      omega
    | some fy =>
      simp only [hx, hy] at h
      cases hc : field_cmp_at ca_field_cmp ctx fx fy with
      | error e => simp [hc] at h
      | ok c =>
        simp only [hc] at h
        by_cases h0 : c = 0
        · simp only [h0, if_true, Except.ok.injEq] at h
          subst h
          refine key_b fx fy hx hy ?_
          rw [cmp_equal, hc, h0]
        · by_cases h1 : c = -1
          · rw [if_neg h0, if_pos h1] at h
            simp only [Except.ok.injEq] at h
            subst h
            have hlt : cmp_less ca_field_cmp ctx fx fy := by rw [cmp_less, hc, h1]
            refine key_x fx hx ?_
            intro j b hj hb
            by_cases hjj : j = st.iy
            · subst hjj
              rw [hy] at hb
              cases hb
              exact hlt
            · exact cmp_less_trans ho ctx hlt (pairwise_getElem? hYs (by omega) hy hb)
          · rw [if_neg h0, if_neg h1] at h
            simp only [Except.ok.injEq] at h
            subst h
            have hlt : cmp_less ca_field_cmp ctx fy fx := cmp_less_of_above ho ctx hc h0 h1
            refine key_y fy hy ?_
            intro i a hi ha
            by_cases hii : i = st.ix
            · subst hii
              rw [hx] at ha
              cases ha
              exact hlt
            · exact cmp_less_trans ho ctx hlt (pairwise_getElem? hXs (by omega) hx ha)

theorem merge_loop_sorted {ca_field_cmp : ca_field_struct → ca_field_struct → Int}
    (ho : field_order ca_field_cmp) {ctx : ca_ctx_struct} {X Y : List Nat}
    (hXs : X.Pairwise (cmp_less ca_field_cmp ctx))
    (hYs : Y.Pairwise (cmp_less ca_field_cmp ctx)) (fuel : Nat) :
    ∀ (st st1 : merge_state), merge_sorted ca_field_cmp ctx X Y st →
      merge_loop ca_field_cmp ctx X Y fuel st = .ok st1 →
      merge_sorted ca_field_cmp ctx X Y st1 := by
  induction fuel with
  | zero =>
    intro st st1 srt h
    unfold merge_loop at h
    by_cases hc : st.ix < X.length ∨ st.iy < Y.length
    · simp [hc] at h
    · simp only [hc, if_false, Except.ok.injEq] at h
      subst h
      exact srt
  | succ n ih =>
    intro st st1 srt h
    unfold merge_loop at h
    by_cases hc : st.ix < X.length ∨ st.iy < Y.length
    · simp only [hc, if_true] at h
      cases hs : merge_step ca_field_cmp ctx X Y st with
      | error e => simp [hs] at h
      | ok st2 =>
        simp only [hs] at h
        exact ih st2 st1 (merge_step_sorted ho hXs hYs srt hs) h
    · simp only [hc, if_false, Except.ok.injEq] at h
      subst h
      exact srt

end CaMerge

namespace CaMerge

theorem sample_cmp_order : field_order sample_cmp := by
  refine ⟨?_, ?_, ?_⟩
  · intro a b
    unfold sample_cmp
    split
    · exact Or.inl rfl
    · split
      · exact Or.inr (Or.inl rfl)
      · exact Or.inr (Or.inr rfl)
  · intro a b
    unfold sample_cmp
    split_ifs <;> omega
  · intro a b c
    unfold sample_cmp
    split_ifs <;> omega

theorem cmp_less_irrefl {ca_field_cmp : ca_field_struct → ca_field_struct → Int}
    (ho : field_order ca_field_cmp) (ctx : ca_ctx_struct) (i : Nat) :
    ¬ cmp_less ca_field_cmp ctx i i := by
  intro h
  unfold cmp_less at h
  rw [field_cmp_at_ok_iff] at h
  obtain ⟨a, b, ha, hb, hab⟩ := h
  rw [ha] at hb
  cases hb
  have := ho.refl a
  omega

theorem cmp_equal_refl {ca_field_cmp : ca_field_struct → ca_field_struct → Int}
    (hrefl : ∀ a, ca_field_cmp a a = 0) (ctx : ca_ctx_struct) {i : Nat}
    (hi : i < ctx.fields.length) : cmp_equal ca_field_cmp ctx i i := by
  unfold cmp_equal
  rw [field_cmp_at_valid ca_field_cmp ctx hi hi, hrefl]

/-- C3: when the comparison of field records is a strict total order answering -1, 0
or 1 and the generator lists `X` and `Y` (lists of table indices) are strictly
increasing, the merge loop of `ca_merge_fields` runs to its end and the list `M` it
builds is strictly increasing (hence without duplicates), every entry of `M` is an
entry of `X` or of `Y`, every entry of `X` occurs in `M`, every entry of `Y` has an
entry of `M` comparing equal to it, and `max |X| |Y| ≤ |M| ≤ |X| + |Y|`. -/
theorem merge_lists_sorted_union
    (ca_field_cmp : ca_field_struct → ca_field_struct → Int) (ctx : ca_ctx_struct)
    (X Y : List Nat) (ho : field_order ca_field_cmp)
    (hX : indices_valid ctx X) (hY : indices_valid ctx Y)
    (hXs : strictly_increasing ca_field_cmp ctx X)
    (hYs : strictly_increasing ca_field_cmp ctx Y) :
    ∃ st, merge_lists ca_field_cmp ctx X Y = .ok st ∧
      strictly_increasing ca_field_cmp ctx st.fields ∧
      st.fields.Pairwise (cmp_less ca_field_cmp ctx) ∧
      st.fields.Nodup ∧
      (∀ m ∈ st.fields, m ∈ X ∨ m ∈ Y) ∧
      (∀ a ∈ X, a ∈ st.fields) ∧
      (∀ b ∈ Y, ∃ m ∈ st.fields, cmp_equal ca_field_cmp ctx m b) ∧
      max X.length Y.length ≤ st.fields.length ∧
      st.fields.length ≤ X.length + Y.length := by
  obtain ⟨st, hst⟩ := merge_loop_total ca_field_cmp ctx X Y hX hY
  have hinv := merge_loop_inv _ _ _ (merge_inv_init ca_field_cmp ctx X Y) hst
  have hsrt := merge_loop_sorted ho (strictly_increasing_pairwise ho ctx hXs)
    (strictly_increasing_pairwise ho ctx hYs) _ _ _
    (merge_sorted_init ca_field_cmp ctx X Y) hst
  obtain ⟨inv, hix, hiy⟩ := hinv
  refine ⟨st, hst, List.Pairwise.chain' hsrt.sorted, hsrt.sorted, ?_, inv.mem, ?_, ?_, ?_, ?_⟩
  · refine List.Pairwise.imp ?_ hsrt.sorted
    intro a b hab heq
    subst heq
    exact cmp_less_irrefl ho ctx a hab
  · intro a ha
    obtain ⟨i, hi⟩ := List.mem_iff_getElem?.mp ha
    obtain ⟨k, _, hk⟩ := inv.xmap i a (by have := getElem?_lt_length hi; omega) hi
    exact List.getElem?_mem hk
  · intro b hb
    obtain ⟨j, hj⟩ := List.mem_iff_getElem?.mp hb
    obtain ⟨k, m, _, hk, hm⟩ := inv.ymap j b (by have := getElem?_lt_length hj; omega) hj
    refine ⟨m, List.getElem?_mem hk, ?_⟩
    rcases hm with hm | hm
    · subst hm
      exact cmp_equal_refl ho.refl ctx (hY m hb)
    · exact hm.2
  · have := inv.len_lo_x
    have := inv.len_lo_y
    omega
  · have := inv.len_hi
    omega

theorem merge_lists_sorted_union_witness :
    (field_order sample_cmp ∧ indices_valid sample_ctx [1, 3] ∧
      indices_valid sample_ctx [2, 3] ∧
      strictly_increasing sample_cmp sample_ctx [1, 3] ∧
      strictly_increasing sample_cmp sample_ctx [2, 3]) ∧
    ∃ st, merge_lists sample_cmp sample_ctx [1, 3] [2, 3] = .ok st ∧
      strictly_increasing sample_cmp sample_ctx st.fields ∧
      st.fields.Pairwise (cmp_less sample_cmp sample_ctx) ∧
      st.fields.Nodup ∧
      (∀ m ∈ st.fields, m ∈ [1, 3] ∨ m ∈ [2, 3]) ∧
      (∀ a ∈ [1, 3], a ∈ st.fields) ∧
      (∀ b ∈ [2, 3], ∃ m ∈ st.fields, cmp_equal sample_cmp sample_ctx m b) ∧
      max [1, 3].length [2, 3].length ≤ st.fields.length ∧
      st.fields.length ≤ [1, 3].length + [2, 3].length :=
  have h1 : indices_valid sample_ctx [1, 3] := by
    intro i hi
    simp only [List.mem_cons, List.mem_singleton, List.not_mem_nil, or_false] at hi
    rcases hi with rfl | rfl <;> decide
  have h2 : indices_valid sample_ctx [2, 3] := by
    intro i hi
    simp only [List.mem_cons, List.mem_singleton, List.not_mem_nil, or_false] at hi
    rcases hi with rfl | rfl <;> decide
  have h3 : strictly_increasing sample_cmp sample_ctx [1, 3] := by
    simp [strictly_increasing, cmp_less, field_cmp_at, sample_ctx, sample_cmp]
  have h4 : strictly_increasing sample_cmp sample_ctx [2, 3] := by
    simp [strictly_increasing, cmp_less, field_cmp_at, sample_ctx, sample_cmp]
  ⟨⟨sample_cmp_order, h1, h2, h3, h4⟩,
    merge_lists_sorted_union sample_cmp sample_ctx [1, 3] [2, 3] sample_cmp_order h1 h2 h3 h4⟩

/-- C4: after the merge loop of `ca_merge_fields`, every cell `xgen_map[i]`, `i < |X|`,
is written, holds a position `k < |M|`, and `M[k]` is the field `X[i]`; every cell
`ygen_map[j]`, `j < |Y|`, is written, holds a position `k < |M|`, and `M[k]` compares
equal to `Y[j]`, and is `Y[j]` itself when distinct table entries never compare equal.
The comparison is only asked to find every record equal to itself. -/
theorem merge_lists_index_maps
    (ca_field_cmp : ca_field_struct → ca_field_struct → Int) (ctx : ca_ctx_struct)
    (X Y : List Nat) (hrefl : ∀ a, ca_field_cmp a a = 0)
    (hX : indices_valid ctx X) (hY : indices_valid ctx Y) :
    ∃ st, merge_lists ca_field_cmp ctx X Y = .ok st ∧
      st.xgen_map.length = X.length ∧ st.ygen_map.length = Y.length ∧
      (∀ (i : Nat) (a : Nat), X[i]? = some a →
        ∃ k, st.xgen_map[i]? = some (some k) ∧ k < st.fields.length ∧
          st.fields[k]? = some a) ∧
      (∀ (j : Nat) (b : Nat), Y[j]? = some b →
        ∃ k m, st.ygen_map[j]? = some (some k) ∧ k < st.fields.length ∧
          st.fields[k]? = some m ∧ cmp_equal ca_field_cmp ctx m b ∧
          ((∀ p q, cmp_equal ca_field_cmp ctx p q → p = q) → m = b)) := by
  obtain ⟨st, hst⟩ := merge_loop_total ca_field_cmp ctx X Y hX hY
  obtain ⟨inv, hix, hiy⟩ := merge_loop_inv _ _ _ (merge_inv_init ca_field_cmp ctx X Y) hst
  refine ⟨st, hst, inv.xmap_len, inv.ymap_len, ?_, ?_⟩
  · intro i a hi
    obtain ⟨k, hk1, hk2⟩ := inv.xmap i a (by have := getElem?_lt_length hi; omega) hi
    exact ⟨k, hk1, getElem?_lt_length hk2, hk2⟩
  · intro j b hj
    obtain ⟨k, m, hk1, hk2, hm⟩ := inv.ymap j b (by have := getElem?_lt_length hj; omega) hj
    refine ⟨k, m, hk1, getElem?_lt_length hk2, hk2, ?_, ?_⟩
    · rcases hm with hm | hm
      · subst hm
        exact cmp_equal_refl hrefl ctx (hY m (List.getElem?_mem hj))
      · exact hm.2
    · intro hdist
      rcases hm with hm | hm
      · exact hm
      · exact hdist m b hm.2

theorem merge_lists_index_maps_witness :
    ((∀ a, sample_cmp a a = 0) ∧ indices_valid sample_ctx [1, 3] ∧
      indices_valid sample_ctx [2, 3]) ∧
    ∃ st, merge_lists sample_cmp sample_ctx [1, 3] [2, 3] = .ok st ∧
      st.xgen_map.length = [1, 3].length ∧ st.ygen_map.length = [2, 3].length ∧
      (∀ (i : Nat) (a : Nat), [1, 3][i]? = some a →
        ∃ k, st.xgen_map[i]? = some (some k) ∧ k < st.fields.length ∧
          st.fields[k]? = some a) ∧
      (∀ (j : Nat) (b : Nat), [2, 3][j]? = some b →
        ∃ k m, st.ygen_map[j]? = some (some k) ∧ k < st.fields.length ∧
          st.fields[k]? = some m ∧ cmp_equal sample_cmp sample_ctx m b ∧
          ((∀ p q, cmp_equal sample_cmp sample_ctx p q → p = q) → m = b)) :=
  have h1 : indices_valid sample_ctx [1, 3] := by
    intro i hi
    simp only [List.mem_cons, List.mem_singleton, List.not_mem_nil, or_false] at hi
    rcases hi with rfl | rfl <;> decide
  have h2 : indices_valid sample_ctx [2, 3] := by
    intro i hi
    simp only [List.mem_cons, List.mem_singleton, List.not_mem_nil, or_false] at hi
    rcases hi with rfl | rfl <;> decide
  ⟨⟨sample_cmp_order.refl, h1, h2⟩,
    merge_lists_index_maps sample_cmp sample_ctx [1, 3] [2, 3] sample_cmp_order.refl h1 h2⟩

end CaMerge

namespace CaMerge

theorem getElem?_append_some {α : Type} {l : List α} (ext : List α) {i : Nat} {a : α}
    (h : l[i]? = some a) : (l ++ ext)[i]? = some a := by
  rw [List.getElem?_append_left (getElem?_lt_length h)]
  exact h

theorem field_cmp_at_extend {ca_field_cmp : ca_field_struct → ca_field_struct → Int}
    {ctx ctx1 : ca_ctx_struct} (ext : List ca_field_struct)
    (hext : ctx1.fields = ctx.fields ++ ext) {i j : Nat} {c : Int}
    (h : field_cmp_at ca_field_cmp ctx i j = .ok c) :
    field_cmp_at ca_field_cmp ctx1 i j = .ok c := by
  rw [field_cmp_at_ok_iff] at *
  obtain ⟨a, b, ha, hb, hab⟩ := h
  exact ⟨a, b, by rw [hext]; exact getElem?_append_some ext ha,
    by rw [hext]; exact getElem?_append_some ext hb, hab⟩

theorem merge_step_extend {ca_field_cmp : ca_field_struct → ca_field_struct → Int}
    {ctx ctx1 : ca_ctx_struct} (ext : List ca_field_struct)
    (hext : ctx1.fields = ctx.fields ++ ext) {X Y : List Nat} {st st1 : merge_state}
    (h : merge_step ca_field_cmp ctx X Y st = .ok st1) :
    merge_step ca_field_cmp ctx1 X Y st = .ok st1 := by
  unfold merge_step at h ⊢
  cases hx : X[st.ix]? with
  | none =>
    cases hy : Y[st.iy]? with
    | none => simp [hx, hy] at h
    | some fy =>
      simp only [hx, hy] at h
      exact h
  | some fx =>
    cases hy : Y[st.iy]? with
    | none =>
      simp only [hx, hy] at h
      exact h
    | some fy =>
      simp only [hx, hy] at h
      cases hc : field_cmp_at ca_field_cmp ctx fx fy with
      | error e => simp [hc] at h
      | ok c =>
        simp only [hc] at h
        simp only [field_cmp_at_extend ext hext hc]
        exact h

theorem merge_loop_extend {ca_field_cmp : ca_field_struct → ca_field_struct → Int}
    {ctx ctx1 : ca_ctx_struct} (ext : List ca_field_struct)
    (hext : ctx1.fields = ctx.fields ++ ext) {X Y : List Nat} (fuel : Nat) :
    ∀ (st st1 : merge_state), merge_loop ca_field_cmp ctx X Y fuel st = .ok st1 →
      merge_loop ca_field_cmp ctx1 X Y fuel st = .ok st1 := by
  induction fuel with
  | zero =>
    intro st st1 h
    unfold merge_loop at h ⊢
    exact h
  | succ n ih =>
    intro st st1 h
    unfold merge_loop at h ⊢
    by_cases hc : st.ix < X.length ∨ st.iy < Y.length
    · simp only [hc, if_true] at h ⊢
      cases hs : merge_step ca_field_cmp ctx X Y st with
      | error e => simp [hs] at h
      | ok st2 =>
        simp only [hs] at h
        simp only [merge_step_extend ext hext hs]
        exact ih st2 st1 h
    · simp only [hc, if_false] at h ⊢
      exact h

theorem slong_vec_equal_self (a : List Nat) : _slong_vec_equal a a a.length = true := by
  induction a with
  | nil => rfl
  | cons x xs ih => simp [_slong_vec_equal, ih]

theorem slong_vec_equal_iff (a : List Nat) :
    ∀ b : List Nat, b.length = a.length →
      (_slong_vec_equal a b a.length = true ↔ a = b) := by
  induction a with
  | nil =>
    intro b hb
    cases b with
    | nil => simp [_slong_vec_equal]
    | cons y ys => simp at hb
  | cons x xs ih =>
    intro b hb
    cases b with
    | nil => simp at hb
    | cons y ys =>
      simp only [List.length_cons, Nat.add_right_cancel_iff] at hb
      simp only [List.length_cons, _slong_vec_equal, List.cons.injEq]
      by_cases hxy : x = y
      · simp [hxy, ih ys hb]
      · simp [hxy]

theorem cache_scan_append (M : List Nat) (l2 : List ca_field_struct) :
    ∀ (l1 : List ca_field_struct) (i : Nat),
      cache_scan M (l1 ++ l2) i =
        match cache_scan M l1 i with
        | some k => some k
        | none => cache_scan M l2 (i + l1.length) := by
  intro l1
  induction l1 with
  | nil => intro i; simp [cache_scan]
  | cons f rest ih =>
    intro i
    simp only [List.cons_append, cache_scan, List.length_cons]
    have e : i + (rest.length + 1) = i + 1 + rest.length := by omega
    split
    · split
      · split
        · rfl
        · rw [e]; exact ih (i + 1)
      · rw [e]; exact ih (i + 1)
    · rw [e]; exact ih (i + 1)

theorem cache_scan_init_multi (M : List Nat) (i : Nat) :
    cache_scan M [ca_field_init_multi M] i = some i := by
  simp [cache_scan, ca_field_init_multi, slong_vec_equal_self]

theorem select_field_cases {ctx ctx1 : ca_ctx_struct} {M : List Nat} {z : Nat}
    (h : select_field ctx M = .ok (z, ctx1)) :
    (cache_lookup ctx M = some z ∧ ctx1 = ctx) ∨
    (cache_lookup ctx M = none ∧ z = ctx.fields.length ∧
      ctx1.fields = ctx.fields ++ [ca_field_init_multi M] ∧
      ctx1.fields_alloc =
        (if ctx.fields.length ≥ ctx.fields_alloc then 2 * ctx.fields_alloc
         else ctx.fields_alloc) ∧
      ctx.fields.length < ctx1.fields_alloc) := by
  unfold select_field at h
  cases hl : cache_lookup ctx M with
  | some k =>
    simp only [hl, Except.ok.injEq, Prod.mk.injEq] at h
    exact Or.inl ⟨by rw [h.1], h.2.symm⟩
  | none =>
    simp only [hl, ca_ctx_struct.fields_len] at h
    by_cases hlt : ctx.fields.length <
        (if ctx.fields.length ≥ ctx.fields_alloc then 2 * ctx.fields_alloc
         else ctx.fields_alloc)
    · rw [if_pos hlt] at h
      simp only [Except.ok.injEq, Prod.mk.injEq] at h
      obtain ⟨h1, h2⟩ := h
      subst h1 h2
      exact Or.inr ⟨rfl, rfl, rfl, rfl, hlt⟩
    · rw [if_neg hlt] at h
      cases h

theorem select_field_fields {ctx ctx1 : ca_ctx_struct} {M : List Nat} {z : Nat}
    (h : select_field ctx M = .ok (z, ctx1)) :
    ∃ ext, ctx1.fields = ctx.fields ++ ext := by
  rcases select_field_cases h with ⟨_, h2⟩ | ⟨_, _, h3, _⟩
  · exact ⟨[], by rw [h2]; simp⟩
  · exact ⟨_, h3⟩

theorem select_field_again {ctx ctx1 : ca_ctx_struct} {M : List Nat} {z : Nat}
    (h : select_field ctx M = .ok (z, ctx1)) :
    cache_lookup ctx1 M = some z ∧ select_field ctx1 M = .ok (z, ctx1) := by
  have key : cache_lookup ctx1 M = some z := by
    rcases select_field_cases h with ⟨h1, h2⟩ | ⟨h1, h2, h3, _⟩
    · rw [h2]; exact h1
    · unfold cache_lookup at h1 ⊢
      rw [h3, cache_scan_append, h1]
      simp only []
      rw [cache_scan_init_multi, h2]
      simp
  refine ⟨key, ?_⟩
  unfold select_field
  rw [key]

theorem lift_to_field_field {ctx : ca_ctx_struct} {z : Nat} {x r : ca_struct}
    {gen_map : List (Option Nat)} (h : lift_to_field ctx z x gen_map = .ok r) :
    r.field = z := by
  unfold lift_to_field at h
  split at h
  · simp only [Except.ok.injEq] at h
    subst h
    assumption
  · split at h
    · split at h <;> (repeat' split at h) <;>
        first
        | (simp only [Except.ok.injEq] at h; subst h; rfl)
        | (simp at h)
    · simp at h

/-- What a returning call of `ca_merge_fields` on values of distinct fields went
through: neither value is special, both field records are read and are not QQ, the loop
returns, a target field is selected, and both lifts return. -/
theorem ca_merge_fields_ok_iff
    (ca_field_cmp : ca_field_struct → ca_field_struct → Int) (ctx c1 : ca_ctx_struct)
    (x y resx resy : ca_struct) (hxy : x.field ≠ y.field) :
    ca_merge_fields ca_field_cmp ctx x y = .ok (resx, resy, c1) ↔
    (CA_IS_SPECIAL x = false ∧ CA_IS_SPECIAL y = false ∧
      ∃ fx fy st z,
        ctx.fields[x.field]? = some fx ∧ fx.type ≠ .QQ ∧
        ctx.fields[y.field]? = some fy ∧ fy.type ≠ .QQ ∧
        merge_lists ca_field_cmp ctx (generator_list fx x.field)
          (generator_list fy y.field) = .ok st ∧
        select_field ctx st.fields = .ok (z, c1) ∧
        lift_to_field c1 z x st.xgen_map = .ok resx ∧
        lift_to_field c1 z y st.ygen_map = .ok resy) := by
  constructor
  · intro h
    unfold ca_merge_fields at h
    by_cases hsp : (CA_IS_SPECIAL x || CA_IS_SPECIAL y) = true
    · simp [hsp] at h
    · simp only [hsp, if_false, hxy] at h
      cases hfx : ctx.fields[x.field]? with
      | none => simp [hfx] at h
      | some fx =>
        simp only [hfx] at h
        by_cases hqx : fx.type = .QQ
        · simp [hqx] at h
        · simp only [hqx, if_false] at h
          cases hfy : ctx.fields[y.field]? with
          | none => simp [hfy] at h
          | some fy =>
            simp only [hfy] at h
            by_cases hqy : fy.type = .QQ
            · simp [hqy] at h
            · simp only [hqy, if_false] at h
              cases hm : merge_lists ca_field_cmp ctx (generator_list fx x.field)
                  (generator_list fy y.field) with
              | error e => simp [hm] at h
              | ok st =>
                simp only [hm] at h
                cases hs : select_field ctx st.fields with
                | error e => simp [hs] at h
                | ok r =>
                  obtain ⟨z, cc⟩ := r
                  simp only [hs] at h
                  cases hlx : lift_to_field cc z x st.xgen_map with
                  | error e => simp [hlx] at h
                  | ok rx =>
                    simp only [hlx] at h
                    cases hly : lift_to_field cc z y st.ygen_map with
                    | error e => simp [hly] at h
                    | ok ry =>
                      simp only [hly, Except.ok.injEq, Prod.mk.injEq] at h
                      obtain ⟨h1, h2, h3⟩ := h
                      simp only [Bool.or_eq_true, not_or, Bool.not_eq_true] at hsp
                      exact ⟨hsp.1, hsp.2, fx, fy, st, z, rfl, hqx, rfl, hqy, hm, hs, hlx, hly⟩
  · rintro ⟨hx, hy, fx, fy, st, z, hfx, hqx, hfy, hqy, hm, hs, hlx, hly⟩
    unfold ca_merge_fields
    simp [hx, hy, hxy, hfx, hqx, hfy, hqy, hm, hs, hlx, hly]

/-- C2: if `ca_merge_fields(x, y)`, for values of distinct fields, run on the context
`c0` returns and leaves the context `c1`, then the same call run on `c1` returns the
same two results, both in the same target field, finds the merged list of the first
call in the table at the index of that target field (the cache hit), and leaves the
context, field table included, as `c1`.  Nothing is asked of the comparison
function. -/
theorem ca_merge_fields_cached
    (ca_field_cmp : ca_field_struct → ca_field_struct → Int) (c0 c1 : ca_ctx_struct)
    (x y resx resy : ca_struct) (hxy : x.field ≠ y.field)
    (h : ca_merge_fields ca_field_cmp c0 x y = .ok (resx, resy, c1)) :
    ca_merge_fields ca_field_cmp c1 x y = .ok (resx, resy, c1) ∧
    ∃ fx fy st z,
      c0.fields[x.field]? = some fx ∧ c0.fields[y.field]? = some fy ∧
      merge_lists ca_field_cmp c0 (generator_list fx x.field) (generator_list fy y.field)
        = .ok st ∧
      select_field c0 st.fields = .ok (z, c1) ∧
      c1.fields[x.field]? = some fx ∧ c1.fields[y.field]? = some fy ∧
      merge_lists ca_field_cmp c1 (generator_list fx x.field) (generator_list fy y.field)
        = .ok st ∧
      cache_lookup c1 st.fields = some z ∧
      select_field c1 st.fields = .ok (z, c1) ∧
      resx.field = z ∧ resy.field = z := by
  obtain ⟨hx, hy, fx, fy, st, z, hfx, hqx, hfy, hqy, hm, hs, hlx, hly⟩ :=
    (ca_merge_fields_ok_iff ca_field_cmp c0 c1 x y resx resy hxy).mp h
  obtain ⟨ext, hext⟩ := select_field_fields hs
  have hfx1 : c1.fields[x.field]? = some fx := by
    rw [hext]; exact getElem?_append_some ext hfx
  have hfy1 : c1.fields[y.field]? = some fy := by
    rw [hext]; exact getElem?_append_some ext hfy
  have hm1 : merge_lists ca_field_cmp c1 (generator_list fx x.field)
      (generator_list fy y.field) = .ok st := by
    unfold merge_lists at hm ⊢
    exact merge_loop_extend ext hext _ _ _ hm
  obtain ⟨hhit, hs1⟩ := select_field_again hs
  refine ⟨?_, fx, fy, st, z, hfx, hfy, hm, hs, hfx1, hfy1, hm1, hhit, hs1,
    lift_to_field_field hlx, lift_to_field_field hly⟩
  exact (ca_merge_fields_ok_iff ca_field_cmp c1 c1 x y resx resy hxy).mpr
    ⟨hx, hy, fx, fy, st, z, hfx1, hqx, hfy1, hqy, hm1, hs1, hlx, hly⟩

theorem ca_merge_fields_cached_witness :
    (sample_x.field ≠ sample_z.field ∧
      ca_merge_fields sample_cmp sample_ctx sample_x sample_z = .ok (
        { field := 5, special := none,
          elem := .mpoly_q { terms := [(1, [1, 0])] } { terms := [(1, [0, 0])] } },
        { field := 5, special := none,
          elem := .mpoly_q { terms := [(1, [0, 1])] } { terms := [(1, [0, 0])] } },
        { fields := sample_ctx.fields ++ [ca_field_init_multi [1, 3]],
          fields_alloc := 8 })) ∧
    ca_merge_fields sample_cmp
        { fields := sample_ctx.fields ++ [ca_field_init_multi [1, 3]], fields_alloc := 8 }
        sample_x sample_z = .ok (
        { field := 5, special := none,
          elem := .mpoly_q { terms := [(1, [1, 0])] } { terms := [(1, [0, 0])] } },
        { field := 5, special := none,
          elem := .mpoly_q { terms := [(1, [0, 1])] } { terms := [(1, [0, 0])] } },
        { fields := sample_ctx.fields ++ [ca_field_init_multi [1, 3]],
          fields_alloc := 8 }) :=
  ⟨⟨by decide, rfl⟩,
    (ca_merge_fields_cached sample_cmp sample_ctx _ sample_x sample_z _ _ (by decide) rfl).1⟩

end CaMerge

namespace CaMerge

theorem field_cmp_at_swap {ca_field_cmp : ca_field_struct → ca_field_struct → Int}
    (ho : field_order ca_field_cmp) (ctx : ca_ctx_struct) {i j : Nat} {c : Int}
    (h : field_cmp_at ca_field_cmp ctx i j = .ok c) :
    field_cmp_at ca_field_cmp ctx j i = .ok (-c) := by
  rw [field_cmp_at_ok_iff] at *
  obtain ⟨a, b, ha, hb, hab⟩ := h
  exact ⟨b, a, hb, ha, by rw [ho.antisymm a b, hab]⟩

theorem merge_step_swap {ca_field_cmp : ca_field_struct → ca_field_struct → Int}
    (ho : field_order ca_field_cmp) {ctx : ca_ctx_struct}
    (hd : ∀ i j, cmp_equal ca_field_cmp ctx i j → i = j)
    {X Y : List Nat} {st st1 : merge_state}
    (h : merge_step ca_field_cmp ctx X Y st = .ok st1) :
    merge_step ca_field_cmp ctx Y X st.swap = .ok st1.swap := by
  unfold merge_step at h ⊢
  simp only [merge_state.swap]
  cases hx : X[st.ix]? with
  | none =>
    cases hy : Y[st.iy]? with
    | none => simp [hx, hy] at h
    | some fy =>
      simp only [hx, hy, Except.ok.injEq] at h
      subst h
      rfl
  | some fx =>
    cases hy : Y[st.iy]? with
    | none =>
      simp only [hx, hy, Except.ok.injEq] at h
      subst h
      rfl
    | some fy =>
      simp only [hx, hy] at h
      cases hc : field_cmp_at ca_field_cmp ctx fx fy with
      | error e => simp [hc] at h
      | ok c =>
        simp only [hc] at h
        simp only [field_cmp_at_swap ho ctx hc]
        have hr : c = -1 ∨ c = 0 ∨ c = 1 := by
          rw [field_cmp_at_ok_iff] at hc
          obtain ⟨a, b, _, _, hab⟩ := hc
          rw [← hab]
          exact ho.range a b
        by_cases h0 : c = 0
        · rw [if_pos h0] at h
          simp only [Except.ok.injEq] at h
          subst h
          have hxy : fx = fy := hd fx fy (by rw [cmp_equal, hc, h0])
          subst hxy
          rw [if_pos (by omega)]
          rfl
        · by_cases h1 : c = -1
          · rw [if_neg h0, if_pos h1] at h
            simp only [Except.ok.injEq] at h
            subst h
            rw [if_neg (by omega), if_neg (by omega)]
            rfl
          · rw [if_neg h0, if_neg h1] at h
            simp only [Except.ok.injEq] at h
            subst h
            rw [if_neg (by omega), if_pos (by omega)]
            rfl

theorem merge_loop_swap {ca_field_cmp : ca_field_struct → ca_field_struct → Int}
    (ho : field_order ca_field_cmp) {ctx : ca_ctx_struct}
    (hd : ∀ i j, cmp_equal ca_field_cmp ctx i j → i = j)
    {X Y : List Nat} (fuel : Nat) :
    ∀ (st st1 : merge_state), merge_loop ca_field_cmp ctx X Y fuel st = .ok st1 →
      merge_loop ca_field_cmp ctx Y X fuel st.swap = .ok st1.swap := by
  induction fuel with
  | zero =>
    intro st st1 h
    unfold merge_loop at h ⊢
    by_cases hc : st.ix < X.length ∨ st.iy < Y.length
    · simp [hc] at h
    · have hc2 : ¬ (st.swap.ix < Y.length ∨ st.swap.iy < X.length) := by
        simp only [merge_state.swap]; omega
      simp only [hc, if_false, Except.ok.injEq] at h
      subst h
      simp only [hc2, if_false]
  | succ n ih =>
    intro st st1 h
    unfold merge_loop at h ⊢
    by_cases hc : st.ix < X.length ∨ st.iy < Y.length
    · have hc2 : st.swap.ix < Y.length ∨ st.swap.iy < X.length := by
        simp only [merge_state.swap]; omega
      simp only [hc, if_true] at h
      simp only [hc2, if_true]
      cases hs : merge_step ca_field_cmp ctx X Y st with
      | error e => simp [hs] at h
      | ok st2 =>
        simp only [hs] at h
        simp only [merge_step_swap ho hd hs]
        exact ih st2 st1 h
    · have hc2 : ¬ (st.swap.ix < Y.length ∨ st.swap.iy < X.length) := by
        simp only [merge_state.swap]; omega
      simp only [hc, if_false, Except.ok.injEq] at h
      subst h
      simp only [hc2, if_false]

theorem merge_lists_swap {ca_field_cmp : ca_field_struct → ca_field_struct → Int}
    (ho : field_order ca_field_cmp) {ctx : ca_ctx_struct}
    (hd : ∀ i j, cmp_equal ca_field_cmp ctx i j → i = j)
    {X Y : List Nat} {st : merge_state}
    (h : merge_lists ca_field_cmp ctx X Y = .ok st) :
    merge_lists ca_field_cmp ctx Y X = .ok st.swap := by
  unfold merge_lists at h ⊢
  have := merge_loop_swap ho hd _ _ _ h
  rw [Nat.add_comm]
  exact this

/-- The exchange of the arguments, for a call that returns: when swapping the
arguments negates the comparison and table entries that compare equal are identical,
`ca_merge_fields(y, x)` returns the two images of `ca_merge_fields(x, y)` exchanged and
the same context, and the two runs of the loop build the same list with the two index
maps exchanged. -/
theorem ca_merge_fields_swap_of_ok
    (ca_field_cmp : ca_field_struct → ca_field_struct → Int) (ctx c1 : ca_ctx_struct)
    (x y resx resy : ca_struct) (ho : field_order ca_field_cmp)
    (hd : ∀ i j, cmp_equal ca_field_cmp ctx i j → i = j)
    (hxy : x.field ≠ y.field)
    (h : ca_merge_fields ca_field_cmp ctx x y = .ok (resx, resy, c1)) :
    ca_merge_fields ca_field_cmp ctx y x = .ok (resy, resx, c1) ∧
    ∃ fx fy st z,
      ctx.fields[x.field]? = some fx ∧ ctx.fields[y.field]? = some fy ∧
      merge_lists ca_field_cmp ctx (generator_list fx x.field) (generator_list fy y.field)
        = .ok st ∧
      merge_lists ca_field_cmp ctx (generator_list fy y.field) (generator_list fx x.field)
        = .ok st.swap ∧
      st.swap.fields = st.fields ∧
      st.swap.ygen_map = st.xgen_map ∧ st.swap.xgen_map = st.ygen_map ∧
      select_field ctx st.fields = .ok (z, c1) ∧
      resx.field = z ∧ resy.field = z := by
  obtain ⟨hx, hy, fx, fy, st, z, hfx, hqx, hfy, hqy, hm, hs, hlx, hly⟩ :=
    (ca_merge_fields_ok_iff ca_field_cmp ctx c1 x y resx resy hxy).mp h
  have hm2 := merge_lists_swap ho hd hm
  refine ⟨?_, fx, fy, st, z, hfx, hfy, hm, hm2, rfl, rfl, rfl, hs,
    lift_to_field_field hlx, lift_to_field_field hly⟩
  exact (ca_merge_fields_ok_iff ca_field_cmp ctx c1 y x resy resx (Ne.symm hxy)).mpr
    ⟨hy, hx, fy, fx, st.swap, z, hfy, hqy, hfx, hqx, hm2, hs, hly, hlx⟩

theorem sample_ctx_distinct : ∀ i j, cmp_equal sample_cmp sample_ctx i j → i = j := by
  intro i j h
  unfold cmp_equal at h
  rw [field_cmp_at_ok_iff] at h
  obtain ⟨a, b, ha, hb, hab⟩ := h
  have hi : i < 5 := getElem?_lt_length ha
  have hj : j < 5 := getElem?_lt_length hb
  interval_cases i <;> interval_cases j <;>
    first
    | rfl
    | (exfalso
       simp only [sample_ctx, List.getElem?_cons_zero, List.getElem?_cons_succ,
         Option.some.injEq] at ha hb
       subst ha hb
       revert hab
       decide)

end CaMerge

namespace CaMerge

theorem cache_scan_some (M : List Nat) : ∀ (l : List ca_field_struct) (i k : Nat),
    cache_scan M l i = some k →
      i ≤ k ∧ ∃ f, l[k - i]? = some f ∧ f.type = .MULTI ∧ f.multi_ext = M := by
  intro l
  induction l with
  | nil => intro i k h; simp [cache_scan] at h
  | cons f rest ih =>
    intro i k h
    have next : cache_scan M rest (i + 1) = some k →
        i ≤ k ∧ ∃ g, (f :: rest)[k - i]? = some g ∧ g.type = .MULTI ∧ g.multi_ext = M := by
      intro h2
      obtain ⟨hle, g, hg, hg2⟩ := ih (i + 1) k h2
      refine ⟨by omega, g, ?_, hg2⟩
      have e1 : k - i = (k - (i + 1)) + 1 := by omega
      rw [e1, List.getElem?_cons_succ]
      exact hg
    unfold cache_scan at h
    split at h
    · rename_i hty
      split at h
      · rename_i hlen
        split at h
        · rename_i heq
          simp only [Option.some.injEq] at h
          subst h
          refine ⟨Nat.le_refl _, f, by simp, hty, ?_⟩
          exact ((slong_vec_equal_iff M f.multi_ext hlen).mp heq).symm
        · exact next h
      · exact next h
    · exact next h

/-- The record at the index that `select_field` answers is, in the context it leaves,
a MULTI field whose generator list is the list that was looked up. -/
theorem select_field_target {ctx c1 : ca_ctx_struct} {M : List Nat} {z : Nat}
    (h : select_field ctx M = .ok (z, c1)) :
    ∃ fz, c1.fields[z]? = some fz ∧ fz.type = .MULTI ∧ fz.multi_ext = M := by
  rcases select_field_cases h with ⟨h1, h2⟩ | ⟨_, h2, h3, _⟩
  · unfold cache_lookup at h1
    obtain ⟨_, f, hf, hf2⟩ := cache_scan_some M _ _ _ h1
    rw [h2]
    exact ⟨f, by simpa using hf, hf2⟩
  · refine ⟨ca_field_init_multi M, ?_, rfl, rfl⟩
    rw [h3, h2]
    exact List.getElem?_concat_length _ _

end CaMerge

namespace CaExp

open CaMerge (ca_fault ca_special ca_field_type fmpz_mpoly_struct ca_elem_struct
  gen_power_exp)

theorem sample_lib_predicates : special_predicates_exact sample_lib := by
  refine ⟨?_, ?_, ?_, ?_⟩ <;> intro ctx s <;> cases s <;> simp [sample_lib, sample_check]

/-- C6: for a library whose four predicates answer `T_TRUE` on a special value exactly
for the special they are named after, `ca_exp` of a special value returns PosInf for
PosInf, the number zero for NegInf, Undefined for Undefined and for UnsignedInf, and
Unknown for Unknown, and leaves the context as it was; the result does not depend on
any other function of the library, so no later step of the cascade is consulted. -/
theorem ca_exp_special {σ β : Type} (lib : ca_lib σ β)
    (hp : special_predicates_exact lib) (s : ca_special) (ctx : σ) :
    ca_exp lib (.special s) ctx = .ok (exp_of_special s, ctx) ∧
    (exp_of_special .PosInf = .special .PosInf ∧
     exp_of_special .NegInf = .element field_qq (.q 0 1) ∧
     exp_of_special .Undefined = .special .Undefined ∧
     exp_of_special .UnsignedInf = .special .Undefined ∧
     exp_of_special .Unknown = .special .Unknown) := by
  refine ⟨?_, rfl, rfl, rfl, rfl, rfl⟩
  have h1 := hp.pos_inf ctx s
  have h2 := hp.neg_inf ctx s
  have h3 := hp.undefined ctx s
  have h4 := hp.uinf ctx s
  unfold ca_exp
  simp only [CA_IS_SPECIAL, if_true]
  cases s <;> simp_all [exp_of_special]

theorem ca_exp_special_witness :
    special_predicates_exact sample_lib ∧
    (ca_exp sample_lib (.special .NegInf) 0 = .ok (exp_of_special .NegInf, 0) ∧
    (exp_of_special .PosInf = .special .PosInf ∧
     exp_of_special .NegInf = .element field_qq (.q 0 1) ∧
     exp_of_special .Undefined = .special .Undefined ∧
     exp_of_special .UnsignedInf = .special .Undefined ∧
     exp_of_special .Unknown = .special .Unknown)) :=
  ⟨sample_lib_predicates, ca_exp_special sample_lib sample_lib_predicates .NegInf 0⟩

/-- C7: when `x` is not special and `ca_is_gen_as_ext` answers an extension whose head
is `CA_Log` and whose argument array starts with `a`, `ca_exp` returns a copy of `a` and
leaves the context as it was, whatever the zero test, the test for multiples of `pi*i`
and the fallback of the library would do. -/
theorem ca_exp_log {σ β : Type} (lib : ca_lib σ β) (x a : ca_struct)
    (rest : List ca_struct) (ctx : σ) (ext : ca_ext_ptr)
    (hx : CA_IS_SPECIAL x = false)
    (hg : lib.ca_is_gen_as_ext ctx x = some ext)
    (hh : lib.CA_EXT_HEAD ext = calcium_func_code.CA_Log)
    (ha : lib.CA_EXT_FUNC_ARGS ext = a :: rest) :
    ca_exp lib x ctx = .ok (a, ctx) := by
  unfold ca_exp
  simp [hx, hg, ext_if_log, hh, ext_first_arg, ha]

theorem ca_exp_log_witness :
    (CA_IS_SPECIAL sample_log2 = false ∧
      sample_lib.ca_is_gen_as_ext 0 sample_log2 = some 0 ∧
      sample_lib.CA_EXT_HEAD 0 = calcium_func_code.CA_Log ∧
      sample_lib.CA_EXT_FUNC_ARGS 0 = [.element field_qq (.q 2 1)]) ∧
    ca_exp sample_lib sample_log2 0 = .ok (.element field_qq (.q 2 1), 0) :=
  ⟨⟨rfl, rfl, rfl, rfl⟩,
    ca_exp_log sample_lib sample_log2 (.element field_qq (.q 2 1)) [] 0 0 rfl rfl rfl rfl⟩

/-- What a successful call of `ca_is_fmpq_times_gen_as_ext` says about its input: the
value is an element whose numerator has one term and whose denominator has a first
term, and the rational written to `c` has the coefficient of the former as numerator
and the coefficient of the latter as denominator. -/
theorem ca_is_fmpq_times_gen_as_ext_some {c0 c : fmpq} {x : ca_struct} {ext : ca_ext_ptr}
    (h : ca_is_fmpq_times_gen_as_ext c0 x = .ok (some ext, c)) :
    ∃ K n exps d dexps drest,
      x = .element K (.mpoly_q { terms := [(n, exps)] } { terms := (d, dexps) :: drest }) ∧
      fmpz_mpoly_is_fmpz { terms := (d, dexps) :: drest } = true ∧
      c = { num := n, den := d } := by
  unfold ca_is_fmpq_times_gen_as_ext at h
  cases x with
  | special s => simp at h
  | element K elem =>
    simp only [] at h
    split at h
    · simp at h
    · split at h
      · simp at h
      · cases elem with
        | q n d => simp at h
        | nf a => simp at h
        | mpoly_q num den =>
          simp only [] at h
          split at h
          · rename_i hden
            split at h
            · rename_i hlen
              obtain ⟨nt⟩ := num
              obtain ⟨dt⟩ := den
              cases nt with
              | nil => simp at h
              | cons t ts =>
                obtain ⟨n, exps⟩ := t
                simp only [fmpz_mpoly_length, List.length_cons, Nat.add_left_eq_self,
                  List.length_eq_zero] at hlen
                subst hlen
                simp only [] at h
                split at h
                · cases dt with
                  | nil => simp at h
                  | cons u us =>
                    obtain ⟨d, dexps⟩ := u
                    simp only [] at h
                    split at h
                    · simp only [Except.ok.injEq, Prod.mk.injEq, Option.some.injEq] at h
                      exact ⟨K, n, exps, d, dexps, us, rfl, hden, h.2.symm⟩
                    · simp at h
                · simp at h
            · simp at h
          · simp at h

/-- C8: when `x` is not special, is not itself a Log generator, and
`ca_is_fmpq_times_gen_as_ext` answers the rational `c` and an extension whose head is
`CA_Log` and whose argument array starts with `a`, `ca_exp` returns what
`ca_pow_fmpq(a, c)` returns; `x` is then an element whose numerator has the single term
`n * monomial` over a constant denominator `d`, and `c` is `n/d` with exactly these two
cells. -/
theorem ca_exp_fmpq_times_log {σ β : Type} (lib : ca_lib σ β) (x a : ca_struct)
    (rest : List ca_struct) (ctx : σ) (ext : ca_ext_ptr) (c : fmpq)
    (hx : CA_IS_SPECIAL x = false)
    (hg : ext_if_log lib (lib.ca_is_gen_as_ext ctx x) = none)
    (hc : ca_is_fmpq_times_gen_as_ext fmpq_init x = .ok (some ext, c))
    (hh : lib.CA_EXT_HEAD ext = calcium_func_code.CA_Log)
    (ha : lib.CA_EXT_FUNC_ARGS ext = a :: rest) :
    ca_exp lib x ctx = .ok (lib.ca_pow_fmpq ctx a c) ∧
    ∃ K n exps d dexps drest,
      x = .element K (.mpoly_q { terms := [(n, exps)] } { terms := (d, dexps) :: drest }) ∧
      fmpz_mpoly_is_fmpz { terms := (d, dexps) :: drest } = true ∧
      c = { num := n, den := d } := by
  refine ⟨?_, ca_is_fmpq_times_gen_as_ext_some hc⟩
  unfold ca_exp
  simp only [hx, Bool.false_eq_true, if_false, hg, hc]
  simp [ext_if_log, hh, ext_first_arg, ha]

theorem ca_exp_fmpq_times_log_witness :
    (CA_IS_SPECIAL sample_three_half_log2 = false ∧
      ext_if_log sample_lib (sample_lib.ca_is_gen_as_ext 0 sample_three_half_log2) = none ∧
      ca_is_fmpq_times_gen_as_ext fmpq_init sample_three_half_log2
        = .ok (some 0, { num := 3, den := 2 }) ∧
      sample_lib.CA_EXT_HEAD 0 = calcium_func_code.CA_Log ∧
      sample_lib.CA_EXT_FUNC_ARGS 0 = [.element field_qq (.q 2 1)]) ∧
    (ca_exp sample_lib sample_three_half_log2 0
        = .ok (sample_lib.ca_pow_fmpq 0 (.element field_qq (.q 2 1)) { num := 3, den := 2 }) ∧
    ∃ K n exps d dexps drest,
      sample_three_half_log2
        = .element K (.mpoly_q { terms := [(n, exps)] } { terms := (d, dexps) :: drest }) ∧
      fmpz_mpoly_is_fmpz { terms := (d, dexps) :: drest } = true ∧
      ({ num := 3, den := 2 } : fmpq) = { num := n, den := d }) :=
  ⟨⟨rfl, rfl, rfl, rfl, rfl⟩,
    ca_exp_fmpq_times_log sample_lib sample_three_half_log2 (.element field_qq (.q 2 1)) []
      0 0 { num := 3, den := 2 } rfl rfl rfl rfl rfl⟩

/-- C9: when `x` is not special, neither generator test of the cascade finds a Log
extension, and `ca_check_is_zero` answers `T_TRUE`, `ca_exp` returns the constant 1 of
the QQ field and leaves the context as it was; in particular this is the result for the
rational 0 of QQ whenever `ca_is_gen_as_ext` answers `NULL` for it and the zero test
answers `T_TRUE`. -/
theorem ca_exp_zero {σ β : Type} (lib : ca_lib σ β) (ctx : σ) :
    (∀ (x : ca_struct) (ext2 : Option ca_ext_ptr) (t : fmpq),
      CA_IS_SPECIAL x = false →
      ext_if_log lib (lib.ca_is_gen_as_ext ctx x) = none →
      ca_is_fmpq_times_gen_as_ext fmpq_init x = .ok (ext2, t) →
      ext_if_log lib ext2 = none →
      lib.ca_check_is_zero ctx x = truth_t.T_TRUE →
      ca_exp lib x ctx = .ok (.element field_qq (.q 1 1), ctx)) ∧
    (lib.ca_is_gen_as_ext ctx (.element field_qq (.q 0 1)) = none →
      lib.ca_check_is_zero ctx (.element field_qq (.q 0 1)) = truth_t.T_TRUE →
      ca_is_fmpq_times_gen_as_ext fmpq_init (.element field_qq (.q 0 1))
        = .ok (none, fmpq_init) ∧
      ca_exp lib (.element field_qq (.q 0 1)) ctx = .ok (.element field_qq (.q 1 1), ctx)) := by
  have main : ∀ (x : ca_struct) (ext2 : Option ca_ext_ptr) (t : fmpq),
      CA_IS_SPECIAL x = false →
      ext_if_log lib (lib.ca_is_gen_as_ext ctx x) = none →
      ca_is_fmpq_times_gen_as_ext fmpq_init x = .ok (ext2, t) →
      ext_if_log lib ext2 = none →
      lib.ca_check_is_zero ctx x = truth_t.T_TRUE →
      ca_exp lib x ctx = .ok (.element field_qq (.q 1 1), ctx) := by
    intro x ext2 t hx hg hc hl hz
    unfold ca_exp
    simp only [hx, Bool.false_eq_true, if_false, hg, hc, hl, hz, if_true, ca_one]
  refine ⟨main, ?_⟩
  intro hg hz
  have hc : ca_is_fmpq_times_gen_as_ext fmpq_init (.element field_qq (.q 0 1))
      = .ok (none, fmpq_init) := rfl
  refine ⟨hc, main _ none fmpq_init rfl ?_ hc rfl hz⟩
  rw [hg]
  rfl

theorem ca_exp_zero_witness :
    ca_exp sample_lib (.element field_qq (.q 0 1)) 0 = .ok (.element field_qq (.q 1 1), 0) :=
  ((ca_exp_zero sample_lib 0).2 rfl rfl).2

end CaExp

namespace CaExp

open CaMerge (ca_fault ca_special ca_field_type fmpz_mpoly_struct ca_elem_struct
  gen_power_exp)

theorem cexp_pi_i_reduce (n : Int) (q : Nat) (hq : 0 < q) :
    Complex.exp (Real.pi * Complex.I / q) ^ (n % ((2 * q : Nat) : Int)).toNat
      = Complex.exp (Real.pi * Complex.I * n / q) := by
  have hq0 : (q : ℂ) ≠ 0 := by exact_mod_cast (Nat.pos_iff_ne_zero.mp hq)
  have hm : (0 : Int) < ((2 * q : Nat) : Int) := by exact_mod_cast (by omega : 0 < 2 * q)
  have hp0 : 0 ≤ n % ((2 * q : Nat) : Int) := Int.emod_nonneg _ (ne_of_gt hm)
  have hdecomp : n = ((2 * q : Nat) : Int) * (n / ((2 * q : Nat) : Int))
      + ((n % ((2 * q : Nat) : Int)).toNat : Int) := by
    rw [Int.toNat_of_nonneg hp0]
    exact (Int.ediv_add_emod n _).symm
  set p := (n % ((2 * q : Nat) : Int)).toNat with hpdef
  set k := n / ((2 * q : Nat) : Int) with hkdef
  rw [← Complex.exp_nat_mul]
  have hn : (n : ℂ) = (2 * q : ℂ) * (k : ℂ) + (p : ℂ) := by
    have := congrArg (fun z : Int => (z : ℂ)) hdecomp
    simpa using this
  rw [hn]
  have e1 : (Real.pi : ℂ) * Complex.I * ((2 * q : ℂ) * (k : ℂ) + (p : ℂ)) / q
      = (p : ℂ) * (Real.pi * Complex.I / q) + (k : ℂ) * (2 * Real.pi * Complex.I) := by
    field_simp
    ring
  rw [e1, Complex.exp_add, Complex.exp_int_mul_two_pi_mul_I, mul_one]

theorem cexp_pi_i_half : Complex.exp (Real.pi * Complex.I / (2 : Nat)) = Complex.I := by
  have h : (Real.pi : ℂ) * Complex.I / ((2 : Nat) : ℂ) = ((Real.pi / 2 : ℝ) : ℂ) * Complex.I := by
    push_cast
    ring
  rw [h, Complex.exp_mul_I]
  simp [← Complex.ofReal_cos, ← Complex.ofReal_sin]

/-- C10: when `x` falls through the steps 2 to 4 of the cascade and `ca_as_fmpq_pi_i`
answers `n/q` in lowest terms with `1 ≤ q ≤ 12`, `ca_exp` reduces `n` to the floor
remainder `p` of `n` by `2q`, with `0 ≤ p < 2q` also for negative `n`, and returns 1
(`p = 0`) or -1 (`p = 1`) when `q = 1`, what `ca_i` (`p = 1`) or `ca_neg_i` (`p = 3`)
writes when `q = 2`, and the power `p` of the algebraic number `qqbar_exp_pi_i(1, q)`
otherwise.  The number named in each case is `exp(pi*i*n/q)` for the unreduced `n`:
`exp(pi*i/q)^p = exp(pi*i*n/q)`, which is 1 or -1 for `q = 1` and `i` or `-i` for
`q = 2`. -/
theorem ca_exp_root_of_unity {σ β : Type} (lib : ca_lib σ β) (x : ca_struct)
    (ctx ctx5 : σ) (ext2 : Option ca_ext_ptr) (t2 : fmpq) (n : Int) (q : Nat)
    (hx : CA_IS_SPECIAL x = false)
    (hg : ext_if_log lib (lib.ca_is_gen_as_ext ctx x) = none)
    (hc : ca_is_fmpq_times_gen_as_ext fmpq_init x = .ok (ext2, t2))
    (hl : ext_if_log lib ext2 = none)
    (hz : lib.ca_check_is_zero ctx x ≠ truth_t.T_TRUE)
    (hpi : ca_as_fmpq_pi_i lib fmpq_init x ctx = .ok (true, { num := n, den := (q : Int) }, ctx5))
    (hq1 : 1 ≤ q) (hq12 : q ≤ 12) (hlow : Int.gcd n (q : Int) = 1) :
    ((n % ((2 * q : Nat) : Int)).toNat < 2 * q ∧
      (((n % ((2 * q : Nat) : Int)).toNat : Nat) : Int) = Int.fmod n ((2 * q : Nat) : Int)) ∧
    Complex.exp (Real.pi * Complex.I / q) ^ (n % ((2 * q : Nat) : Int)).toNat
      = Complex.exp (Real.pi * Complex.I * n / q) ∧
    (q = 1 →
      ((n % ((2 * q : Nat) : Int)).toNat = 0 ∧
        ca_exp lib x ctx = .ok (.element field_qq (.q 1 1), ctx5) ∧
        Complex.exp (Real.pi * Complex.I * n / q) = 1) ∨
      ((n % ((2 * q : Nat) : Int)).toNat = 1 ∧
        ca_exp lib x ctx = .ok (.element field_qq (.q (-1) 1), ctx5) ∧
        Complex.exp (Real.pi * Complex.I * n / q) = -1)) ∧
    (q = 2 →
      ((n % ((2 * q : Nat) : Int)).toNat = 1 ∧
        ca_exp lib x ctx = .ok (lib.ca_i ctx5) ∧
        Complex.exp (Real.pi * Complex.I * n / q) = Complex.I) ∨
      ((n % ((2 * q : Nat) : Int)).toNat = 3 ∧
        ca_exp lib x ctx = .ok (lib.ca_neg_i ctx5) ∧
        Complex.exp (Real.pi * Complex.I * n / q) = -Complex.I)) ∧
    (3 ≤ q →
      ca_exp lib x ctx = .ok (lib.ca_pow_ui
        (lib.ca_set_qqbar ctx5 (lib.qqbar_exp_pi_i 1 q)).2
        (lib.ca_set_qqbar ctx5 (lib.qqbar_exp_pi_i 1 q)).1
        (n % ((2 * q : Nat) : Int)).toNat)) := by
  have hm : (0 : Int) < ((2 * q : Nat) : Int) := by exact_mod_cast (by omega : 0 < 2 * q)
  have hp0 : 0 ≤ n % ((2 * q : Nat) : Int) := Int.emod_nonneg _ (ne_of_gt hm)
  have hplt : n % ((2 * q : Nat) : Int) < ((2 * q : Nat) : Int) := Int.emod_lt_of_pos _ hm
  have hpcast : (((n % ((2 * q : Nat) : Int)).toNat : Nat) : Int) = n % ((2 * q : Nat) : Int) :=
    Int.toNat_of_nonneg hp0
  have hred := cexp_pi_i_reduce n q (by omega)
  have hstep : ca_exp lib x ctx = exp_root_of_unity lib { num := n, den := (q : Int) } ctx5 := by
    unfold ca_exp
    simp only [hx, Bool.false_eq_true, if_false, hg, hc, hl, hz, hpi, if_true]
    rw [if_pos (by exact_mod_cast hq12)]
  have hroot : exp_root_of_unity lib { num := n, den := (q : Int) } ctx5 =
      (if q = 1 then
        (if (n % ((2 * q : Nat) : Int)).toNat = 0 then .ok (ca_one, ctx5)
         else .ok (ca_neg_one, ctx5))
      else if q = 2 then
        (if (n % ((2 * q : Nat) : Int)).toNat = 1 then .ok (lib.ca_i ctx5)
         else .ok (lib.ca_neg_i ctx5))
      else .ok (lib.ca_pow_ui
        (lib.ca_set_qqbar ctx5 (lib.qqbar_exp_pi_i 1 q)).2
        (lib.ca_set_qqbar ctx5 (lib.qqbar_exp_pi_i 1 q)).1
        (n % ((2 * q : Nat) : Int)).toNat)) := by
    unfold exp_root_of_unity
    simp only [Int.natAbs_ofNat]
    rw [if_neg (by omega)]
  refine ⟨⟨by omega, ?_⟩, hred, ?_, ?_, ?_⟩
  · rw [hpcast, Int.fmod_eq_emod _ (le_of_lt hm)]
  · intro h1
    subst h1
    rw [hstep, hroot]
    simp only [if_true]
    have hcases : (n % ((2 * 1 : Nat) : Int)).toNat = 0 ∨ (n % ((2 * 1 : Nat) : Int)).toNat = 1 := by
      omega
    rcases hcases with h0 | h0
    · left
      refine ⟨h0, by rw [if_pos h0]; rfl, ?_⟩
      rw [← hred, h0, pow_zero]
    · right
      refine ⟨h0, by rw [if_neg (by omega)]; rfl, ?_⟩
      rw [← hred, h0, pow_one]
      simp only [Nat.cast_one, div_one]
      exact Complex.exp_pi_mul_I
  · intro h2
    subst h2
    rw [hstep, hroot]
    simp only [if_true, show ¬ (2 = 1) by omega, if_false]
    have hodd : n % 2 = 1 := by
      rcases Int.emod_two_eq_zero_or_one n with h | h
      · exfalso
        have hdvd : (2 : Int) ∣ n := Int.dvd_of_emod_eq_zero h
        have h2 : (2 : Int) ∣ ((Int.gcd n ((2 : Nat) : Int) : Nat) : Int) :=
          Int.dvd_gcd hdvd (by norm_num)
        rw [hlow] at h2
        norm_num at h2
      · exact h
    have hcases : (n % ((2 * 2 : Nat) : Int)).toNat = 1 ∨ (n % ((2 * 2 : Nat) : Int)).toNat = 3 := by
      omega
    rcases hcases with h0 | h0
    · left
      refine ⟨h0, by rw [if_pos h0], ?_⟩
      rw [← hred, h0, pow_one]
      exact cexp_pi_i_half
    · right
      refine ⟨h0, by rw [if_neg (by omega)], ?_⟩
      rw [← hred, h0, cexp_pi_i_half]
      rw [pow_succ, pow_two, Complex.I_mul_I]
      ring
  · intro h3
    rw [hstep, hroot, if_neg (by omega), if_neg (by omega)]

theorem ca_exp_root_of_unity_witness :
    (CA_IS_SPECIAL (sample_pi_i_times (-5) 2) = false ∧
      ext_if_log sample_lib (sample_lib.ca_is_gen_as_ext 0 (sample_pi_i_times (-5) 2)) = none ∧
      ca_is_fmpq_times_gen_as_ext fmpq_init (sample_pi_i_times (-5) 2)
        = .ok (none, fmpq_init) ∧
      ext_if_log sample_lib none = none ∧
      sample_lib.ca_check_is_zero 0 (sample_pi_i_times (-5) 2) ≠ truth_t.T_TRUE ∧
      ca_as_fmpq_pi_i sample_lib fmpq_init (sample_pi_i_times (-5) 2) 0
        = .ok (true, { num := -5, den := ((2 : Nat) : Int) }, 2) ∧
      1 ≤ 2 ∧ 2 ≤ 12 ∧ Int.gcd (-5) ((2 : Nat) : Int) = 1) ∧
    ((((-5 : Int) % ((2 * 2 : Nat) : Int)).toNat = 3 ∧
        ca_exp sample_lib (sample_pi_i_times (-5) 2) 0 = .ok (sample_lib.ca_neg_i 2) ∧
        Complex.exp (Real.pi * Complex.I * (-5 : Int) / (2 : Nat)) = -Complex.I)) :=
  ⟨⟨rfl, rfl, rfl, rfl, by decide, rfl, by decide, by decide, by decide⟩,
    ((ca_exp_root_of_unity sample_lib (sample_pi_i_times (-5) 2) 0 2 none fmpq_init (-5) 2
      rfl rfl rfl rfl (by decide) rfl (by decide) (by decide) (by decide)).2.2.2.1 rfl).resolve_left
      (fun h => absurd h.1 (by decide))⟩

end CaExp

namespace CaMerge

/-- C11: when at least one of the two values is special, `ca_merge_fields` calls
`flint_abort()` (line 80) and returns no result, whatever the field words of the two
values, the same word included, and whatever the context. -/
theorem ca_merge_fields_special
    (ca_field_cmp : ca_field_struct → ca_field_struct → Int) (ctx : ca_ctx_struct)
    (x y : ca_struct) (h : CA_IS_SPECIAL x = true ∨ CA_IS_SPECIAL y = true) :
    ca_merge_fields ca_field_cmp ctx x y = .error .abort := by
  unfold ca_merge_fields
  rcases h with h | h <;> simp [h]

theorem ca_merge_fields_special_witness :
    (CA_IS_SPECIAL sample_x = true ∨ CA_IS_SPECIAL sample_unknown = true) ∧
    sample_x.field = sample_unknown.field ∧
    ca_merge_fields sample_cmp sample_ctx sample_x sample_unknown = .error .abort :=
  ⟨Or.inr rfl, rfl,
    ca_merge_fields_special sample_cmp sample_ctx sample_x sample_unknown (Or.inr rfl)⟩

/-- C12, as stated, fails: two non-special values that both live in the QQ field carry
the same field index, and `ca_merge_fields` returns them as copies at line 83-88,
before the test for QQ is reached. -/
theorem ca_merge_fields_rationals_same_field :
    CA_IS_SPECIAL sample_q1 = false ∧ CA_IS_SPECIAL sample_q2 = false ∧
    (∃ f, sample_ctx.fields[sample_q1.field]? = some f ∧ f.type = .QQ) ∧
    (∃ f, sample_ctx.fields[sample_q2.field]? = some f ∧ f.type = .QQ) ∧
    ca_merge_fields sample_cmp sample_ctx sample_q1 sample_q2
      = .ok (sample_q1, sample_q2, sample_ctx) ∧
    ca_merge_fields sample_cmp sample_ctx sample_q1 sample_q2 ≠ .error .abort := by
  refine ⟨rfl, rfl, ⟨_, rfl, rfl⟩, ⟨_, rfl, rfl⟩, rfl, ?_⟩
  intro h
  have h2 : ca_merge_fields sample_cmp sample_ctx sample_q1 sample_q2
      = .ok (sample_q1, sample_q2, sample_ctx) := rfl
  rw [h2] at h
  cases h

/-- C12, amended: for two non-special values with distinct field indices whose field
records are in the table, `ca_merge_fields` aborts and returns no result when at least
one of the two records is QQ; two non-special values with the same field index are
returned as copies, and the context is left as it was. -/
theorem ca_merge_fields_rationals
    (ca_field_cmp : ca_field_struct → ca_field_struct → Int) (ctx : ca_ctx_struct)
    (x y : ca_struct) (fx fy : ca_field_struct)
    (hx : CA_IS_SPECIAL x = false) (hy : CA_IS_SPECIAL y = false)
    (hfx : ctx.fields[x.field]? = some fx) (hfy : ctx.fields[y.field]? = some fy)
    (hq : fx.type = .QQ ∨ fy.type = .QQ) :
    (x.field ≠ y.field → ca_merge_fields ca_field_cmp ctx x y = .error .abort) ∧
    (x.field = y.field → ca_merge_fields ca_field_cmp ctx x y = .ok (x, y, ctx)) := by
  constructor
  · intro hne
    unfold ca_merge_fields
    simp only [hx, hy, Bool.or_self, Bool.false_eq_true, if_false, hne, hfx, hfy]
    by_cases hqx : fx.type = .QQ
    · simp [hqx]
    · have hqy : fy.type = .QQ := by
        rcases hq with h | h
        · exact absurd h hqx
        · exact h
      simp [hqx, hqy]
  · intro he
    unfold ca_merge_fields
    simp [hx, hy, he]

theorem ca_merge_fields_rationals_witness :
    (CA_IS_SPECIAL sample_q1 = false ∧ CA_IS_SPECIAL sample_x = false ∧
      sample_ctx.fields[sample_q1.field]? = some sample_ctx.fields[0] ∧
      sample_ctx.fields[sample_x.field]? = some sample_ctx.fields[1] ∧
      (sample_ctx.fields[0].type = .QQ ∨ sample_ctx.fields[1].type = .QQ) ∧
      sample_q1.field ≠ sample_x.field) ∧
    ca_merge_fields sample_cmp sample_ctx sample_q1 sample_x = .error .abort :=
  ⟨⟨rfl, rfl, rfl, rfl, Or.inl rfl, by decide⟩,
    (ca_merge_fields_rationals sample_cmp sample_ctx sample_q1 sample_x
      sample_ctx.fields[0] sample_ctx.fields[1] rfl rfl rfl rfl (Or.inl rfl)).1 (by decide)⟩

end CaMerge

namespace CaMerge

theorem set_cell_cases {l : List (Option Nat)} {i j k v : Nat}
    (h : (l.set i (some v))[j]? = some (some k)) :
    (j = i ∧ k = v) ∨ (j ≠ i ∧ l[j]? = some (some k)) := by
  rw [List.getElem?_set] at h
  by_cases hij : i = j
  · rw [if_pos hij] at h
    split at h
    · simp only [Option.some.injEq] at h
      exact Or.inl ⟨hij.symm, h.symm⟩
    · cases h
  · rw [if_neg hij] at h
    exact Or.inr ⟨fun e => hij e.symm, h⟩

theorem merge_mono_init (xlen ylen : Nat) : merge_mono (merge_init xlen ylen) := by
  refine ⟨?_, ?_, ?_, ?_, ?_, ?_⟩ <;>
    simp [merge_init, List.getElem?_replicate]

theorem merge_mono_take_x {st : merge_state} (fx : Nat) (m : merge_mono st) :
    merge_mono (take_x st fx) := by
  refine ⟨?_, ?_, ?_, ?_, ?_, ?_⟩
  · intro i k h
    simp only [take_x, List.length_append, List.length_singleton] at h ⊢
    rcases set_cell_cases h with ⟨_, hk⟩ | ⟨_, hold⟩
    · omega
    · have := m.xbound i k hold
      omega
  · intro j k h
    simp only [take_x, List.length_append, List.length_singleton] at h ⊢
    have := m.ybound j k h
    omega
  · intro i j ki kj hij hi hj
    simp only [take_x] at hi hj
    rcases set_cell_cases hj with ⟨hj1, hj2⟩ | ⟨hj1, hj2⟩
    · rcases set_cell_cases hi with ⟨hi1, _⟩ | ⟨_, hi2⟩
      · omega
      · have := m.xbound i ki hi2
        omega
    · rcases set_cell_cases hi with ⟨hi1, _⟩ | ⟨_, hi2⟩
      · exact absurd hj2 (m.xfresh j kj (by omega))
      · exact m.xmono i j ki kj hij hi2 hj2
  · intro i j ki kj hij hi hj
    simp only [take_x] at hi hj
    exact m.ymono i j ki kj hij hi hj
  · intro i k hi h
    simp only [take_x] at hi h
    rcases set_cell_cases h with ⟨h1, _⟩ | ⟨_, h2⟩
    · omega
    · exact m.xfresh i k (by omega) h2
  · intro j k hj h
    simp only [take_x] at hj h
    exact m.yfresh j k hj h

theorem merge_mono_take_y {st : merge_state} (fy : Nat) (m : merge_mono st) :
    merge_mono (take_y st fy) := by
  refine ⟨?_, ?_, ?_, ?_, ?_, ?_⟩
  · intro i k h
    simp only [take_y, List.length_append, List.length_singleton] at h ⊢
    have := m.xbound i k h
    omega
  · intro j k h
    simp only [take_y, List.length_append, List.length_singleton] at h ⊢
    rcases set_cell_cases h with ⟨_, hk⟩ | ⟨_, hold⟩
    · omega
    · have := m.ybound j k hold
      omega
  · intro i j ki kj hij hi hj
    simp only [take_y] at hi hj
    exact m.xmono i j ki kj hij hi hj
  · intro i j ki kj hij hi hj
    simp only [take_y] at hi hj
    rcases set_cell_cases hj with ⟨hj1, hj2⟩ | ⟨hj1, hj2⟩
    · rcases set_cell_cases hi with ⟨hi1, _⟩ | ⟨_, hi2⟩
      · omega
      · have := m.ybound i ki hi2
        omega
    · rcases set_cell_cases hi with ⟨hi1, _⟩ | ⟨_, hi2⟩
      · exact absurd hj2 (m.yfresh j kj (by omega))
      · exact m.ymono i j ki kj hij hi2 hj2
  · intro i k hi h
    simp only [take_y] at hi h
    exact m.xfresh i k hi h
  · intro j k hj h
    simp only [take_y] at hj h
    rcases set_cell_cases h with ⟨h1, _⟩ | ⟨_, h2⟩
    · omega
    · exact m.yfresh j k (by omega) h2

theorem merge_mono_take_both {st : merge_state} (fx : Nat) (m : merge_mono st) :
    merge_mono (take_both st fx) := by
  refine ⟨?_, ?_, ?_, ?_, ?_, ?_⟩
  · intro i k h
    simp only [take_both, List.length_append, List.length_singleton] at h ⊢
    rcases set_cell_cases h with ⟨_, hk⟩ | ⟨_, hold⟩
    · omega
    · have := m.xbound i k hold
      omega
  · intro j k h
    simp only [take_both, List.length_append, List.length_singleton] at h ⊢
    rcases set_cell_cases h with ⟨_, hk⟩ | ⟨_, hold⟩
    · omega
    · have := m.ybound j k hold
      omega
  · intro i j ki kj hij hi hj
    simp only [take_both] at hi hj
    rcases set_cell_cases hj with ⟨hj1, hj2⟩ | ⟨hj1, hj2⟩
    · rcases set_cell_cases hi with ⟨hi1, _⟩ | ⟨_, hi2⟩
      · omega
      · have := m.xbound i ki hi2
        omega
    · rcases set_cell_cases hi with ⟨hi1, _⟩ | ⟨_, hi2⟩
      · exact absurd hj2 (m.xfresh j kj (by omega))
      · exact m.xmono i j ki kj hij hi2 hj2
  · intro i j ki kj hij hi hj
    simp only [take_both] at hi hj
    rcases set_cell_cases hj with ⟨hj1, hj2⟩ | ⟨hj1, hj2⟩
    · rcases set_cell_cases hi with ⟨hi1, _⟩ | ⟨_, hi2⟩
      · omega
      · have := m.ybound i ki hi2
        omega
    · rcases set_cell_cases hi with ⟨hi1, _⟩ | ⟨_, hi2⟩
      · exact absurd hj2 (m.yfresh j kj (by omega))
      · exact m.ymono i j ki kj hij hi2 hj2
  · intro i k hi h
    simp only [take_both] at hi h
    rcases set_cell_cases h with ⟨h1, _⟩ | ⟨_, h2⟩
    · omega
    · exact m.xfresh i k (by omega) h2
  · intro j k hj h
    simp only [take_both] at hj h
    rcases set_cell_cases h with ⟨h1, _⟩ | ⟨_, h2⟩
    · omega
    · exact m.yfresh j k (by omega) h2

theorem merge_step_mono {ca_field_cmp : ca_field_struct → ca_field_struct → Int}
    {ctx : ca_ctx_struct} {X Y : List Nat} {st st1 : merge_state}
    (m : merge_mono st) (h : merge_step ca_field_cmp ctx X Y st = .ok st1) :
    merge_mono st1 := by
  unfold merge_step at h
  cases hx : X[st.ix]? with
  | none =>
    cases hy : Y[st.iy]? with
    | none => simp [hx, hy] at h
    | some fy =>
      simp only [hx, hy, Except.ok.injEq] at h
      subst h
      exact merge_mono_take_y fy m
  | some fx =>
    cases hy : Y[st.iy]? with
    | none =>
      simp only [hx, hy, Except.ok.injEq] at h
      subst h
      exact merge_mono_take_x fx m
    | some fy =>
      simp only [hx, hy] at h
      cases hc : field_cmp_at ca_field_cmp ctx fx fy with
      | error e => simp [hc] at h
      | ok c =>
        simp only [hc] at h
        by_cases h0 : c = 0
        · rw [if_pos h0] at h
          simp only [Except.ok.injEq] at h
          subst h
          exact merge_mono_take_both fx m
        · by_cases h1 : c = -1
          · rw [if_neg h0, if_pos h1] at h
            simp only [Except.ok.injEq] at h
            subst h
            exact merge_mono_take_x fx m
          · rw [if_neg h0, if_neg h1] at h
            simp only [Except.ok.injEq] at h
            subst h
            exact merge_mono_take_y fy m

theorem merge_loop_mono {ca_field_cmp : ca_field_struct → ca_field_struct → Int}
    {ctx : ca_ctx_struct} {X Y : List Nat} (fuel : Nat) :
    ∀ (st st1 : merge_state), merge_mono st →
      merge_loop ca_field_cmp ctx X Y fuel st = .ok st1 → merge_mono st1 := by
  induction fuel with
  | zero =>
    intro st st1 m h
    unfold merge_loop at h
    by_cases hc : st.ix < X.length ∨ st.iy < Y.length
    · simp [hc] at h
    · simp only [hc, if_false, Except.ok.injEq] at h
      subst h
      exact m
  | succ n ih =>
    intro st st1 m h
    unfold merge_loop at h
    by_cases hc : st.ix < X.length ∨ st.iy < Y.length
    · simp only [hc, if_true] at h
      cases hs : merge_step ca_field_cmp ctx X Y st with
      | error e => simp [hs] at h
      | ok st2 =>
        simp only [hs] at h
        exact ih st2 st1 (merge_step_mono m hs) h
    · simp only [hc, if_false, Except.ok.injEq] at h
      subst h
      exact m

/-- C18: the index maps that the merge loop of `ca_merge_fields` builds are strictly
increasing: `xgen_map[i] < xgen_map[i + 1]` whenever `i + 1 < |X|`, likewise for
`ygen_map`, every cell being written; hence both maps are injective, so distinct source
variables go to distinct variables of the target ring and keep their order.  This holds
for every comparison function and all lists of table indices, sorted or not. -/
theorem merge_lists_maps_increasing
    (ca_field_cmp : ca_field_struct → ca_field_struct → Int) (ctx : ca_ctx_struct)
    (X Y : List Nat) (hX : indices_valid ctx X) (hY : indices_valid ctx Y) :
    ∃ st, merge_lists ca_field_cmp ctx X Y = .ok st ∧
      (∀ i : Nat, i + 1 < X.length →
        ∃ k1 k2, st.xgen_map[i]? = some (some k1) ∧
          st.xgen_map[i + 1]? = some (some k2) ∧ k1 < k2 ∧ k2 < st.fields.length) ∧
      (∀ j : Nat, j + 1 < Y.length →
        ∃ k1 k2, st.ygen_map[j]? = some (some k1) ∧
          st.ygen_map[j + 1]? = some (some k2) ∧ k1 < k2 ∧ k2 < st.fields.length) ∧
      (∀ i j k : Nat, st.xgen_map[i]? = some (some k) →
        st.xgen_map[j]? = some (some k) → i = j) ∧
      (∀ i j k : Nat, st.ygen_map[i]? = some (some k) →
        st.ygen_map[j]? = some (some k) → i = j) := by
  obtain ⟨st, hst⟩ := merge_loop_total ca_field_cmp ctx X Y hX hY
  obtain ⟨inv, hix, hiy⟩ := merge_loop_inv _ _ _ (merge_inv_init ca_field_cmp ctx X Y) hst
  have m : merge_mono st := merge_loop_mono _ _ _ (merge_mono_init _ _) hst
  have cellx : ∀ i : Nat, i < X.length → ∃ k, st.xgen_map[i]? = some (some k) := by
    intro i hi
    obtain ⟨a, ha⟩ : ∃ a, X[i]? = some a := ⟨X[i], List.getElem?_eq_getElem hi⟩
    obtain ⟨k, hk, _⟩ := inv.xmap i a (by omega) ha
    exact ⟨k, hk⟩
  have celly : ∀ j : Nat, j < Y.length → ∃ k, st.ygen_map[j]? = some (some k) := by
    intro j hj
    obtain ⟨b, hb⟩ : ∃ b, Y[j]? = some b := ⟨Y[j], List.getElem?_eq_getElem hj⟩
    obtain ⟨k, _, hk, _⟩ := inv.ymap j b (by omega) hb
    exact ⟨k, hk⟩
  refine ⟨st, hst, ?_, ?_, ?_, ?_⟩
  · intro i hi
    obtain ⟨k1, h1⟩ := cellx i (by omega)
    obtain ⟨k2, h2⟩ := cellx (i + 1) hi
    exact ⟨k1, k2, h1, h2, m.xmono i (i + 1) k1 k2 (by omega) h1 h2, m.xbound _ _ h2⟩
  · intro j hj
    obtain ⟨k1, h1⟩ := celly j (by omega)
    obtain ⟨k2, h2⟩ := celly (j + 1) hj
    exact ⟨k1, k2, h1, h2, m.ymono j (j + 1) k1 k2 (by omega) h1 h2, m.ybound _ _ h2⟩
  · intro i j k hi hj
    rcases Nat.lt_trichotomy i j with h | h | h
    · have := m.xmono i j k k h hi hj
      omega
    · exact h
    · have := m.xmono j i k k h hj hi
      omega
  · intro i j k hi hj
    rcases Nat.lt_trichotomy i j with h | h | h
    · have := m.ymono i j k k h hi hj
      omega
    · exact h
    · have := m.ymono j i k k h hj hi
      omega

theorem merge_lists_maps_increasing_witness :
    (indices_valid sample_ctx [1, 3] ∧ indices_valid sample_ctx [2, 3]) ∧
    ∃ st, merge_lists sample_cmp sample_ctx [1, 3] [2, 3] = .ok st ∧
      (∀ i : Nat, i + 1 < [1, 3].length →
        ∃ k1 k2, st.xgen_map[i]? = some (some k1) ∧
          st.xgen_map[i + 1]? = some (some k2) ∧ k1 < k2 ∧ k2 < st.fields.length) ∧
      (∀ j : Nat, j + 1 < [2, 3].length →
        ∃ k1 k2, st.ygen_map[j]? = some (some k1) ∧
          st.ygen_map[j + 1]? = some (some k2) ∧ k1 < k2 ∧ k2 < st.fields.length) ∧
      (∀ i j k : Nat, st.xgen_map[i]? = some (some k) →
        st.xgen_map[j]? = some (some k) → i = j) ∧
      (∀ i j k : Nat, st.ygen_map[i]? = some (some k) →
        st.ygen_map[j]? = some (some k) → i = j) :=
  have h1 : indices_valid sample_ctx [1, 3] := by
    intro i hi
    simp only [List.mem_cons, List.mem_singleton, List.not_mem_nil, or_false] at hi
    rcases hi with rfl | rfl <;> decide
  have h2 : indices_valid sample_ctx [2, 3] := by
    intro i hi
    simp only [List.mem_cons, List.mem_singleton, List.not_mem_nil, or_false] at hi
    rcases hi with rfl | rfl <;> decide
  ⟨⟨h1, h2⟩, merge_lists_maps_increasing sample_cmp sample_ctx [1, 3] [2, 3] h1 h2⟩

end CaMerge

namespace CaMerge

theorem ca_merge_fields_same_field
    {ca_field_cmp : ca_field_struct → ca_field_struct → Int} {ctx c1 : ca_ctx_struct}
    {x y resx resy : ca_struct} (he : x.field = y.field)
    (h : ca_merge_fields ca_field_cmp ctx x y = .ok (resx, resy, c1)) :
    resx = x ∧ resy = y ∧ c1 = ctx := by
  unfold ca_merge_fields at h
  by_cases hsp : (CA_IS_SPECIAL x || CA_IS_SPECIAL y) = true
  · simp [hsp] at h
  · simp only [hsp, Bool.false_eq_true, if_false, he, if_true, Except.ok.injEq,
      Prod.mk.injEq] at h
    exact ⟨h.1.symm, h.2.1.symm, h.2.2.symm⟩

/-- C17: after a returning call of `ca_merge_fields`, every record of the field table
is still at its index, unchanged; the table is the same on the same-field path and on a
cache hit, and on a cache miss it is the old table followed by one new MULTI record
whose generator list is the merged list `M`, at the index of the old length; and when
`fields_len ≤ fields_alloc` and `fields_alloc ≥ 1` held before the call,
`fields_len ≤ fields_alloc` holds after it. -/
theorem ca_merge_fields_table
    (ca_field_cmp : ca_field_struct → ca_field_struct → Int) (ctx c1 : ca_ctx_struct)
    (x y resx resy : ca_struct)
    (h : ca_merge_fields ca_field_cmp ctx x y = .ok (resx, resy, c1)) :
    (∀ (i : Nat) (f : ca_field_struct), ctx.fields[i]? = some f → c1.fields[i]? = some f) ∧
    (x.field = y.field → c1 = ctx) ∧
    (x.field ≠ y.field →
      ∃ fx fy st z,
        ctx.fields[x.field]? = some fx ∧ ctx.fields[y.field]? = some fy ∧
        merge_lists ca_field_cmp ctx (generator_list fx x.field)
          (generator_list fy y.field) = .ok st ∧
        select_field ctx st.fields = .ok (z, c1) ∧
        (∀ k, cache_lookup ctx st.fields = some k → z = k ∧ c1 = ctx) ∧
        (cache_lookup ctx st.fields = none →
          z = ctx.fields.length ∧
          c1.fields = ctx.fields ++ [ca_field_init_multi st.fields] ∧
          c1.fields.length = ctx.fields.length + 1 ∧
          c1.fields[ctx.fields.length]? = some (ca_field_init_multi st.fields) ∧
          (ca_field_init_multi st.fields).type = .MULTI ∧
          (ca_field_init_multi st.fields).multi_ext = st.fields)) ∧
    (ctx.fields_len ≤ ctx.fields_alloc → 1 ≤ ctx.fields_alloc →
      c1.fields_len ≤ c1.fields_alloc) := by
  by_cases he : x.field = y.field
  · obtain ⟨_, _, hc⟩ := ca_merge_fields_same_field he h
    subst hc
    exact ⟨fun _ _ hf => hf, fun _ => rfl, fun hne => absurd he hne, fun hl _ => hl⟩
  · obtain ⟨_, _, fx, fy, st, z, hfx, _, hfy, _, hm, hs, _, _⟩ :=
      (ca_merge_fields_ok_iff ca_field_cmp ctx c1 x y resx resy he).mp h
    obtain ⟨ext, hext⟩ := select_field_fields hs
    refine ⟨?_, fun e => absurd e he, fun _ => ⟨fx, fy, st, z, hfx, hfy, hm, hs, ?_, ?_⟩, ?_⟩
    · intro i f hf
      rw [hext]
      exact getElem?_append_some ext hf
    · intro k hk
      rcases select_field_cases hs with ⟨h1, h2⟩ | ⟨h1, _⟩
      · rw [hk] at h1
        exact ⟨(Option.some.inj h1).symm, h2⟩
      · rw [hk] at h1
        cases h1
    · intro hnone
      rcases select_field_cases hs with ⟨h1, _⟩ | ⟨_, h2, h3, _⟩
      · rw [hnone] at h1
        cases h1
      · refine ⟨h2, h3, by rw [h3]; simp, ?_, rfl, rfl⟩
        rw [h3]
        exact List.getElem?_concat_length _ _
    · intro hl h1
      unfold ca_ctx_struct.fields_len at hl ⊢
      rcases select_field_cases hs with ⟨_, h2⟩ | ⟨_, _, h3, h4, h5⟩
      · rw [h2]
        exact hl
      · rw [h3]
        simp only [List.length_append, List.length_singleton]
        omega

theorem ca_merge_fields_table_witness :
    ca_merge_fields sample_cmp sample_ctx sample_x sample_z = .ok (
        { field := 5, special := none,
          elem := .mpoly_q { terms := [(1, [1, 0])] } { terms := [(1, [0, 0])] } },
        { field := 5, special := none,
          elem := .mpoly_q { terms := [(1, [0, 1])] } { terms := [(1, [0, 0])] } },
        { fields := sample_ctx.fields ++ [ca_field_init_multi [1, 3]],
          fields_alloc := 8 }) ∧
    (∀ (i : Nat) (f : ca_field_struct), sample_ctx.fields[i]? = some f →
      (sample_ctx.fields ++ [ca_field_init_multi [1, 3]])[i]? = some f) :=
  ⟨rfl, (ca_merge_fields_table sample_cmp sample_ctx
    { fields := sample_ctx.fields ++ [ca_field_init_multi [1, 3]], fields_alloc := 8 }
    sample_x sample_z _ _ rfl).1⟩

end CaMerge

namespace CaMerge

theorem shallow_unique {a : nf_elem_struct} {f1 f2 : Nat} {r1 r2 : fmpz_poly_struct × Int}
    (h1 : _nf_elem_get_fmpz_poly_den_shallow a f1 = .ok r1)
    (h2 : _nf_elem_get_fmpz_poly_den_shallow a f2 = .ok r2) : r1 = r2 := by
  unfold _nf_elem_get_fmpz_poly_den_shallow at h1 h2
  cases a with
  | lelem num den =>
    split at h1
    · split at h2
      · simp only [Except.ok.injEq] at h1 h2
        rw [← h1, ← h2]
      · split at h2 <;> simp at h2
    · split at h1 <;> simp at h1
  | qelem n0 n1 n2 den =>
    split at h1
    · simp at h1
    · split at h1
      · split at h2
        · simp at h2
        · split at h2
          · simp only [Except.ok.injEq] at h1 h2
            rw [← h1, ← h2]
          · simp at h2
      · simp at h1
  | elem cs den =>
    split at h1
    · simp at h1
    · split at h1
      · simp at h1
      · split at h2
        · simp at h2
        · split at h2
          · simp at h2
          · simp only [Except.ok.injEq] at h1 h2
            rw [← h1, ← h2]

theorem merge_lists_equal_singletons
    (ca_field_cmp : ca_field_struct → ca_field_struct → Int) (ctx : ca_ctx_struct)
    (xf yf : Nat) (fx fy : ca_field_struct)
    (hfx : ctx.fields[xf]? = some fx) (hfy : ctx.fields[yf]? = some fy)
    (hc : ca_field_cmp fx fy = 0) :
    merge_lists ca_field_cmp ctx [xf] [yf] =
      .ok { ix := 1, iy := 1, fields := [xf], xgen_map := [some 0], ygen_map := [some 0] } := by
  have hcmp : field_cmp_at ca_field_cmp ctx xf yf = .ok 0 := by
    rw [field_cmp_at_ok_iff]
    exact ⟨fx, fy, hfx, hfy, hc⟩
  simp [merge_lists, merge_loop, merge_step, merge_init, hcmp, take_both]

theorem generator_list_single {f : ca_field_struct} (field : Nat)
    (h : f.type = .NF ∨ f.type = .FUNC) : generator_list f field = [field] := by
  unfold generator_list
  rw [if_pos h]

theorem lift_single_equal {ctx : ca_ctx_struct} {z : Nat} {x y rx ry : ca_struct}
    {fx fy : ca_field_struct} {gm : List (Option Nat)}
    (hfx : ctx.fields[x.field]? = some fx) (hfy : ctx.fields[y.field]? = some fy)
    (hxz : x.field ≠ z) (hyz : y.field ≠ z)
    (htx : fx.type = .NF ∨ fx.type = .FUNC) (hty : fy.type = .NF ∨ fy.type = .FUNC)
    (he : x.elem = y.elem)
    (hlx : lift_to_field ctx z x gm = .ok rx) (hly : lift_to_field ctx z y gm = .ok ry) :
    rx = ry := by
  unfold lift_to_field at hlx hly
  rw [if_neg hxz, hfx] at hlx
  rw [if_neg hyz, hfy] at hly
  cases hfz : ctx.fields[z]? with
  | none => simp [hfz] at hlx
  | some fz =>
    simp only [hfz] at hlx hly
    rw [← he] at hly
    cases hel : x.elem with
    | q n d =>
      rcases htx with h | h <;> simp [h, hel] at hlx
    | nf a =>
      rcases htx with h | h
      · rcases hty with h2 | h2
        · simp only [h, h2, hel] at hlx hly
          cases hs1 : _nf_elem_get_fmpz_poly_den_shallow a fx.nf_flag with
          | error e => simp [hs1] at hlx
          | ok r1 =>
            cases hs2 : _nf_elem_get_fmpz_poly_den_shallow a fy.nf_flag with
            | error e => simp [hs2] at hly
            | ok r2 =>
              have := shallow_unique hs1 hs2
              subst this
              simp only [hs1] at hlx
              simp only [hs2] at hly
              rw [hlx] at hly
              exact Except.ok.inj hly
        · simp [h2, hel] at hly
      · simp [h, hel] at hlx
    | mpoly_q num den =>
      rcases htx with h | h
      · simp [h, hel] at hlx
      · rcases hty with h2 | h2
        · simp [h2, hel] at hly
        · simp only [h, h2, hel] at hlx hly
          rw [hlx] at hly
          exact Except.ok.inj hly

theorem all_length_of_forall {l : List (Int × List Nat)} {n : Nat}
    (h : ∀ t ∈ l, t.2.length = n) :
    l.all (fun t => decide (t.2.length = n)) = true := by
  rw [List.all_eq_true]
  intro t ht
  simpa using h t ht

theorem lift_single_total {ctx : ca_ctx_struct} {z : Nat} {x : ca_struct}
    {fx fz : ca_field_struct}
    (hfx : ctx.fields[x.field]? = some fx) (hfz : ctx.fields[z]? = some fz)
    (hlen : fz.multi_ext.length = 1)
    (htx : fx.type = .NF ∨ fx.type = .FUNC) (hfit : elem_fits fx x.elem) :
    ∃ r, lift_to_field ctx z x [some 0] = .ok r := by
  unfold lift_to_field
  by_cases hz : x.field = z
  · rw [if_pos hz]
    exact ⟨x, rfl⟩
  · rw [if_neg hz, hfx, hfz]
    unfold elem_fits at hfit
    rcases htx with h | h
    · simp only [h] at hfit ⊢
      obtain ⟨a, r, he, hs⟩ := hfit
      simp [he, hs, hlen]
    · simp only [h] at hfit ⊢
      obtain ⟨num, den, he, hn, hd⟩ := hfit
      simp only [he, hlen, fmpz_mpoly_compose_fmpz_mpoly_gen, read_gen_map,
        Nat.lt_one_iff, if_true, all_length_of_forall hn, all_length_of_forall hd]
      exact ⟨_, rfl⟩

/-- C16: for two non-special values living in two distinct single-generator (NF or
FUNC) field records that compare equal, the merge loop of `ca_merge_fields` builds the
merged list `[x.field]` of length 1 and maps both generators to variable 0; every
returning call selects as target a MULTI record whose generator list is `[x.field]`,
puts both results in it, and returns `res_x = res_y` whenever `x` and `y` have equal
representations; and the call does return when the table has room
(`fields_len ≤ fields_alloc`, `fields_alloc ≥ 1`) and the representation of each value
fits the record of its field. -/
theorem ca_merge_fields_duplicate_records
    (ca_field_cmp : ca_field_struct → ca_field_struct → Int) (ctx : ca_ctx_struct)
    (x y : ca_struct) (fx fy : ca_field_struct)
    (hx : CA_IS_SPECIAL x = false) (hy : CA_IS_SPECIAL y = false)
    (hne : x.field ≠ y.field)
    (hfx : ctx.fields[x.field]? = some fx) (hfy : ctx.fields[y.field]? = some fy)
    (htx : fx.type = .NF ∨ fx.type = .FUNC) (hty : fy.type = .NF ∨ fy.type = .FUNC)
    (hc : ca_field_cmp fx fy = 0) :
    merge_lists ca_field_cmp ctx (generator_list fx x.field) (generator_list fy y.field) =
      .ok { ix := 1, iy := 1, fields := [x.field],
            xgen_map := [some 0], ygen_map := [some 0] } ∧
    (∀ resx resy c1, ca_merge_fields ca_field_cmp ctx x y = .ok (resx, resy, c1) →
      ∃ fz, resx.field = resy.field ∧ c1.fields[resx.field]? = some fz ∧
        fz.type = .MULTI ∧ fz.multi_ext = [x.field] ∧ fz.multi_ext.length = 1 ∧
        (x.elem = y.elem → resx = resy)) ∧
    (ctx.fields_len ≤ ctx.fields_alloc → 1 ≤ ctx.fields_alloc →
      elem_fits fx x.elem → elem_fits fy y.elem →
      ∃ resx resy c1, ca_merge_fields ca_field_cmp ctx x y = .ok (resx, resy, c1)) := by
  have hqx : fx.type ≠ .QQ := by rcases htx with h | h <;> simp [h]
  have hqy : fy.type ≠ .QQ := by rcases hty with h | h <;> simp [h]
  have hml : merge_lists ca_field_cmp ctx (generator_list fx x.field)
      (generator_list fy y.field) =
      .ok { ix := 1, iy := 1, fields := [x.field],
            xgen_map := [some 0], ygen_map := [some 0] } := by
    rw [generator_list_single _ htx, generator_list_single _ hty]
    exact merge_lists_equal_singletons ca_field_cmp ctx _ _ fx fy hfx hfy hc
  -- what any selected target looks like
  have target : ∀ z c1, select_field ctx [x.field] = .ok (z, c1) →
      ∃ fz, c1.fields[z]? = some fz ∧ fz.type = .MULTI ∧ fz.multi_ext = [x.field] ∧
        c1.fields[x.field]? = some fx ∧ c1.fields[y.field]? = some fy ∧
        x.field ≠ z ∧ y.field ≠ z := by
    intro z c1 hs
    obtain ⟨fz, hfz, htz, hM⟩ := select_field_target hs
    obtain ⟨ext, hext⟩ := select_field_fields hs
    have hfx1 : c1.fields[x.field]? = some fx := by
      rw [hext]; exact getElem?_append_some ext hfx
    have hfy1 : c1.fields[y.field]? = some fy := by
      rw [hext]; exact getElem?_append_some ext hfy
    refine ⟨fz, hfz, htz, hM, hfx1, hfy1, ?_, ?_⟩
    · intro e
      rw [e, hfz] at hfx1
      cases hfx1
      rcases htx with h | h <;> rw [h] at htz <;> cases htz
    · intro e
      rw [e, hfz] at hfy1
      cases hfy1
      rcases hty with h | h <;> rw [h] at htz <;> cases htz
  refine ⟨hml, ?_, ?_⟩
  · intro resx resy c1 h
    obtain ⟨_, _, fx2, fy2, st, z, hfx2, _, hfy2, _, hm, hs, hlx, hly⟩ :=
      (ca_merge_fields_ok_iff ca_field_cmp ctx c1 x y resx resy hne).mp h
    rw [hfx] at hfx2
    rw [hfy] at hfy2
    cases hfx2
    cases hfy2
    rw [hml] at hm
    cases hm
    obtain ⟨fz, hfz, htz, hM, hfx1, hfy1, hxz, hyz⟩ := target z c1 hs
    have hrx := lift_to_field_field hlx
    have hry := lift_to_field_field hly
    refine ⟨fz, by rw [hrx, hry], by rw [hrx]; exact hfz, htz, hM, by rw [hM]; rfl, ?_⟩
    intro he
    exact lift_single_equal hfx1 hfy1 hxz hyz htx hty he hlx hly
  · intro hl h1 hfitx hfity
    have hsel : ∃ z c1, select_field ctx [x.field] = .ok (z, c1) := by
      unfold select_field
      cases hcl : cache_lookup ctx [x.field] with
      | some k => exact ⟨k, ctx, rfl⟩
      | none =>
        simp only []
        unfold ca_ctx_struct.fields_len at hl ⊢
        rw [if_pos (by split <;> omega)]
        exact ⟨_, _, rfl⟩
    obtain ⟨z, c1, hs⟩ := hsel
    obtain ⟨fz, hfz, htz, hM, hfx1, hfy1, hxz, hyz⟩ := target z c1 hs
    have hlen : fz.multi_ext.length = 1 := by rw [hM]; rfl
    obtain ⟨rx, hlx⟩ := lift_single_total hfx1 hfz hlen htx hfitx
    obtain ⟨ry, hly⟩ := lift_single_total hfy1 hfz hlen hty hfity
    exact ⟨rx, ry, c1, (ca_merge_fields_ok_iff ca_field_cmp ctx c1 x y rx ry hne).mpr
      ⟨hx, hy, fx, fy, _, z, hfx, hqx, hfy, hqy, hml, hs, hlx, hly⟩⟩

theorem ca_merge_fields_duplicate_records_witness :
    (CA_IS_SPECIAL sample_x = false ∧ CA_IS_SPECIAL sample_y = false ∧
      sample_x.field ≠ sample_y.field ∧
      sample_ctx_twice.fields[sample_x.field]? = some sample_ctx_twice.fields[1] ∧
      sample_ctx_twice.fields[sample_y.field]? = some sample_ctx_twice.fields[2] ∧
      (sample_ctx_twice.fields[1].type = .NF ∨ sample_ctx_twice.fields[1].type = .FUNC) ∧
      (sample_ctx_twice.fields[2].type = .NF ∨ sample_ctx_twice.fields[2].type = .FUNC) ∧
      sample_cmp sample_ctx_twice.fields[1] sample_ctx_twice.fields[2] = 0) ∧
    merge_lists sample_cmp sample_ctx_twice
        (generator_list sample_ctx_twice.fields[1] sample_x.field)
        (generator_list sample_ctx_twice.fields[2] sample_y.field) =
      .ok { ix := 1, iy := 1, fields := [sample_x.field],
            xgen_map := [some 0], ygen_map := [some 0] } ∧
    ca_merge_fields sample_cmp sample_ctx_twice sample_x sample_y = .ok (
      { field := 3, special := none,
        elem := .mpoly_q { terms := [(1, [1])] } { terms := [(1, [0])] } },
      { field := 3, special := none,
        elem := .mpoly_q { terms := [(1, [1])] } { terms := [(1, [0])] } },
      { fields := sample_ctx_twice.fields ++ [ca_field_init_multi [1]],
        fields_alloc := 4 }) :=
  ⟨⟨rfl, rfl, by decide, rfl, rfl, Or.inl rfl, Or.inl rfl, rfl⟩,
    (ca_merge_fields_duplicate_records sample_cmp sample_ctx_twice sample_x sample_y
      sample_ctx_twice.fields[1] sample_ctx_twice.fields[2] rfl rfl (by decide) rfl rfl
      (Or.inl rfl) (Or.inl rfl) rfl).1, rfl⟩

end CaMerge

namespace CaExp

open CaMerge (ca_fault ca_special ca_field_type fmpz_mpoly_struct ca_elem_struct
  gen_power_exp fmpz_mpoly_set_fmpz)

theorem gen_power_exp_length (n i k : Nat) : (gen_power_exp n i k).length = n := by
  simp [gen_power_exp]

theorem gen_power_exp_inj {n i j : Nat} (hi : i < n)
    (h : gen_power_exp n i 1 = gen_power_exp n j 1) : i = j := by
  by_contra hne
  have h1 : (gen_power_exp n i 1)[i]? = some 1 := by
    simp [gen_power_exp, List.getElem?_set, hi]
  have h2 : (gen_power_exp n j 1)[i]? = some 0 := by
    unfold gen_power_exp
    rw [List.getElem?_set_ne (fun e => hne e.symm)]
    simp [hi]
  rw [h, h2] at h1
  cases h1

theorem is_gen_nat_iff (exps : List Nat) (i : Nat) :
    fmpz_mpoly_is_gen { terms := [(1, exps)] } (i : Int) = true ↔
      i < exps.length ∧ exps = gen_power_exp exps.length i 1 := by
  simp [fmpz_mpoly_is_gen]

theorem is_gen_any_iff (exps : List Nat) :
    fmpz_mpoly_is_gen { terms := [(1, exps)] } (-1) = true ↔
      ∃ i, i < exps.length ∧ exps = gen_power_exp exps.length i 1 := by
  simp [fmpz_mpoly_is_gen]

theorem gen_search_unit (K : ca_field_struct) (exps : List Nat) (i : Nat)
    (hi : i < exps.length) (he : exps = gen_power_exp exps.length i 1) :
    ∀ (fuel s : Nat), s ≤ i → i < s + fuel →
      gen_search K { terms := [(1, exps)] } s fuel =
        (match K.ext[i]? with
         | some e => .ok e
         | none => .error .undefined) := by
  intro fuel
  induction fuel with
  | zero => intro s h1 h2; omega
  | succ n ih =>
    intro s h1 h2
    unfold gen_search
    by_cases hs : s = i
    · subst hs
      rw [if_pos ((is_gen_nat_iff exps s).mpr ⟨hi, he⟩)]
    · have hng : ¬ fmpz_mpoly_is_gen { terms := [(1, exps)] } (s : Int) = true := by
        intro hg
        obtain ⟨hs1, hs2⟩ := (is_gen_nat_iff exps s).mp hg
        rw [he] at hs2
        rw [gen_power_exp_length] at hs2
        exact hs (gen_power_exp_inj hi hs2).symm
      rw [if_neg hng]
      exact ih (s + 1) (by omega) (by omega)

theorem gen_search_exhausted (K : ca_field_struct) (exps : List Nat) (i : Nat)
    (hi : i < exps.length) (he : exps = gen_power_exp exps.length i 1) :
    ∀ (fuel s : Nat), s + fuel ≤ i →
      gen_search K { terms := [(1, exps)] } s fuel = .error .undefined := by
  intro fuel
  induction fuel with
  | zero => intro s _; rfl
  | succ n ih =>
    intro s h1
    unfold gen_search
    have hng : ¬ fmpz_mpoly_is_gen { terms := [(1, exps)] } (s : Int) = true := by
      intro hg
      obtain ⟨hs1, hs2⟩ := (is_gen_nat_iff exps s).mp hg
      rw [he] at hs2
      rw [gen_power_exp_length] at hs2
      have := gen_power_exp_inj hi hs2
      omega
    rw [if_neg hng]
    exact ih (s + 1) (by omega)

/-- C19: when the numerator with its coefficient set to one is a polynomial of the
ring of `K` (its exponent vector has one entry for each generator of `K`) and passes
`is_gen(poly, -1)`, the search `for (i = 0; ; i++)` stops at an index `i` below the
number of generators of `K`, that `i` is the only variable index with `is_gen(poly, i)`,
and the extension returned is the extension number `i` of `K`; and when the test
`is_gen(poly, -1)` fails, `ca_is_fmpq_times_gen_as_ext` returns `NULL` with `c`
unchanged whatever the search would do. -/
theorem gen_search_in_range (K : ca_field_struct) (exps : List Nat)
    (hlen : exps.length = K.ext.length)
    (hgen : fmpz_mpoly_is_gen { terms := [(1, exps)] } (-1) = true) :
    (∃ i e, i < K.ext.length ∧ K.ext[i]? = some e ∧
      gen_search K { terms := [(1, exps)] } 0 K.ext.length = .ok e ∧
      fmpz_mpoly_is_gen { terms := [(1, exps)] } (i : Int) = true ∧
      (∀ j : Nat, fmpz_mpoly_is_gen { terms := [(1, exps)] } (j : Int) = true → j = i)) ∧
    (∀ (c0 : fmpq) (K2 : ca_field_struct) (a : Int) (exps2 : List Nat)
        (den : fmpz_mpoly_struct),
      fmpz_mpoly_is_gen { terms := [(1, exps2)] } (-1) = false →
      ca_is_fmpq_times_gen_as_ext c0
        (.element K2 (.mpoly_q { terms := [(a, exps2)] } den)) = .ok (none, c0)) := by
  constructor
  · obtain ⟨i, hi, he⟩ := (is_gen_any_iff exps).mp hgen
    have hiK : i < K.ext.length := by omega
    refine ⟨i, K.ext[i], hiK, List.getElem?_eq_getElem hiK, ?_,
      (is_gen_nat_iff exps i).mpr ⟨hi, he⟩, ?_⟩
    · rw [gen_search_unit K exps i hi he K.ext.length 0 (by omega) (by omega),
        List.getElem?_eq_getElem hiK]
    · intro j hj
      obtain ⟨_, hj2⟩ := (is_gen_nat_iff exps j).mp hj
      rw [he] at hj2
      rw [gen_power_exp_length] at hj2
      exact (gen_power_exp_inj hi hj2).symm
  · intro c0 K2 a exps2 den hng
    unfold ca_is_fmpq_times_gen_as_ext
    simp only [hng, Bool.false_eq_true, if_false]
    split
    · rfl
    · split
      · rfl
      · split
        · split <;> rfl
        · rfl

theorem gen_search_in_range_witness :
    ([0, 1].length = sample_field_pi_i.ext.length ∧
      fmpz_mpoly_is_gen { terms := [(1, [0, 1])] } (-1) = true) ∧
    ∃ i e, i < sample_field_pi_i.ext.length ∧ sample_field_pi_i.ext[i]? = some e ∧
      gen_search sample_field_pi_i { terms := [(1, [0, 1])] } 0
        sample_field_pi_i.ext.length = .ok e ∧
      fmpz_mpoly_is_gen { terms := [(1, [0, 1])] } (i : Int) = true ∧
      (∀ j : Nat, fmpz_mpoly_is_gen { terms := [(1, [0, 1])] } (j : Int) = true → j = i) :=
  ⟨⟨rfl, rfl⟩, (gen_search_in_range sample_field_pi_i [0, 1] rfl rfl).1⟩

end CaExp

namespace CaExp

open CaMerge (ca_fault ca_special ca_field_type fmpz_mpoly_struct ca_elem_struct
  gen_power_exp fmpz_mpoly_set_fmpz)

theorem is_fmpz_cons_iff (d : Int) (dexps : List Nat) (drest : List (Int × List Nat)) :
    fmpz_mpoly_is_fmpz { terms := (d, dexps) :: drest } = true ↔
      drest = [] ∧ ∀ v ∈ dexps, v = 0 := by
  cases drest with
  | nil => simp [fmpz_mpoly_is_fmpz]
  | cons u us => simp [fmpz_mpoly_is_fmpz]

/-- The value that the search of `ca_is_fmpq_times_gen_as_ext` returns for a numerator
monomial that is the generator number `i`. -/
theorem gen_search_value (K : ca_field_struct) (exps : List Nat) (i : Nat)
    (hi : i < exps.length) (he : exps = gen_power_exp exps.length i 1) (e : ca_ext_ptr) :
    gen_search K { terms := [(1, exps)] } 0 K.ext.length = .ok e ↔
      i < K.ext.length ∧ K.ext[i]? = some e := by
  by_cases hiK : i < K.ext.length
  · rw [gen_search_unit K exps i hi he K.ext.length 0 (by omega) (by omega),
      List.getElem?_eq_getElem hiK]
    simp [hiK]
  · rw [gen_search_exhausted K exps i hi he K.ext.length 0 (by omega)]
    simp [hiK]

/-- When `ca_is_fmpq_times_gen_as_ext` returns an extension: exactly for an element of
a field that is neither QQ nor NF whose denominator is a single constant term and whose
numerator is a single term on the generator number `i` of the field; the extension is
the one at position `i` and `c` holds the two coefficients. -/
theorem times_gen_success_iff (c0 c : fmpq) (x : ca_struct) (e : ca_ext_ptr) :
    ca_is_fmpq_times_gen_as_ext c0 x = .ok (some e, c) ↔
      ∃ K a exps d dexps i,
        x = .element K (.mpoly_q { terms := [(a, exps)] } { terms := [(d, dexps)] }) ∧
        K.type ≠ .QQ ∧ K.type ≠ .NF ∧ (∀ v ∈ dexps, v = 0) ∧
        i < exps.length ∧ exps = gen_power_exp exps.length i 1 ∧
        i < K.ext.length ∧ K.ext[i]? = some e ∧ c = { num := a, den := d } := by
  constructor
  · intro h
    unfold ca_is_fmpq_times_gen_as_ext at h
    cases x with
    | special s => simp at h
    | element K elem =>
      simp only [] at h
      by_cases hq : CA_FIELD_IS_QQ K = true
      · simp [hq] at h
      · by_cases hn : CA_FIELD_IS_NF K = true
        · simp [hq, hn] at h
        · simp only [hq, hn, Bool.false_eq_true, if_false] at h
          cases elem with
          | q n d => simp at h
          | nf a => simp at h
          | mpoly_q num den =>
            obtain ⟨nt⟩ := num
            obtain ⟨dt⟩ := den
            simp only [] at h
            by_cases hden : fmpz_mpoly_is_fmpz { terms := dt } = true
            · rw [if_pos hden] at h
              by_cases hlen : fmpz_mpoly_length { terms := nt } = 1
              · rw [if_pos hlen] at h
                cases nt with
                | nil => simp at h
                | cons t ts =>
                  obtain ⟨a, exps⟩ := t
                  simp only [fmpz_mpoly_length, List.length_cons, Nat.add_left_eq_self,
                    List.length_eq_zero] at hlen
                  subst hlen
                  simp only [] at h
                  by_cases hg : fmpz_mpoly_is_gen { terms := [(1, exps)] } (-1) = true
                  · rw [if_pos hg] at h
                    cases dt with
                    | nil => simp at h
                    | cons u us =>
                      obtain ⟨d, dexps⟩ := u
                      simp only [] at h
                      obtain ⟨hus, hz⟩ := (is_fmpz_cons_iff d dexps us).mp hden
                      subst hus
                      obtain ⟨i, hi, he⟩ := (is_gen_any_iff exps).mp hg
                      cases hs : gen_search K { terms := [(1, exps)] } 0 K.ext.length with
                      | error err => simp [hs] at h
                      | ok e2 =>
                        simp only [hs, Except.ok.injEq, Prod.mk.injEq, Option.some.injEq] at h
                        obtain ⟨h1, h2⟩ := h
                        subst h1
                        obtain ⟨hiK, hext⟩ := (gen_search_value K exps i hi he e2).mp hs
                        refine ⟨K, a, exps, d, dexps, i, rfl, ?_, ?_, hz, hi, he, hiK, hext,
                          h2.symm⟩
                        · intro hty
                          exact hq (by simp [CA_FIELD_IS_QQ, hty])
                        · intro hty
                          exact hn (by simp [CA_FIELD_IS_NF, hty])
                  · rw [if_neg hg] at h
                    simp at h
              · rw [if_neg hlen] at h
                simp at h
            · rw [if_neg hden] at h
              simp at h
  · rintro ⟨K, a, exps, d, dexps, i, hx, hq, hn, hz, hi, he, hiK, hext, hc⟩
    subst hx hc
    have hg : fmpz_mpoly_is_gen { terms := [(1, exps)] } (-1) = true :=
      (is_gen_any_iff exps).mpr ⟨i, hi, he⟩
    have hden : fmpz_mpoly_is_fmpz { terms := [(d, dexps)] } = true :=
      (is_fmpz_cons_iff d dexps []).mpr ⟨rfl, hz⟩
    have hs : gen_search K { terms := [(1, exps)] } 0 K.ext.length = .ok e :=
      (gen_search_value K exps i hi he e).mpr ⟨hiK, hext⟩
    unfold ca_is_fmpq_times_gen_as_ext
    simp [CA_FIELD_IS_QQ, CA_FIELD_IS_NF, hq, hn, hden, fmpz_mpoly_length, hg, hs]

theorem times_gen_none_special (c0 : fmpq) (s : ca_special) :
    ca_is_fmpq_times_gen_as_ext c0 (.special s) = .ok (none, c0) := rfl

theorem times_gen_none_qq_nf (c0 : fmpq) (K : ca_field_struct) (elem : ca_elem_struct)
    (h : K.type = .QQ ∨ K.type = .NF) :
    ca_is_fmpq_times_gen_as_ext c0 (.element K elem) = .ok (none, c0) := by
  unfold ca_is_fmpq_times_gen_as_ext
  rcases h with h | h <;> simp [CA_FIELD_IS_QQ, CA_FIELD_IS_NF, h]

theorem all_zero_eq_replicate : ∀ (l : List Nat), (∀ v ∈ l, v = 0) →
    l = List.replicate l.length 0 := by
  intro l
  induction l with
  | nil => intro _; rfl
  | cons a as ih =>
    intro h
    have ha : a = 0 := h a (by simp)
    have has : ∀ v ∈ as, v = 0 := fun v hv => h v (by simp [hv])
    rw [List.length_cons, List.replicate_succ, ← ih has, ha]

theorem sample_three_half_log2_wf : value_wf sample_three_half_log2 := by
  refine ⟨_, _, rfl, ?_, ?_, by simp⟩
  · intro t ht
    simp only [List.mem_singleton] at ht
    subst ht
    exact ⟨by decide, rfl⟩
  · intro t ht
    simp only [List.mem_singleton] at ht
    subst ht
    exact ⟨by decide, rfl⟩

/-- C13, as stated, fails at zero: the value 0 written in the FUNC field of `log(2)`
is `0 * g` for the rational 0/1 and the one generator of the field, and
`ca_is_fmpq_times_gen_as_ext` returns `NULL` for it. -/
theorem times_gen_rejects_zero :
    value_wf sample_zero_in_log ∧ CA_IS_SPECIAL sample_zero_in_log = false ∧
    sample_field_log.type = .FUNC ∧
    is_fmpq_times_gen sample_field_log sample_zero_in_log { num := 0, den := 1 } 0 ∧
    sample_field_log.ext[0]? = some 0 ∧
    ca_is_fmpq_times_gen_as_ext fmpq_init sample_zero_in_log = .ok (none, fmpq_init) := by
  refine ⟨?_, rfl, rfl, ⟨by decide, by decide, rfl⟩, rfl, rfl⟩
  refine ⟨_, _, rfl, ?_, ?_, by simp⟩
  · intro t ht
    simp at ht
  · intro t ht
    simp only [List.mem_singleton] at ht
    subst ht
    exact ⟨by decide, rfl⟩

/-- C13, amended: for a value whose representation matches its field,
`ca_is_fmpq_times_gen_as_ext` returns `(c, g)` if and only if the value is not special,
lives in a FUNC or MULTI field and is `c * g_i` for a rational `c` with nonzero
numerator and a generator `g_i` of that field, `g` being the extension at position `i`;
such an `i` is unique; the function returns `NULL` and leaves `c` as it was for every
special value and every value of QQ or of an NF field; and on success `c` is in lowest
terms with a positive denominator when the value is in canonical form (the function
copies the two coefficients as they are). -/
theorem times_gen_iff (c0 : fmpq) (x : ca_struct) (hwf : value_wf x) :
    (∀ (e : ca_ext_ptr) (c : fmpq),
      ca_is_fmpq_times_gen_as_ext c0 x = .ok (some e, c) ↔
        ∃ K i, CA_IS_SPECIAL x = false ∧ (K.type = .FUNC ∨ K.type = .MULTI) ∧
          c.num ≠ 0 ∧ is_fmpq_times_gen K x c i ∧ K.ext[i]? = some e) ∧
    (∀ (K : ca_field_struct) (c1 c2 : fmpq) (i j : Nat),
      c1.num ≠ 0 → is_fmpq_times_gen K x c1 i → is_fmpq_times_gen K x c2 j →
        i = j ∧ c1 = c2) ∧
    ((CA_IS_SPECIAL x = true ∨
        ∃ K elem, x = .element K elem ∧ (K.type = .QQ ∨ K.type = .NF)) →
      ca_is_fmpq_times_gen_as_ext c0 x = .ok (none, c0)) ∧
    (∀ (e : ca_ext_ptr) (c : fmpq),
      ca_is_fmpq_times_gen_as_ext c0 x = .ok (some e, c) → value_canonical x →
        fmpq_is_canonical c) := by
  refine ⟨?_, ?_, ?_, ?_⟩
  · intro e c
    rw [times_gen_success_iff]
    constructor
    · rintro ⟨K, a, exps, d, dexps, i, hx, hq, hn, hz, hi, he, hiK, hext, hc⟩
      subst hx hc
      have hty : K.type = .FUNC ∨ K.type = .MULTI := by
        cases hK : K.type with
        | QQ => exact absurd hK hq
        | NF => exact absurd hK hn
        | FUNC => exact Or.inl rfl
        | MULTI => exact Or.inr rfl
      -- the representation is one of the ring of `K`
      have hring : a ≠ 0 ∧ exps.length = K.ext.length ∧ d ≠ 0 ∧
          dexps.length = K.ext.length := by
        unfold value_wf at hwf
        rcases hty with h | h
        · simp only [h] at hwf
          obtain ⟨num, den, hel, hnum, hdn, _⟩ := hwf
          cases hel
          have h1 := hnum (a, exps) (by simp)
          have h2 := hdn (d, dexps) (by simp)
          exact ⟨h1.1, h1.2, h2.1, h2.2⟩
        · simp only [h] at hwf
          obtain ⟨num, den, hel, hnum, hdn, _⟩ := hwf
          cases hel
          have h1 := hnum (a, exps) (by simp)
          have h2 := hdn (d, dexps) (by simp)
          exact ⟨h1.1, h1.2, h2.1, h2.2⟩
      obtain ⟨ha, hle, hd, hdl⟩ := hring
      refine ⟨K, i, rfl, hty, ha, ⟨hiK, hd, ?_⟩, hext⟩
      have hez : exps = gen_power_exp K.ext.length i 1 := by
        rw [← hle]; exact he
      have hdz : dexps = List.replicate K.ext.length 0 := by
        rw [← hdl]; exact all_zero_eq_replicate dexps hz
      simp only [fmpz_mpoly_scalar_gen, ha, if_false, fmpz_mpoly_set_fmpz, hd]
      rw [← hez, ← hdz]
    · rintro ⟨K, i, _, hty, hnum, ⟨hiK, hd, hx⟩, hext⟩
      refine ⟨K, c.num, gen_power_exp K.ext.length i 1, c.den,
        List.replicate K.ext.length 0, i, ?_, ?_, ?_, ?_, ?_, ?_, hiK, hext, rfl⟩
      · rw [hx]
        simp [fmpz_mpoly_scalar_gen, hnum, fmpz_mpoly_set_fmpz, hd]
      · rcases hty with h | h <;> simp [h]
      · rcases hty with h | h <;> simp [h]
      · intro v hv
        exact (List.mem_replicate.mp hv).2
      · rw [gen_power_exp_length]; exact hiK
      · rw [gen_power_exp_length]
  · intro K c1 c2 i j hnum ⟨hi, hd1, h1⟩ ⟨_, hd2, h2⟩
    rw [h1] at h2
    simp only [ca_struct.element.injEq, ca_elem_struct.mpoly_q.injEq, true_and] at h2
    obtain ⟨hn, hd⟩ := h2
    simp only [fmpz_mpoly_scalar_gen, hnum, if_false, fmpz_mpoly_struct.mk.injEq] at hn
    simp only [fmpz_mpoly_set_fmpz, hd1, hd2, if_false, fmpz_mpoly_struct.mk.injEq,
      List.cons.injEq, Prod.mk.injEq, and_true] at hd
    by_cases h0 : c2.num = 0
    · simp [h0] at hn
    · simp only [h0, if_false, List.cons.injEq, Prod.mk.injEq, and_true] at hn
      refine ⟨gen_power_exp_inj hi hn.2, ?_⟩
      cases c1
      cases c2
      simp only [fmpq.mk.injEq]
      exact ⟨hn.1, hd⟩
  · rintro (h | ⟨K, elem, hx, hty⟩)
    · cases x with
      | special s => rfl
      | element K elem => simp [CA_IS_SPECIAL] at h
    · subst hx
      exact times_gen_none_qq_nf c0 K elem hty
  · intro e c h hcan
    obtain ⟨K, a, exps, d, dexps, i, hx, _, _, _, _, _, _, _, hc⟩ :=
      (times_gen_success_iff c0 c x e).mp h
    subst hx hc
    unfold value_canonical at hcan
    simp only [fmpz_mpoly_content, List.foldr_cons, List.foldr_nil, Nat.gcd_zero_right,
      List.head?_cons, Option.mem_def, Option.some.injEq, forall_eq'] at hcan
    exact ⟨hcan.1, hcan.2⟩

theorem times_gen_iff_witness :
    value_wf sample_three_half_log2 ∧
    (ca_is_fmpq_times_gen_as_ext fmpq_init sample_three_half_log2
        = .ok (some 0, { num := 3, den := 2 }) ↔
      ∃ K i, CA_IS_SPECIAL sample_three_half_log2 = false ∧
        (K.type = .FUNC ∨ K.type = .MULTI) ∧
        ({ num := 3, den := 2 } : fmpq).num ≠ 0 ∧
        is_fmpq_times_gen K sample_three_half_log2 { num := 3, den := 2 } i ∧
        K.ext[i]? = some 0) :=
  ⟨sample_three_half_log2_wf,
    (times_gen_iff fmpq_init sample_three_half_log2 sample_three_half_log2_wf).1 0
      { num := 3, den := 2 }⟩

end CaExp

namespace CaExp

open CaMerge (ca_fault ca_special ca_field_type fmpz_mpoly_struct ca_elem_struct
  gen_power_exp fmpz_mpoly_set_fmpz)

theorem gen_power_exp_succ (n i : Nat) :
    gen_power_exp (n + 1) (i + 1) 1 = 0 :: gen_power_exp n i 1 := by
  simp [gen_power_exp, List.replicate_succ]

theorem gen_power_exp_zero (n : Nat) :
    gen_power_exp (n + 1) 0 1 = 1 :: List.replicate n 0 := by
  simp [gen_power_exp, List.replicate_succ]

theorem sum_replicate_zero (n : Nat) : (List.replicate n 0).sum = 0 := by
  induction n with
  | zero => rfl
  | succ n ih => simp [List.replicate_succ, ih]

theorem sum_gen_power_exp : ∀ (n i : Nat), i < n → (gen_power_exp n i 1).sum = 1 := by
  intro n
  induction n with
  | zero => intro i h; omega
  | succ n ih =>
    intro i h
    cases i with
    | zero => rw [gen_power_exp_zero, List.sum_cons, sum_replicate_zero]
    | succ i => rw [gen_power_exp_succ, List.sum_cons, ih i (by omega)]

theorem sum_zero_all_zero : ∀ (l : List Nat), l.sum = 0 → ∀ v ∈ l, v = 0 := by
  intro l
  induction l with
  | nil => intro _ v hv; simp at hv
  | cons a as ih =>
    intro h v hv
    simp only [List.sum_cons] at h
    simp only [List.mem_cons] at hv
    rcases hv with hv | hv
    · omega
    · exact ih (by omega) v hv

/-- An exponent vector has total degree 1 exactly when it is the exponent vector of
one of the variables. -/
theorem sum_one_iff_gen : ∀ (exps : List Nat),
    exps.sum = 1 ↔ ∃ i, i < exps.length ∧ exps = gen_power_exp exps.length i 1 := by
  intro exps
  constructor
  · induction exps with
    | nil => intro h; simp at h
    | cons a as ih =>
      intro h
      simp only [List.sum_cons] at h
      by_cases ha : a = 0
      · subst ha
        obtain ⟨i, hi, he⟩ := ih (by omega)
        refine ⟨i + 1, by simp only [List.length_cons]; omega, ?_⟩
        rw [List.length_cons, gen_power_exp_succ, ← he]
      · have ha1 : a = 1 := by omega
        subst ha1
        have hz := sum_zero_all_zero as (by omega)
        refine ⟨0, by simp, ?_⟩
        rw [List.length_cons, gen_power_exp_zero, ← all_zero_eq_replicate as hz]
  · rintro ⟨i, hi, he⟩
    rw [he]
    exact sum_gen_power_exp _ _ hi

/-- C14, as stated, fails: `(3/2) * log(2)`, whose numerator has the coefficient 3, is
accepted by `ca_is_fmpq_times_gen_as_ext`, which sets the coefficient to one (line 75)
before it asks `fmpz_mpoly_is_gen`. -/
theorem times_gen_accepts_coefficient_three :
    value_wf sample_three_half_log2 ∧ sample_field_log.type = .FUNC ∧
    ca_is_fmpq_times_gen_as_ext fmpq_init sample_three_half_log2
      = .ok (some 0, { num := 3, den := 2 }) ∧
    ¬ shape_unit_coefficient sample_three_half_log2 := by
  refine ⟨sample_three_half_log2_wf, rfl, rfl, ?_⟩
  rintro ⟨K, a, exps, d, dexps, hx, _, _, _, ha⟩
  simp only [sample_three_half_log2, ca_struct.element.injEq,
    ca_elem_struct.mpoly_q.injEq, fmpz_mpoly_struct.mk.injEq, List.cons.injEq,
    Prod.mk.injEq, and_true] at hx
  obtain ⟨_, ⟨h3, _⟩, _⟩ := hx
  omega

/-- C14, amended: for a non-special value of a FUNC or MULTI field whose
representation matches the field, `ca_is_fmpq_times_gen_as_ext` succeeds with the
rational `c` exactly when the denominator of the value is the nonzero constant `c.den`
and its numerator is a single monomial of total degree 1 with the coefficient `c.num`,
whatever that coefficient is. -/
theorem times_gen_shape (c0 c : fmpq) (K : ca_field_struct) (elem : ca_elem_struct)
    (hty : K.type = .FUNC ∨ K.type = .MULTI) (hwf : value_wf (.element K elem)) :
    (∃ e, ca_is_fmpq_times_gen_as_ext c0 (.element K elem) = .ok (some e, c)) ↔
      shape_any_coefficient (.element K elem) c.num c.den := by
  have hring : ∃ num den, elem = .mpoly_q num den ∧
      poly_in_ring K.ext.length num ∧ poly_in_ring K.ext.length den := by
    unfold value_wf at hwf
    rcases hty with h | h
    · simp only [h] at hwf
      obtain ⟨num, den, hel, hnum, hdn, _⟩ := hwf
      exact ⟨num, den, hel, hnum, hdn⟩
    · simp only [h] at hwf
      obtain ⟨num, den, hel, hnum, hdn, _⟩ := hwf
      exact ⟨num, den, hel, hnum, hdn⟩
  obtain ⟨num, den, hel, hnum, hdn⟩ := hring
  subst hel
  constructor
  · rintro ⟨e, h⟩
    obtain ⟨K2, a, exps, d, dexps, i, hx, _, _, hz, hi, he, _, _, hc⟩ :=
      (times_gen_success_iff c0 c _ e).mp h
    simp only [ca_struct.element.injEq, ca_elem_struct.mpoly_q.injEq] at hx
    obtain ⟨hK, hn, hd⟩ := hx
    subst hK hn hd hc
    refine ⟨K, exps, dexps, rfl, (hdn (d, dexps) (by simp)).1, hz, ?_⟩
    exact (sum_one_iff_gen exps).mpr ⟨i, hi, he⟩
  · rintro ⟨K2, exps, dexps, hx, hd, hz, hsum⟩
    simp only [ca_struct.element.injEq, ca_elem_struct.mpoly_q.injEq] at hx
    obtain ⟨hK, hn, hdd⟩ := hx
    subst hK hn hdd
    obtain ⟨i, hi, he⟩ := (sum_one_iff_gen exps).mp hsum
    have hle : exps.length = K.ext.length := (hnum (c.num, exps) (by simp)).2
    have hiK : i < K.ext.length := by omega
    refine ⟨K.ext[i], (times_gen_success_iff c0 c _ _).mpr
      ⟨K, c.num, exps, c.den, dexps, i, rfl, ?_, ?_, hz, hi, he, hiK,
        List.getElem?_eq_getElem hiK, rfl⟩⟩
    · rcases hty with h | h <;> simp [h]
    · rcases hty with h | h <;> simp [h]

theorem times_gen_shape_witness :
    (sample_field_log.type = .FUNC ∨ sample_field_log.type = .MULTI) ∧
    ((∃ e, ca_is_fmpq_times_gen_as_ext fmpq_init sample_three_half_log2
        = .ok (some e, { num := 3, den := 2 })) ↔
      shape_any_coefficient sample_three_half_log2 3 2) :=
  ⟨Or.inl rfl,
    times_gen_shape fmpq_init { num := 3, den := 2 } sample_field_log
      (.mpoly_q { terms := [(3, [1])] } { terms := [(2, [0])] }) (Or.inl rfl)
      sample_three_half_log2_wf⟩

end CaExp

namespace CaExp

open CaMerge (ca_fault ca_special ca_field_type fmpz_mpoly_struct ca_elem_struct
  gen_power_exp fmpz_mpoly_set_fmpz)

/-- C15, as stated, fails: for the rational 0 of QQ, which is `0 * (pi*i)`, a library
whose division answers the rational 0 for `0 / (pi*i)` would give a quotient in QQ, but
`ca_as_fmpq_pi_i` returns 0 at line 25-26 without forming the quotient. -/
theorem as_fmpq_pi_i_rejects_zero :
    CA_IS_QQ (sample_lib_zero_div.ca_div (sample_lib_zero_div.ca_pi_i 0).2 ca_zero
      (sample_lib_zero_div.ca_pi_i 0).1).1 = true ∧
    (sample_lib_zero_div.ca_div (sample_lib_zero_div.ca_pi_i 0).2 ca_zero
      (sample_lib_zero_div.ca_pi_i 0).1).1 = .element field_qq (.q 0 1) ∧
    ca_as_fmpq_pi_i sample_lib_zero_div fmpq_init ca_zero 0 = .ok (false, fmpq_init, 0) :=
  ⟨rfl, rfl, rfl⟩

/-- C15, amended: `ca_as_fmpq_pi_i` returns 0, with `res` and the context as they
were and without forming any quotient, for every special value and for every value of
QQ or of an NF field (the value 0 included); for every other value it forms the
quotient `x / (pi*i)` with the library and returns 1 with `res` set to that quotient
when the quotient is a rational of QQ, and 0 with `res` as it was when the quotient is
not in QQ. -/
theorem as_fmpq_pi_i_cases {σ β : Type} (lib : ca_lib σ β) (res : fmpq) (ctx : σ) :
    (∀ s, ca_as_fmpq_pi_i lib res (.special s) ctx = .ok (false, res, ctx)) ∧
    (∀ K elem, (K.type = .QQ ∨ K.type = .NF) →
      ca_as_fmpq_pi_i lib res (.element K elem) ctx = .ok (false, res, ctx)) ∧
    (∀ K elem, K.type ≠ .QQ → K.type ≠ .NF →
      (∀ Kq num den,
        (lib.ca_div (lib.ca_pi_i ctx).2 (.element K elem) (lib.ca_pi_i ctx).1).1
          = .element Kq (.q num den) →
        Kq.type = .QQ →
        ca_as_fmpq_pi_i lib res (.element K elem) ctx =
          .ok (true, { num := num, den := den },
            (lib.ca_div (lib.ca_pi_i ctx).2 (.element K elem) (lib.ca_pi_i ctx).1).2)) ∧
      (CA_IS_QQ (lib.ca_div (lib.ca_pi_i ctx).2 (.element K elem) (lib.ca_pi_i ctx).1).1
          = false →
        ca_as_fmpq_pi_i lib res (.element K elem) ctx =
          .ok (false, res,
            (lib.ca_div (lib.ca_pi_i ctx).2 (.element K elem) (lib.ca_pi_i ctx).1).2))) := by
  refine ⟨fun s => rfl, ?_, ?_⟩
  · intro K elem h
    unfold ca_as_fmpq_pi_i
    rcases h with h | h <;> simp [CA_FIELD_IS_QQ, CA_FIELD_IS_NF, h]
  · intro K elem hq hn
    constructor
    · intro Kq num den hquot hKq
      unfold ca_as_fmpq_pi_i
      simp only [CA_FIELD_IS_QQ, CA_FIELD_IS_NF, hq, hn, decide_False, Bool.or_self,
        Bool.false_eq_true, if_false, hquot, CA_IS_QQ, hKq, decide_True, if_true]
    · intro hnot
      unfold ca_as_fmpq_pi_i
      simp only [CA_FIELD_IS_QQ, CA_FIELD_IS_NF, hq, hn, decide_False, Bool.or_self,
        Bool.false_eq_true, if_false, hnot]

theorem as_fmpq_pi_i_cases_witness :
    ca_as_fmpq_pi_i sample_lib fmpq_init (sample_pi_i_times (-5) 2) 0
      = .ok (true, { num := -5, den := 2 }, 2) :=
  ((as_fmpq_pi_i_cases sample_lib fmpq_init 0).2.2 sample_field_pi_i
    (.mpoly_q { terms := [(-5, [1, 1])] } { terms := [(2, [0, 0])] })
    (by decide) (by decide)).1 field_qq (-5) 2 rfl rfl

end CaExp

namespace CaQQbar

open CaMerge (ca_fault)

theorem slong_wrap_of_fits (z : Int) (h1 : -9223372036854775808 ≤ z)
    (h2 : z < 9223372036854775808) : slong_wrap z = z := by
  unfold slong_wrap
  omega

theorem slong_wrap_sub_wrap (a t : Int) (h1 : -9223372036854775808 ≤ a - t)
    (h2 : a - t < 9223372036854775808) : slong_wrap (a - slong_wrap t) = a - t := by
  unfold slong_wrap
  omega

/-- C20: for every integer `p` and every `q ≥ 1` for which `2q` and
`q - 2 * (p rem 2q)` fit a signed 64-bit word, `ca_qqbar_sin_pi(p, q)` returns what
`ca_qqbar_cos_pi(q - 2p', 2q)` returns, with `p'` the truncated remainder of `p` by
`2q`; the rational `(q - 2p')/(2q)` is `1/2 - p/q` plus an even integer, and therefore
`cos(pi * (q - 2p')/(2q)) = sin(pi * p/q)`, for negative `p` as well. -/
theorem ca_qqbar_sin_pi_reduces {β : Type} (ca_qqbar_cos_pi : Int → Nat → β)
    (p : Int) (q : Nat) (hq : 1 ≤ q) (h2q : 2 * q < 9223372036854775808)
    (hlo : -9223372036854775808 ≤ (q : Int) - 2 * Int.tmod p (2 * (q : Int)))
    (hhi : (q : Int) - 2 * Int.tmod p (2 * (q : Int)) < 9223372036854775808) :
    ca_qqbar_sin_pi ca_qqbar_cos_pi p q =
      .ok (ca_qqbar_cos_pi ((q : Int) - 2 * Int.tmod p (2 * (q : Int))) (2 * q)) ∧
    (∃ k : Int, (((q : Int) - 2 * Int.tmod p (2 * (q : Int)) : Int) : ℚ) / ((2 * q : Nat) : ℚ)
      = 1 / 2 - (p : ℚ) / (q : ℚ) + 2 * (k : ℚ)) ∧
    Real.cos (Real.pi *
        ((((q : Int) - 2 * Int.tmod p (2 * (q : Int)) : Int) : ℝ) / ((2 * q : Nat) : ℝ)))
      = Real.sin (Real.pi * ((p : ℝ) / (q : ℝ))) := by
  have hdecomp : Int.tmod p (2 * (q : Int)) + 2 * (q : Int) * Int.tdiv p (2 * (q : Int)) = p :=
    Int.tmod_add_tdiv p (2 * (q : Int))
  refine ⟨?_, ⟨Int.tdiv p (2 * (q : Int)), ?_⟩, ?_⟩
  · have hsq : slong_wrap (q : Int) = (q : Int) := slong_wrap_of_fits _ (by omega) (by omega)
    have hm : slong_wrap (2 * (q : Int)) = 2 * (q : Int) :=
      slong_wrap_of_fits _ (by omega) (by omega)
    have hu : ulong_wrap (2 * q) = 2 * q := by
      unfold ulong_wrap
      omega
    unfold ca_qqbar_sin_pi
    simp only [hsq, hm, hu]
    rw [if_neg (by omega), slong_wrap_sub_wrap _ _ hlo hhi]
  · have hq0 : (q : ℚ) ≠ 0 := by exact_mod_cast (by omega : q ≠ 0)
    have hp : (p : ℚ) = (Int.tmod p (2 * (q : Int)) : ℚ)
        + 2 * (q : ℚ) * (Int.tdiv p (2 * (q : Int)) : ℚ) := by
      have := congrArg (fun z : Int => (z : ℚ)) hdecomp
      simp only [Int.cast_add, Int.cast_mul, Int.cast_ofNat, Int.cast_natCast] at this
      exact this.symm
    rw [hp]
    push_cast
    field_simp
    ring
  · have hq0 : (q : ℝ) ≠ 0 := by exact_mod_cast (by omega : q ≠ 0)
    have hp : (p : ℝ) = (Int.tmod p (2 * (q : Int)) : ℝ)
        + 2 * (q : ℝ) * (Int.tdiv p (2 * (q : Int)) : ℝ) := by
      have := congrArg (fun z : Int => (z : ℝ)) hdecomp
      simp only [Int.cast_add, Int.cast_mul, Int.cast_ofNat, Int.cast_natCast] at this
      exact this.symm
    have harg : Real.pi *
        ((((q : Int) - 2 * Int.tmod p (2 * (q : Int)) : Int) : ℝ) / ((2 * q : Nat) : ℝ))
        = (Real.pi / 2 - Real.pi * ((p : ℝ) / (q : ℝ)))
          + (Int.tdiv p (2 * (q : Int)) : ℝ) * (2 * Real.pi) := by
      rw [hp]
      push_cast
      field_simp
      ring
    rw [harg, Real.cos_add_int_mul_two_pi, Real.cos_pi_div_two_sub]

theorem ca_qqbar_sin_pi_reduces_witness :
    (1 ≤ 3 ∧ 2 * 3 < 9223372036854775808 ∧
      -9223372036854775808 ≤ ((3 : Nat) : Int) - 2 * Int.tmod (-7) (2 * ((3 : Nat) : Int)) ∧
      ((3 : Nat) : Int) - 2 * Int.tmod (-7) (2 * ((3 : Nat) : Int)) < 9223372036854775808) ∧
    ca_qqbar_sin_pi (fun (a : Int) (b : Nat) => (a, b)) (-7) 3 = .ok ((5 : Int), 6) :=
  ⟨⟨by decide, by decide, by decide, by decide⟩,
    (ca_qqbar_sin_pi_reduces (fun (a : Int) (b : Nat) => (a, b)) (-7) 3
      (by decide) (by decide) (by decide) (by decide)).1⟩

end CaQQbar

namespace CaMerge

theorem generator_list_multi {f : ca_field_struct} (field : Nat) (h : f.type = .MULTI) :
    generator_list f field = f.multi_ext := by
  unfold generator_list
  rw [if_neg (by simp [h])]

theorem generator_list_valid {ctx : ca_ctx_struct} {f : ca_field_struct} {field : Nat}
    (hf : ctx.fields[field]? = some f) (hq : f.type ≠ .QQ) (hv : generators_valid ctx f) :
    indices_valid ctx (generator_list f field) := by
  cases hty : f.type with
  | QQ => exact absurd hty hq
  | NF =>
    rw [generator_list_single field (Or.inl hty)]
    intro i hi
    simp only [List.mem_singleton] at hi
    subst hi
    exact getElem?_lt_length hf
  | FUNC =>
    rw [generator_list_single field (Or.inr hty)]
    intro i hi
    simp only [List.mem_singleton] at hi
    subst hi
    exact getElem?_lt_length hf
  | MULTI =>
    rw [generator_list_multi field hty]
    exact hv hty

theorem read_gen_map_total (nAC : Nat) : ∀ (n : Nat) (gm : List (Option Nat)),
    (∀ i : Nat, i < n → ∃ k, gm[i]? = some (some k) ∧ k < nAC) →
      ∃ vs, read_gen_map gm n nAC = .ok vs := by
  intro n
  induction n with
  | zero =>
    intro gm _
    exact ⟨[], by simp [read_gen_map]⟩
  | succ n ih =>
    intro gm h
    obtain ⟨k, hk, hkn⟩ := h 0 (by omega)
    cases gm with
    | nil => simp at hk
    | cons o rest =>
      simp only [List.getElem?_cons_zero, Option.some.injEq] at hk
      subst hk
      obtain ⟨vs, hvs⟩ := ih rest (by
        intro i hi
        obtain ⟨k2, hk2, hk3⟩ := h (i + 1) (by omega)
        exact ⟨k2, by simpa using hk2, hk3⟩)
      refine ⟨k :: vs, ?_⟩
      simp only [read_gen_map]
      rw [if_pos hkn, hvs]

theorem compose_total {B : fmpz_mpoly_struct} {gm : List (Option Nat)} {nB nAC : Nat}
    (hcells : ∀ i : Nat, i < nB → ∃ k, gm[i]? = some (some k) ∧ k < nAC)
    (hlen : ∀ t ∈ B.terms, t.2.length = nB) :
    ∃ A, fmpz_mpoly_compose_fmpz_mpoly_gen B gm nB nAC = .ok A := by
  obtain ⟨vs, hvs⟩ := read_gen_map_total nAC nB gm hcells
  unfold fmpz_mpoly_compose_fmpz_mpoly_gen
  have hall : (B.terms.all fun t => decide (t.2.length = nB)) = true := by
    rw [List.all_eq_true]
    intro t ht
    simpa using hlen t ht
  rw [hvs]
  simp only [hall, if_true]
  exact ⟨_, rfl⟩

/-- A lift returns when the representation of the value fits the record of its field
and the index map has a written cell, naming a variable of the target ring, for every
generator of the source field. -/
theorem lift_total {ctx : ca_ctx_struct} {z : Nat} {x : ca_struct}
    {fx fz : ca_field_struct} {gm : List (Option Nat)}
    (hfx : ctx.fields[x.field]? = some fx) (hfz : ctx.fields[z]? = some fz)
    (hq : fx.type ≠ .QQ) (hfit : elem_fits fx x.elem)
    (hcells : ∀ i : Nat, i < (generator_list fx x.field).length →
      ∃ k, gm[i]? = some (some k) ∧ k < fz.multi_ext.length) :
    ∃ r, lift_to_field ctx z x gm = .ok r := by
  unfold lift_to_field
  by_cases hz : x.field = z
  · rw [if_pos hz]
    exact ⟨x, rfl⟩
  · rw [if_neg hz, hfx, hfz]
    unfold elem_fits at hfit
    cases hty : fx.type with
    | QQ => exact absurd hty hq
    | NF =>
      simp only [hty] at hfit ⊢
      obtain ⟨a, r, he, hs⟩ := hfit
      rw [generator_list_single _ (Or.inl hty)] at hcells
      obtain ⟨k, hk, hkn⟩ := hcells 0 (by simp)
      simp only [he, hs, hk, hkn, if_true]
      exact ⟨_, rfl⟩
    | FUNC =>
      simp only [hty] at hfit ⊢
      obtain ⟨num, den, he, hn, hd⟩ := hfit
      rw [generator_list_single _ (Or.inr hty)] at hcells
      simp only [List.length_singleton] at hcells
      obtain ⟨A, hA⟩ := compose_total (B := num) hcells hn
      obtain ⟨D, hD⟩ := compose_total (B := den) hcells hd
      simp only [he, hA, hD]
      exact ⟨_, rfl⟩
    | MULTI =>
      simp only [hty] at hfit ⊢
      obtain ⟨num, den, he, hn, hd⟩ := hfit
      rw [generator_list_multi _ hty] at hcells
      obtain ⟨A, hA⟩ := compose_total (B := num) hcells hn
      obtain ⟨D, hD⟩ := compose_total (B := den) hcells hd
      simp only [he, hA, hD]
      exact ⟨_, rfl⟩

theorem select_field_total {ctx : ca_ctx_struct} (M : List Nat)
    (hroom : ctx.fields_len ≤ ctx.fields_alloc) (h1 : 1 ≤ ctx.fields_alloc) :
    ∃ z c1, select_field ctx M = .ok (z, c1) := by
  unfold select_field
  cases hcl : cache_lookup ctx M with
  | some k => exact ⟨k, ctx, rfl⟩
  | none =>
    simp only []
    unfold ca_ctx_struct.fields_len at hroom ⊢
    rw [if_pos (by split <;> omega)]
    exact ⟨_, _, rfl⟩

/-- The call `ca_merge_fields(x, y)` returns for non-special values of distinct non-QQ
fields when the generator lists of both fields hold table indices, the table has room
for one more record and the representation of each value fits the record of its field;
the conclusion names every stage of the call. -/
theorem ca_merge_fields_returns
    (ca_field_cmp : ca_field_struct → ca_field_struct → Int) (ctx : ca_ctx_struct)
    (x y : ca_struct) (fx fy : ca_field_struct)
    (hx : CA_IS_SPECIAL x = false) (hy : CA_IS_SPECIAL y = false)
    (hne : x.field ≠ y.field)
    (hfx : ctx.fields[x.field]? = some fx) (hfy : ctx.fields[y.field]? = some fy)
    (hqx : fx.type ≠ .QQ) (hqy : fy.type ≠ .QQ)
    (hvx : generators_valid ctx fx) (hvy : generators_valid ctx fy)
    (hroom : ctx.fields_len ≤ ctx.fields_alloc) (h1 : 1 ≤ ctx.fields_alloc)
    (hfitx : elem_fits fx x.elem) (hfity : elem_fits fy y.elem) :
    ∃ st z c1 fz resx resy,
      merge_lists ca_field_cmp ctx (generator_list fx x.field) (generator_list fy y.field)
        = .ok st ∧
      merge_inv ca_field_cmp ctx (generator_list fx x.field) (generator_list fy y.field) st ∧
      st.ix = (generator_list fx x.field).length ∧
      st.iy = (generator_list fy y.field).length ∧
      select_field ctx st.fields = .ok (z, c1) ∧
      c1.fields[z]? = some fz ∧ fz.type = .MULTI ∧ fz.multi_ext = st.fields ∧
      lift_to_field c1 z x st.xgen_map = .ok resx ∧
      lift_to_field c1 z y st.ygen_map = .ok resy ∧
      ca_merge_fields ca_field_cmp ctx x y = .ok (resx, resy, c1) := by
  have hX := generator_list_valid hfx hqx hvx
  have hY := generator_list_valid hfy hqy hvy
  obtain ⟨st, hst⟩ := merge_loop_total ca_field_cmp ctx _ _ hX hY
  obtain ⟨inv, hix, hiy⟩ := merge_loop_inv _ _ _ (merge_inv_init ca_field_cmp ctx _ _) hst
  obtain ⟨z, c1, hs⟩ := select_field_total st.fields hroom h1
  obtain ⟨fz, hfz, htz, hM⟩ := select_field_target hs
  obtain ⟨ext, hext⟩ := select_field_fields hs
  have hfx1 : c1.fields[x.field]? = some fx := by
    rw [hext]; exact getElem?_append_some ext hfx
  have hfy1 : c1.fields[y.field]? = some fy := by
    rw [hext]; exact getElem?_append_some ext hfy
  have hcx : ∀ i : Nat, i < (generator_list fx x.field).length →
      ∃ k, st.xgen_map[i]? = some (some k) ∧ k < fz.multi_ext.length := by
    intro i hi
    obtain ⟨k, hk1, hk2⟩ := inv.xmap i _ (by omega) (List.getElem?_eq_getElem hi)
    exact ⟨k, hk1, by rw [hM]; exact getElem?_lt_length hk2⟩
  have hcy : ∀ j : Nat, j < (generator_list fy y.field).length →
      ∃ k, st.ygen_map[j]? = some (some k) ∧ k < fz.multi_ext.length := by
    intro j hj
    obtain ⟨k, m, hk1, hk2, _⟩ := inv.ymap j _ (by omega) (List.getElem?_eq_getElem hj)
    exact ⟨k, hk1, by rw [hM]; exact getElem?_lt_length hk2⟩
  obtain ⟨rx, hlx⟩ := lift_total hfx1 hfz hqx hfitx hcx
  obtain ⟨ry, hly⟩ := lift_total hfy1 hfz hqy hfity hcy
  exact ⟨st, z, c1, fz, rx, ry, hst, inv, hix, hiy, hs, hfz, htz, hM, hlx, hly,
    (ca_merge_fields_ok_iff ca_field_cmp ctx c1 x y rx ry hne).mpr
      ⟨hx, hy, fx, fy, st, z, hfx, hqx, hfy, hqy, hst, hs, hlx, hly⟩⟩

end CaMerge

namespace CaMerge

/-- When the loop has read both lists to the end, the merged list holds every entry of
the first list and, for every entry of the second, that entry or one that compares
equal to it. -/
theorem merge_inv_mem_iff {ca_field_cmp : ca_field_struct → ca_field_struct → Int}
    {ctx : ca_ctx_struct} {X Y : List Nat} {st : merge_state}
    (hd : ∀ i j, cmp_equal ca_field_cmp ctx i j → i = j)
    (inv : merge_inv ca_field_cmp ctx X Y st)
    (hix : st.ix = X.length) (hiy : st.iy = Y.length) :
    ∀ m, m ∈ st.fields ↔ m ∈ X ∨ m ∈ Y := by
  intro m
  constructor
  · exact inv.mem m
  · rintro (hmX | hmY)
    · obtain ⟨i, hi⟩ := List.getElem?_of_mem hmX
      obtain ⟨k, _, hk⟩ := inv.xmap i m (by rw [hix]; exact getElem?_lt_length hi) hi
      exact List.getElem?_mem hk
    · obtain ⟨j, hj⟩ := List.getElem?_of_mem hmY
      obtain ⟨k, m2, _, hk, hc⟩ :=
        inv.ymap j m (by rw [hiy]; exact getElem?_lt_length hj) hj
      have e : m2 = m := by
        rcases hc with e | ⟨_, he⟩
        · exact e
        · exact hd _ _ he
      rw [← e]
      exact List.getElem?_mem hk

theorem sample_ctx_pair_distinct :
    ∀ i j, cmp_equal sample_cmp sample_ctx_pair i j → i = j := by
  intro i j h
  unfold cmp_equal at h
  rw [field_cmp_at_ok_iff] at h
  obtain ⟨a, b, ha, hb, hab⟩ := h
  have hi : i < 6 := getElem?_lt_length ha
  have hj : j < 6 := getElem?_lt_length hb
  interval_cases i <;> interval_cases j <;>
    first
    | rfl
    | (exfalso
       simp only [sample_ctx_pair, List.getElem?_cons_zero, List.getElem?_cons_succ,
         Option.some.injEq] at ha hb
       subst ha hb
       revert hab
       decide)

theorem sample_generators_valid :
    ∀ f ∈ sample_ctx.fields, generators_valid sample_ctx f := by
  unfold generators_valid indices_valid
  decide

theorem sample_pair_generators_valid :
    ∀ f ∈ sample_ctx_pair.fields, generators_valid sample_ctx_pair f := by
  unfold generators_valid indices_valid
  decide

/-- C1: for non-special values `x`, `y` of two distinct non-QQ fields of a well-formed
table (the generator lists of both fields hold table indices, the table has room for one
more record, each representation fits the record of its field), under a comparison that
swapping the arguments negates and for which distinct table entries never compare equal,
both `ca_merge_fields(x, y)` and `ca_merge_fields(y, x)` return: the loop run on the
generator lists `X`, `Y` (the extension list of a MULTI record, the field itself
otherwise) and the run on `Y`, `X` build the same merged list, which holds exactly the
entries of `X` and of `Y`, with the two index maps exchanged; both calls select the same
target index `z`, a MULTI record with the merged list as generators, and the same
context; and the image of `x` and the image of `y` are the same in both calls. -/
theorem ca_merge_fields_symmetric
    (ca_field_cmp : ca_field_struct → ca_field_struct → Int) (ctx : ca_ctx_struct)
    (x y : ca_struct) (fx fy : ca_field_struct)
    (ho : field_order ca_field_cmp)
    (hd : ∀ i j, cmp_equal ca_field_cmp ctx i j → i = j)
    (hx : CA_IS_SPECIAL x = false) (hy : CA_IS_SPECIAL y = false)
    (hne : x.field ≠ y.field)
    (hfx : ctx.fields[x.field]? = some fx) (hfy : ctx.fields[y.field]? = some fy)
    (hqx : fx.type ≠ .QQ) (hqy : fy.type ≠ .QQ)
    (hvx : generators_valid ctx fx) (hvy : generators_valid ctx fy)
    (hroom : ctx.fields_len ≤ ctx.fields_alloc) (h1 : 1 ≤ ctx.fields_alloc)
    (hfitx : elem_fits fx x.elem) (hfity : elem_fits fy y.elem) :
    ∃ X Y st z fz resx resy c1,
      X = (if fx.type = .MULTI then fx.multi_ext else [x.field]) ∧
      Y = (if fy.type = .MULTI then fy.multi_ext else [y.field]) ∧
      merge_lists ca_field_cmp ctx X Y = .ok st ∧
      merge_lists ca_field_cmp ctx Y X = .ok st.swap ∧
      st.swap.fields = st.fields ∧
      st.swap.ygen_map = st.xgen_map ∧ st.swap.xgen_map = st.ygen_map ∧
      (∀ m, m ∈ st.fields ↔ m ∈ X ∨ m ∈ Y) ∧
      select_field ctx st.fields = .ok (z, c1) ∧
      c1.fields[z]? = some fz ∧ fz.type = .MULTI ∧ fz.multi_ext = st.fields ∧
      lift_to_field c1 z x st.xgen_map = .ok resx ∧
      lift_to_field c1 z y st.ygen_map = .ok resy ∧
      resx.field = z ∧ resy.field = z ∧
      ca_merge_fields ca_field_cmp ctx x y = .ok (resx, resy, c1) ∧
      ca_merge_fields ca_field_cmp ctx y x = .ok (resy, resx, c1) := by
  obtain ⟨st, z, c1, fz, resx, resy, hm, inv, hix, hiy, hs, hfz, htz, hM, hlx, hly, hcall⟩ :=
    ca_merge_fields_returns ca_field_cmp ctx x y fx fy hx hy hne hfx hfy hqx hqy hvx hvy
      hroom h1 hfitx hfity
  have hm2 := merge_lists_swap ho hd hm
  have hcall2 :=
    (ca_merge_fields_swap_of_ok ca_field_cmp ctx c1 x y resx resy ho hd hne hcall).1
  have eX : generator_list fx x.field =
      if fx.type = .MULTI then fx.multi_ext else [x.field] := by
    unfold generator_list
    cases ht : fx.type <;> simp_all
  have eY : generator_list fy y.field =
      if fy.type = .MULTI then fy.multi_ext else [y.field] := by
    unfold generator_list
    cases ht : fy.type <;> simp_all
  rw [eX, eY] at hm hm2 inv
  rw [eX] at hix
  rw [eY] at hiy
  exact ⟨_, _, st, z, fz, resx, resy, c1, rfl, rfl, hm, hm2, rfl, rfl, rfl,
    merge_inv_mem_iff hd inv hix hiy, hs, hfz, htz, hM, hlx, hly,
    lift_to_field_field hlx, lift_to_field_field hly, hcall, hcall2⟩

theorem ca_merge_fields_symmetric_witness :
    (ca_merge_fields sample_cmp sample_ctx sample_m sample_x = .ok (
        sample_m,
        { field := 4, special := none,
          elem := .mpoly_q { terms := [(1, [1, 0])] } { terms := [(1, [0, 0])] } },
        sample_ctx) ∧
      ca_merge_fields sample_cmp sample_ctx sample_x sample_m = .ok (
        { field := 4, special := none,
          elem := .mpoly_q { terms := [(1, [1, 0])] } { terms := [(1, [0, 0])] } },
        sample_m,
        sample_ctx) ∧
      merge_lists sample_cmp sample_ctx [1, 2] [1] = .ok
        { ix := 2, iy := 1, fields := [1, 2],
          xgen_map := [some 0, some 1], ygen_map := [some 0] } ∧
      merge_lists sample_cmp sample_ctx [1] [1, 2] = .ok
        { ix := 1, iy := 2, fields := [1, 2],
          xgen_map := [some 0], ygen_map := [some 0, some 1] }) ∧
    (∃ X Y st z fz resx resy c1,
      X = (if sample_ctx.fields[4].type = .MULTI then sample_ctx.fields[4].multi_ext
            else [sample_m.field]) ∧
      Y = (if sample_ctx.fields[1].type = .MULTI then sample_ctx.fields[1].multi_ext
            else [sample_x.field]) ∧
      merge_lists sample_cmp sample_ctx X Y = .ok st ∧
      merge_lists sample_cmp sample_ctx Y X = .ok st.swap ∧
      st.swap.fields = st.fields ∧
      st.swap.ygen_map = st.xgen_map ∧ st.swap.xgen_map = st.ygen_map ∧
      (∀ m, m ∈ st.fields ↔ m ∈ X ∨ m ∈ Y) ∧
      select_field sample_ctx st.fields = .ok (z, c1) ∧
      c1.fields[z]? = some fz ∧ fz.type = .MULTI ∧ fz.multi_ext = st.fields ∧
      lift_to_field c1 z sample_m st.xgen_map = .ok resx ∧
      lift_to_field c1 z sample_x st.ygen_map = .ok resy ∧
      resx.field = z ∧ resy.field = z ∧
      ca_merge_fields sample_cmp sample_ctx sample_m sample_x = .ok (resx, resy, c1) ∧
      ca_merge_fields sample_cmp sample_ctx sample_x sample_m = .ok (resy, resx, c1)) ∧
    (ca_merge_fields sample_cmp sample_ctx_pair sample_n sample_m = .ok (
        { field := 6, special := none,
          elem := .mpoly_q { terms := [(5, [0, 1, 2]), (7, [0, 1, 0])] }
            { terms := [(4, [0, 0, 0])] } },
        { field := 6, special := none,
          elem := .mpoly_q { terms := [(2, [1, 1, 0]), (1, [0, 1, 0])] }
            { terms := [(3, [0, 0, 0])] } },
        { fields := sample_ctx_pair.fields ++ [ca_field_init_multi [1, 2, 3]],
          fields_alloc := 8 }) ∧
      ca_merge_fields sample_cmp sample_ctx_pair sample_m sample_n = .ok (
        { field := 6, special := none,
          elem := .mpoly_q { terms := [(2, [1, 1, 0]), (1, [0, 1, 0])] }
            { terms := [(3, [0, 0, 0])] } },
        { field := 6, special := none,
          elem := .mpoly_q { terms := [(5, [0, 1, 2]), (7, [0, 1, 0])] }
            { terms := [(4, [0, 0, 0])] } },
        { fields := sample_ctx_pair.fields ++ [ca_field_init_multi [1, 2, 3]],
          fields_alloc := 8 })) ∧
    (∃ X Y st z fz resx resy c1,
      X = (if sample_ctx_pair.fields[5].type = .MULTI
            then sample_ctx_pair.fields[5].multi_ext else [sample_n.field]) ∧
      Y = (if sample_ctx_pair.fields[4].type = .MULTI
            then sample_ctx_pair.fields[4].multi_ext else [sample_m.field]) ∧
      merge_lists sample_cmp sample_ctx_pair X Y = .ok st ∧
      merge_lists sample_cmp sample_ctx_pair Y X = .ok st.swap ∧
      st.swap.fields = st.fields ∧
      st.swap.ygen_map = st.xgen_map ∧ st.swap.xgen_map = st.ygen_map ∧
      (∀ m, m ∈ st.fields ↔ m ∈ X ∨ m ∈ Y) ∧
      select_field sample_ctx_pair st.fields = .ok (z, c1) ∧
      c1.fields[z]? = some fz ∧ fz.type = .MULTI ∧ fz.multi_ext = st.fields ∧
      lift_to_field c1 z sample_n st.xgen_map = .ok resx ∧
      lift_to_field c1 z sample_m st.ygen_map = .ok resy ∧
      resx.field = z ∧ resy.field = z ∧
      ca_merge_fields sample_cmp sample_ctx_pair sample_n sample_m = .ok (resx, resy, c1) ∧
      ca_merge_fields sample_cmp sample_ctx_pair sample_m sample_n = .ok (resy, resx, c1)) :=
  ⟨⟨rfl, rfl, rfl, rfl⟩,
    ca_merge_fields_symmetric sample_cmp sample_ctx sample_m sample_x
      sample_ctx.fields[4] sample_ctx.fields[1] sample_cmp_order sample_ctx_distinct
      rfl rfl (by decide) rfl rfl (by decide) (by decide)
      (sample_generators_valid _ (by simp [sample_ctx]))
      (sample_generators_valid _ (by simp [sample_ctx]))
      (by decide) (by decide)
      ⟨_, _, rfl, by decide, by decide⟩ ⟨_, _, rfl, by exact rfl⟩,
    ⟨rfl, rfl⟩,
    ca_merge_fields_symmetric sample_cmp sample_ctx_pair sample_n sample_m
      sample_ctx_pair.fields[5] sample_ctx_pair.fields[4] sample_cmp_order
      sample_ctx_pair_distinct
      rfl rfl (by decide) rfl rfl (by decide) (by decide)
      (sample_pair_generators_valid _ (by simp [sample_ctx_pair]))
      (sample_pair_generators_valid _ (by simp [sample_ctx_pair]))
      (by decide) (by decide)
      ⟨_, _, rfl, by decide, by decide⟩ ⟨_, _, rfl, by decide, by decide⟩⟩

end CaMerge
